import Mathlib

/-!
# The JBIG2 arithmetic (MQ) decoder of `internal/jbig2/decoder/arithmetic`

A shallow embedding of `arithmetic.go`: the constant table `qe`, the decoder
registers, byte-in (`readByte`), `renormalize`, the two exchange procedures,
`DecodeBit`, `DecodeInt`, `DecodeIAID`, `init` and `New`. Two smaller parts follow the
definitions of the decoder: the standard Huffman tables (`GetStandardTable`, modelled from
the specification) and the PostScript function parser of `ps/parser.go` (`Parse`,
`parseFunction` and the parsers of numbers, booleans and operands).

Conventions.
* `uint32` / `uint64` registers are natural numbers, reduced `% 2^32` / `% 2^64`
  wherever the Go operation can wrap.
* The `int64` field `previous` is kept as its 64-bit two's-complement pattern (a
  natural number below `2^64`); `toInt64` gives the signed value.
* A Go function that mutates its receiver and returns `(value, error)` becomes a
  function returning `Except Err value × state`: the state reached is returned on
  failure as well, because the receiver is mutated in place.
* `renormalize` is an unbounded `for` loop, so it takes a fuel argument; running
  out of fuel is the separate result `Err.outOfFuel`.
-/

namespace Arithmetic

/-- Failure kinds: `eof` is `io.EOF` from `ReadByte`, `negativeSeek` a `Seek` before
the start of the buffer, `indexOutOfRange` the run-time panic of a slice index, and
`outOfFuel` marks a loop of the model that was cut off. -/
inductive Err where
  | eof
  | negativeSeek
  | indexOutOfRange
  | outOfFuel
deriving DecidableEq

/-- The table `qe` (arithmetic.go:19-36), rows `{Qe, NMPS, NLPS, SWITCH}`. -/
def qe : List (Nat × Nat × Nat × Nat) := [
  (0x5601, 1, 1, 1), (0x3401, 2, 6, 0),
  (0x1801, 3, 9, 0), (0x0AC1, 4, 12, 0), (0x0521, 5, 29, 0), (0x0221, 38, 33, 0),
  (0x5601, 7, 6, 1), (0x5401, 8, 14, 0), (0x4801, 9, 14, 0), (0x3801, 10, 14, 0),
  (0x3001, 11, 17, 0), (0x2401, 12, 18, 0), (0x1C01, 13, 20, 0),
  (0x1601, 29, 21, 0), (0x5601, 15, 14, 1), (0x5401, 16, 14, 0),
  (0x5101, 17, 15, 0), (0x4801, 18, 16, 0), (0x3801, 19, 17, 0),
  (0x3401, 20, 18, 0), (0x3001, 21, 19, 0), (0x2801, 22, 19, 0),
  (0x2401, 23, 20, 0), (0x2201, 24, 21, 0), (0x1C01, 25, 22, 0),
  (0x1801, 26, 23, 0), (0x1601, 27, 24, 0), (0x1401, 28, 25, 0),
  (0x1201, 29, 26, 0), (0x1101, 30, 27, 0), (0x0AC1, 31, 28, 0),
  (0x09C1, 32, 29, 0), (0x08A1, 33, 30, 0), (0x0521, 34, 31, 0),
  (0x0441, 35, 32, 0), (0x02A1, 36, 33, 0), (0x0221, 37, 34, 0),
  (0x0141, 38, 35, 0), (0x0111, 39, 36, 0), (0x0085, 40, 37, 0),
  (0x0049, 41, 38, 0), (0x0025, 42, 39, 0), (0x0015, 43, 40, 0),
  (0x0009, 44, 41, 0), (0x0005, 45, 42, 0), (0x0001, 45, 43, 0),
  (0x5601, 46, 46, 0)]

/-- Signed value of a 64-bit two's-complement pattern (Go `int64`). -/
def toInt64 (p : Nat) : Int :=
  if p % 2 ^ 64 < 2 ^ 63 then ((p % 2 ^ 64 : Nat) : Int) else ((p % 2 ^ 64 : Nat) : Int) - 2 ^ 64

/-- The constant `math.MaxInt64`. -/
def MaxInt64 : Int := 2 ^ 63 - 1

/-- Modelled from the spec: the stream reader `reader.StreamReader` (package `reader`
is not among the sources). Section 4.1: a sequential, seekable reader over an
in-memory byte buffer with `readByte() -> byte or EOF`, `seek` and
`streamPosition()`. Only whole-byte reads are used by the arithmetic decoder. -/
structure Reader where
  data : List (Fin 256)
  pos : Nat
deriving DecidableEq

/-- The call `r.StreamPosition()`. -/
def Reader.StreamPosition (r : Reader) : Int := (r.pos : Int)

/-- The call `r.ReadByte()`: the byte at the position, which then advances by one;
`io.EOF` when no byte is left. -/
def Reader.ReadByte (r : Reader) : Except Err Nat × Reader :=
  match r.data[r.pos]? with
  | some b => (.ok b.val, { r with pos := r.pos + 1 })
  | none => (.error .eof, r)

/-- The call `r.Seek(offset, io.SeekCurrent)`: a relative seek, refused when it would
land before the start of the buffer. -/
def Reader.Seek (r : Reader) (offset : Int) : Except Err Unit × Reader :=
  if (r.pos : Int) + offset < 0 then (.error .negativeSeek, r)
  else (.ok (), { r with pos := ((r.pos : Int) + offset).toNat })

/-- Modelled from the spec: the context table `DecoderStats` (stats.go is not among the
sources). Sections 3 and 4.3: a mapping from context index to (probability state
index, more probable symbol), each slot tracked independently, addressed through the
current `index`. The two columns are the slices `codingContextTable` and `mps`
(arithmetic.go:364 reads `stats.mps[stats.index]`). -/
structure DecoderStats where
  index : Int
  contextSize : Nat
  codingContextTable : List Nat
  mps : List Nat
deriving DecidableEq

/-- The call `NewStats(contextSize, index)`: every slot starts at state 0 with MPS 0. -/
def NewStats (contextSize : Nat) (index : Int) : DecoderStats :=
  { index := index, contextSize := contextSize,
    codingContextTable := List.replicate contextSize 0,
    mps := List.replicate contextSize 0 }

/-- The call `stats.SetIndex(index)`. -/
def DecoderStats.SetIndex (s : DecoderStats) (index : Int) : DecoderStats :=
  { s with index := index }

/-- The call `stats.cx()`: the state index of the current slot; `none` is the panic of an
index outside the table. -/
def DecoderStats.cx (s : DecoderStats) : Option Nat :=
  if s.index < 0 then none else s.codingContextTable[s.index.toNat]?

/-- The call `stats.getMps()`, also `stats.mps[stats.index]`. -/
def DecoderStats.getMps (s : DecoderStats) : Option Nat :=
  if s.index < 0 then none else s.mps[s.index.toNat]?

/-- The call `stats.setEntry(value)`: store the state index of the current slot. -/
def DecoderStats.setEntry (s : DecoderStats) (value : Nat) : Option DecoderStats :=
  if s.index < 0 then none
  else if s.index.toNat < s.codingContextTable.length then
    some { s with codingContextTable := s.codingContextTable.set s.index.toNat value }
  else none

/-- The call `stats.toggleMps()`: flip the MPS bit of the current slot. -/
def DecoderStats.toggleMps (s : DecoderStats) : Option DecoderStats :=
  if s.index < 0 then none
  else match s.mps[s.index.toNat]? with
    | some m => some { s with mps := s.mps.set s.index.toNat (m ^^^ 1) }
    | none => none

/-- The struct `Decoder` (arithmetic.go:74-87). -/
structure Decoder where
  ContextSize : List Int
  ReferedToContextSize : List Int
  r : Reader
  b : Nat
  c : Nat
  a : Nat
  previous : Nat
  ct : Int
  prvCtr : Int
  streamPosition : Int
deriving DecidableEq

/-- Byte-in, `Decoder.readByte` (arithmetic.go:282-324). -/
def Decoder.readByte (d : Decoder) : Except Err Unit × Decoder :=
  match (if d.r.StreamPosition > d.streamPosition then d.r.Seek (-1) else (.ok (), d.r)) with
  | (.error e, r) => (.error e, { d with r := r })
  | (.ok _, r) =>
    match r.ReadByte with
    | (.error e, r) => (.error e, { d with r := r })
    | (.ok b, r) =>
      if b = 0xFF then
        match r.ReadByte with
        | (.error e, r) => (.error e, { d with r := r, b := b })
        | (.ok b1, r) =>
          if b1 > 0x8F then
            match r.Seek (-2) with
            | (.error e, r) =>
              (.error e, { d with r := r, b := b, c := (d.c + 0xFF00) % 2 ^ 64, ct := 8 })
            | (.ok _, r) =>
              (.ok (), { d with r := r, b := b,
                                c := ((d.c + 0xFF00) % 2 ^ 64) &&& 0xFFFFFFFFFF, ct := 8 })
          else
            (.ok (), { d with r := r, b := b,
                              c := ((d.c + (b1 <<< 9)) % 2 ^ 64) &&& 0xFFFFFFFFFF, ct := 7 })
      else
        match r.ReadByte with
        | (.error e, r) => (.error e, { d with r := r, b := b })
        | (.ok b2, r) =>
          (.ok (), { d with r := r, b := b2,
                            c := ((d.c + (b2 <<< 8)) % 2 ^ 64) &&& 0xFFFFFFFFFF, ct := 8 })

/-- The loop of `Decoder.renormalize` (arithmetic.go:327-341): byte-in when `ct` is 0,
shift `a` and `c`, count down, and leave once bit 15 of `a` is set. -/
def renormalizeLoop : Nat → Decoder → Except Err Unit × Decoder
  | 0, d => (.error .outOfFuel, d)
  | fuel + 1, d =>
    match (if d.ct = 0 then d.readByte else (.ok (), d)) with
    | (.error e, d) => (.error e, d)
    | (.ok _, d) =>
      let d1 : Decoder :=
        { d with a := (d.a <<< 1) % 2 ^ 32, c := (d.c <<< 1) % 2 ^ 64, ct := d.ct - 1 }
      if d1.a &&& 0x8000 ≠ 0 then (.ok (), d1) else renormalizeLoop fuel d1

/-- The method `Decoder.renormalize` (arithmetic.go:326-345). -/
def Decoder.renormalize (fuel : Nat) (d : Decoder) : Except Err Unit × Decoder :=
  match renormalizeLoop fuel d with
  | (.error e, d) => (.error e, d)
  | (.ok _, d) => (.ok (), { d with c := d.c &&& 0xffffffff })

/-- The method `Decoder.mpsExchange` (arithmetic.go:363-377); `1 - mps` is byte
arithmetic. The decoder itself is only read. -/
def Decoder.mpsExchange (d : Decoder) (stats : DecoderStats) (icx : Nat) :
    Option (Nat × DecoderStats) :=
  match stats.getMps, qe[icx]? with
  | some mps, some row =>
    if d.a < row.1 then
      match (if row.2.2.2 = 1 then stats.toggleMps else some stats) with
      | none => none
      | some stats1 =>
        match stats1.setEntry row.2.2.1 with
        | none => none
        | some stats2 => some ((1 + 256 - mps) % 256, stats2)
    else
      match stats.setEntry row.2.1 with
      | none => none
      | some stats1 => some (mps, stats1)
  | _, _ => none

/-- The method `Decoder.lpsExchange` (arithmetic.go:379-394). -/
def Decoder.lpsExchange (d : Decoder) (stats : DecoderStats) (icx : Nat) (qeValue : Nat) :
    Option (Nat × Decoder × DecoderStats) :=
  match stats.getMps, qe[icx]? with
  | some mps, some row =>
    if d.a < qeValue then
      match stats.setEntry row.2.1 with
      | none => none
      | some stats1 => some (mps, { d with a := qeValue }, stats1)
    else
      match (if row.2.2.2 = 1 then stats.toggleMps else some stats) with
      | none => none
      | some stats1 =>
        match stats1.setEntry row.2.2.1 with
        | none => none
        | some stats2 => some ((1 + 256 - mps) % 256, { d with a := qeValue }, stats2)
  | _, _ => none

/-- The method `Decoder.DecodeBit` (arithmetic.go:106-138). The deferred `d.prvCtr++` runs
on every return after the two lookups of the `var` block. The subtraction from `c` is
guarded by `(c >> 16) >= qeValue`, so it cannot wrap. -/
def Decoder.DecodeBit (fuel : Nat) (d : Decoder) (stats : DecoderStats) :
    Except Err Nat × Decoder × DecoderStats :=
  match stats.cx with
  | none => (.error .indexOutOfRange, d, stats)
  | some icx =>
    match qe[icx]? with
    | none => (.error .indexOutOfRange, d, stats)
    | some row =>
      let qeValue := row.1
      let d1 : Decoder := { d with a := (d.a + 2 ^ 32 - qeValue) % 2 ^ 32 }
      if d1.c >>> 16 < qeValue then
        match d1.lpsExchange stats icx qeValue with
        | none => (.error .indexOutOfRange, { d1 with prvCtr := d1.prvCtr + 1 }, stats)
        | some (bit, d2, stats1) =>
          match d2.renormalize fuel with
          | (.error e, d3) => (.error e, { d3 with prvCtr := d3.prvCtr + 1 }, stats1)
          | (.ok _, d3) => (.ok bit, { d3 with prvCtr := d3.prvCtr + 1 }, stats1)
      else
        let d2 : Decoder := { d1 with c := d1.c - (qeValue <<< 16) }
        if d2.a &&& 0x8000 = 0 then
          match d2.mpsExchange stats icx with
          | none => (.error .indexOutOfRange, { d2 with prvCtr := d2.prvCtr + 1 }, stats)
          | some (bit, stats1) =>
            match d2.renormalize fuel with
            | (.error e, d3) => (.error e, { d3 with prvCtr := d3.prvCtr + 1 }, stats1)
            | (.ok _, d3) => (.ok bit, { d3 with prvCtr := d3.prvCtr + 1 }, stats1)
        else
          match stats.getMps with
          | none => (.error .indexOutOfRange, { d2 with prvCtr := d2.prvCtr + 1 }, stats)
          | some m => (.ok m, { d2 with prvCtr := d2.prvCtr + 1 }, stats)

/-- The method `Decoder.decodeIntBit` (arithmetic.go:347-361). -/
def Decoder.decodeIntBit (fuel : Nat) (d : Decoder) (stats : DecoderStats) :
    Except Err Nat × Decoder × DecoderStats :=
  match d.DecodeBit fuel (stats.SetIndex (toInt64 d.previous)) with
  | (.error e, d1, stats1) => (.error e, d1, stats1)
  | (.ok bit, d1, stats1) =>
    if toInt64 d1.previous < 256 then
      (.ok bit,
        { d1 with previous := (((d1.previous <<< 1) % 2 ^ 64) ||| bit) &&& 0x1ff }, stats1)
    else
      (.ok bit,
        { d1 with previous :=
            (((((d1.previous <<< 1) % 2 ^ 64) ||| bit) &&& 511) ||| 256) &&& 0x1ff }, stats1)

/-- The nested tests of `DecodeInt` (arithmetic.go:157-218): up to five further bits choose
the pair `(bitsToRead, offset)`. -/
def Decoder.decodeIntRange (fuel : Nat) (d : Decoder) (stats : DecoderStats) :
    Except Err (Nat × Nat) × Decoder × DecoderStats :=
  match d.decodeIntBit fuel stats with
  | (.error e, d1, s1) => (.error e, d1, s1)
  | (.ok bit1, d1, s1) =>
    if bit1 = 1 then
      match d1.decodeIntBit fuel s1 with
      | (.error e, d2, s2) => (.error e, d2, s2)
      | (.ok bit2, d2, s2) =>
        if bit2 = 1 then
          match d2.decodeIntBit fuel s2 with
          | (.error e, d3, s3) => (.error e, d3, s3)
          | (.ok bit3, d3, s3) =>
            if bit3 = 1 then
              match d3.decodeIntBit fuel s3 with
              | (.error e, d4, s4) => (.error e, d4, s4)
              | (.ok bit4, d4, s4) =>
                if bit4 = 1 then
                  match d4.decodeIntBit fuel s4 with
                  | (.error e, d5, s5) => (.error e, d5, s5)
                  | (.ok bit5, d5, s5) =>
                    if bit5 = 1 then (.ok (32, 4436), d5, s5)
                    else (.ok (12, 340), d5, s5)
                else (.ok (8, 84), d4, s4)
            else (.ok (6, 20), d3, s3)
        else (.ok (4, 4), d2, s2)
    else (.ok (2, 0), d1, s1)

/-- The value loop of `DecodeInt` (arithmetic.go:220-226): `n` more bits, each shifted into
`value`. At most 32 bits are read from 0, so the Go `int` cannot wrap. -/
def Decoder.decodeIntValue (fuel : Nat) :
    Nat → Nat → Decoder → DecoderStats → Except Err Nat × Decoder × DecoderStats
  | 0, value, d, stats => (.ok value, d, stats)
  | n + 1, value, d, stats =>
    match d.decodeIntBit fuel stats with
    | (.error e, d1, s1) => (.error e, d1, s1)
    | (.ok bit, d1, s1) => Decoder.decodeIntValue fuel n ((value <<< 1) ||| bit) d1 s1

/-- The first statement of `DecodeInt` (arithmetic.go:146-148): a nil `stats` is replaced by
`NewStats(512, 1)`. -/
def statsOrNew (stats : Option DecoderStats) : DecoderStats :=
  match stats with
  | none => NewStats 512 1
  | some s => s

/-- The method `Decoder.DecodeInt` (arithmetic.go:141-235); the table that was used is part
of the result. -/
def Decoder.DecodeInt (fuel : Nat) (d : Decoder) (stats : Option DecoderStats) :
    Except Err Int × Decoder × DecoderStats :=
  match ({ d with previous := 1 } : Decoder).decodeIntBit fuel (statsOrNew stats) with
  | (.error e, d1, s1) => (.error e, d1, s1)
  | (.ok s, d1, s1) =>
    match d1.decodeIntRange fuel s1 with
    | (.error e, d2, s2) => (.error e, d2, s2)
    | (.ok (bitsToRead, offset), d2, s2) =>
      match Decoder.decodeIntValue fuel bitsToRead 0 d2 s2 with
      | (.error e, d3, s3) => (.error e, d3, s3)
      | (.ok v, d3, s3) =>
        let value := v + offset
        if s = 0 then (.ok (value : Int), d3, s3)
        else if s = 1 ∧ value > 0 then (.ok (-(value : Int)), d3, s3)
        else (.ok MaxInt64, d3, s3)

/-- The loop of `DecodeIAID` (arithmetic.go:244-252), `n` iterations left. -/
def Decoder.iaidLoop (fuel : Nat) :
    Nat → Decoder → DecoderStats → Except Err Unit × Decoder × DecoderStats
  | 0, d, stats => (.ok (), d, stats)
  | n + 1, d, stats =>
    match d.DecodeBit fuel (stats.SetIndex (toInt64 d.previous)) with
    | (.error e, d1, s1) => (.error e, d1, s1)
    | (.ok bit, d1, s1) =>
      Decoder.iaidLoop fuel n { d1 with previous := ((d1.previous <<< 1) % 2 ^ 64) ||| bit } s1

/-- The method `Decoder.DecodeIAID` (arithmetic.go:238-257); `1 << codeLen` is an `int64`
shift, which is 0 from 64 on. -/
def Decoder.DecodeIAID (fuel : Nat) (d : Decoder) (codeLen : Nat) (stats : DecoderStats) :
    Except Err Int × Decoder × DecoderStats :=
  match Decoder.iaidLoop fuel codeLen { d with previous := 1 } stats with
  | (.error e, d1, s1) => (.error e, d1, s1)
  | (.ok _, d1, s1) =>
    (.ok (toInt64 ((d1.previous + 2 ^ 64 - (1 <<< codeLen) % 2 ^ 64) % 2 ^ 64)), d1, s1)

/-- The method `Decoder.init` (arithmetic.go:259-280). -/
def Decoder.init (d : Decoder) : Except Err Unit × Decoder :=
  match d.r.ReadByte with
  | (.error e, r) => (.error e, { d with r := r, streamPosition := d.r.StreamPosition })
  | (.ok b, r) =>
    match ({ d with r := r, streamPosition := d.r.StreamPosition, b := b,
                    c := (b <<< 16) % 2 ^ 64 } : Decoder).readByte with
    | (.error e, d1) => (.error e, d1)
    | (.ok _, d1) =>
      (.ok (), { d1 with c := (d1.c <<< 7) % 2 ^ 64, ct := d1.ct - 7, a := 0x8000,
                         prvCtr := d1.prvCtr + 1 })

/-- The function `New` (arithmetic.go:90-103): a zero-valued decoder over `r`, initialised
from the reader; on failure no decoder is returned. -/
def New (r : Reader) : Except Err Decoder :=
  match ({ ContextSize := [16, 13, 10, 10], ReferedToContextSize := [13, 10], r := r,
           b := 0, c := 0, a := 0, previous := 0, ct := 0, prvCtr := 0,
           streamPosition := 0 } : Decoder).init with
  | (.error e, _) => .error e
  | (.ok _, d) => .ok d

/-! ## Specification-side definitions -/

/-- States reachable from `New` by successful `DecodeBit` calls, each on any statistics
table and with any fuel. -/
inductive Reachable : Decoder → Prop where
  | init (r : Reader) (d : Decoder) : New r = .ok d → Reachable d
  | step (fuel : Nat) (d : Decoder) (stats : DecoderStats) (bit : Nat) (d1 : Decoder)
      (stats1 : DecoderStats) :
      Reachable d → d.DecodeBit fuel stats = (.ok bit, d1, stats1) → Reachable d1

/-- Every MPS entry of the table is a bit. -/
def DecoderStats.mpsBits (s : DecoderStats) : Prop := ∀ m ∈ s.mps, m ≤ 1

instance (s : DecoderStats) : Decidable s.mpsBits := by
  unfold DecoderStats.mpsBits
  infer_instance

/-- The unsigned integer formed by a list of bits, most significant bit first. -/
def bitsMSB (bits : List Nat) : Nat := bits.foldl (fun v b => 2 * v + b) 0

/-- Specification-side run: `n` bits are decoded one after the other by `DecodeBit`, the bit
that follows the already decoded bits `sofar` on the context index `ctx sofar`; nothing
else touches the decoder. The result lists all bits, `sofar` included. -/
def decodeBits (fuel : Nat) (ctx : List Nat → Int) :
    Nat → List Nat → Decoder → DecoderStats → Except Err (List Nat) × Decoder × DecoderStats
  | 0, sofar, d, s => (.ok sofar, d, s)
  | n + 1, sofar, d, s =>
    match d.DecodeBit fuel (s.SetIndex (ctx sofar)) with
    | (.error e, d1, s1) => (.error e, d1, s1)
    | (.ok bit, d1, s1) => decodeBits fuel ctx n (sofar ++ [bit]) d1 s1

/-- The context index of `DecodeIAID` for the bit after `sofar`: `(1 << i) | bits`, `i` the
number of bits decoded so far. -/
def iaidContext (sofar : List Nat) : Int :=
  (((1 <<< sofar.length) ||| bitsMSB sofar : Nat) : Int)

/-- The history update of `DecodeInt` in the words of section 4.2:
`((previous<<1)|bit) & 0x1FF` if `previous < 256`, else
`(((previous<<1|bit) & 511) | 256) & 0x1FF`. -/
def nextPrevious (previous bit : Nat) : Nat :=
  if previous < 256 then ((previous <<< 1) ||| bit) &&& 0x1FF
  else ((((previous <<< 1) ||| bit) &&& 511) ||| 256) &&& 0x1FF

/-- The history value of `DecodeInt` after the bits `sofar`, starting from 1. -/
def intContext (sofar : List Nat) : Nat := sofar.foldl nextPrevious 1

/-- The pair `(bitsToRead, offset)` selected by the bits that follow the sign bit, in the
words of section 4.2. -/
def selectRange (pre : List Nat) : Option (Nat × Nat) :=
  if pre = [0] then some (2, 0)
  else if pre = [1, 0] then some (4, 4)
  else if pre = [1, 1, 0] then some (6, 20)
  else if pre = [1, 1, 1, 0] then some (8, 84)
  else if pre = [1, 1, 1, 1, 0] then some (12, 340)
  else if pre = [1, 1, 1, 1, 1] then some (32, 4436)
  else none

/-- The statement that `DecodeInt`, from decoder `d` and table `s` with the bits `sofar`
already decoded, decodes the further bits `new` and reaches `d1`, `s1`: it is a run of
`new.length` `DecodeBit` calls, each on the context index given by the history value
`intContext` of the bits before it; the field `previous` holds that history value at the
end, every decoded bit is 0 or 1, and `prvCtr` counts the calls. The run itself is
stated on decoders whose `previous` is pinned to `p0`, as `DecodeBit` does not use it. -/
def IntRun (fuel p0 : Nat) (sofar : List Nat) (d : Decoder) (s : DecoderStats)
    (new : List Nat) (d1 : Decoder) (s1 : DecoderStats) : Prop :=
  decodeBits fuel (fun l => (intContext l : Int)) new.length sofar { d with previous := p0 } s =
      (.ok (sofar ++ new), { d1 with previous := p0 }, s1) ∧
    d1.previous = intContext (sofar ++ new) ∧ (∀ b ∈ new, b ≤ 1) ∧ s1.mpsBits ∧
    d1.prvCtr = d.prvCtr + new.length

/-- A decoder over the buffer `data` at position `pos` with registers `a`, `c`, `ct`, the
initial position 0 and the remaining fields zero; used for concrete instances. -/
def mkDecoder (data : List (Fin 256)) (pos : Nat) (a c : Nat) (ct : Int) : Decoder :=
  { ContextSize := [16, 13, 10, 10], ReferedToContextSize := [13, 10], r := ⟨data, pos⟩,
    b := 0, c := c, a := a, previous := 0, ct := ct, prvCtr := 0, streamPosition := 0 }

/-- A decoder as `New` leaves it on the buffer `98 03 A5 5A` (concrete instance). -/
def sampleDecoderA : Decoder := mkDecoder [0x98, 0x03, 0xA5, 0x5A] 2 0x8000 0x4C018000 1

/-- A decoder as `New` leaves it on the buffer `D0 40 00 00` (concrete instance). -/
def sampleDecoderB : Decoder := mkDecoder [0xD0, 0x40, 0x00, 0x00] 2 0x8000 0x68200000 1

/-- The table `s1` differs from `s` at most in the slot addressed by the index of `s`: same
index and size, and every other slot has the same state index and the same MPS bit. -/
def DecoderStats.agreeOff (s s1 : DecoderStats) : Prop :=
  s1.index = s.index ∧ s1.contextSize = s.contextSize ∧
  s1.codingContextTable.length = s.codingContextTable.length ∧ s1.mps.length = s.mps.length ∧
  ∀ j : Nat, (j : Int) ≠ s.index →
    s1.codingContextTable[j]? = s.codingContextTable[j]? ∧ s1.mps[j]? = s.mps[j]?

/-- The decoder with the bookkeeping fields `b` and `prvCtr` cleared: what is left are the
registers `a`, `c`, `ct`, the history `previous`, the reader and the initial position. -/
def Decoder.eraseBookkeeping (d : Decoder) : Decoder := { d with b := 0, prvCtr := 0 }

/-- One call of the decoding interface on the statistics table of a session: `DecodeBit` at
a context index, `DecodeInt`, or `DecodeIAID` with a code length. -/
inductive Call where
  | bit (index : Int)
  | int
  | iaid (codeLen : Nat)
deriving DecidableEq

/-- Perform one call; the value of a bit is reported as an integer. -/
def runCall (fuel : Nat) (d : Decoder) (s : DecoderStats) :
    Call → Except Err Int × Decoder × DecoderStats
  | .bit index =>
    match d.DecodeBit fuel (s.SetIndex index) with
    | (.error e, d1, s1) => (.error e, d1, s1)
    | (.ok bit, d1, s1) => (.ok (bit : Int), d1, s1)
  | .int => d.DecodeInt fuel (some s)
  | .iaid codeLen => d.DecodeIAID fuel codeLen s

/-- Perform a sequence of calls one after the other, going on after a failed call as a
caller may; the results are listed in order. -/
def runCalls (fuel : Nat) :
    List Call → Decoder → DecoderStats → List (Except Err Int) × Decoder × DecoderStats
  | [], d, s => ([], d, s)
  | call :: calls, d, s =>
    match runCall fuel d s call with
    | (res, d1, s1) =>
      match runCalls fuel calls d1 s1 with
      | (results, d2, s2) => (res :: results, d2, s2)

/-- Sequencing of two decoding steps on the decoder and the table: the second step runs on
the result of the first if the first succeeds. -/
def andThen {α β : Type} (F : Decoder → DecoderStats → Except Err α × Decoder × DecoderStats)
    (G : α → Decoder → DecoderStats → Except Err β × Decoder × DecoderStats) :
    Decoder → DecoderStats → Except Err β × Decoder × DecoderStats :=
  fun d s =>
    match F d s with
    | (.error e, d1, s1) => (.error e, d1, s1)
    | (.ok a, d1, s1) => G a d1 s1

/-- A decoding step is blind to the bookkeeping fields: from two decoders that agree up to
`b` and `prvCtr`, on the same table, it gives the same result and the same table, and
decoders that again agree up to `b` and `prvCtr`. -/
def Blind {α : Type} (F : Decoder → DecoderStats → Except Err α × Decoder × DecoderStats) :
    Prop :=
  ∀ (d e : Decoder) (s : DecoderStats), d.eraseBookkeeping = e.eraseBookkeeping →
    (F d s).1 = (F e s).1 ∧
    (F d s).2.1.eraseBookkeeping = (F e s).2.1.eraseBookkeeping ∧ (F d s).2.2 = (F e s).2.2

/-- The renormalization loop in the words of section 4.2, the test coming first:
`while (A & 0x8000) == 0: if CT == 0 run byte-in; A <<= 1; C <<= 1; CT -= 1`. -/
def renormalizeSpecLoop : Nat → Decoder → Except Err Unit × Decoder
  | 0, d => if d.a &&& 0x8000 ≠ 0 then (.ok (), d) else (.error .outOfFuel, d)
  | fuel + 1, d =>
    if d.a &&& 0x8000 ≠ 0 then (.ok (), d)
    else
      match (if d.ct = 0 then d.readByte else (.ok (), d)) with
      | (.error e, d) => (.error e, d)
      | (.ok _, d) =>
        renormalizeSpecLoop fuel
          { d with a := (d.a <<< 1) % 2 ^ 32, c := (d.c <<< 1) % 2 ^ 64, ct := d.ct - 1 }

/-- Renormalize in the words of the specification: the loop above, then `C` reduced modulo
`2^32`. -/
def renormalizeSpec (fuel : Nat) (d : Decoder) : Except Err Unit × Decoder :=
  match renormalizeSpecLoop fuel d with
  | (.error e, d) => (.error e, d)
  | (.ok _, d) => (.ok (), { d with c := d.c % 2 ^ 32 })

/-- The decoder state with which `DecodeBit` enters `renormalize`, when it does: after
`lpsExchange` on the LPS path, after the subtraction from `c` on the MPS path with bit 15
of `a` clear (arithmetic.go:120-122 and 126-130). -/
def Decoder.renormalizeEntry (d : Decoder) (stats : DecoderStats) : Option Decoder :=
  match stats.cx with
  | none => none
  | some icx =>
    match qe[icx]? with
    | none => none
    | some row =>
      let qeValue := row.1
      let d1 : Decoder := { d with a := (d.a + 2 ^ 32 - qeValue) % 2 ^ 32 }
      if d1.c >>> 16 < qeValue then
        match d1.lpsExchange stats icx qeValue with
        | none => none
        | some (_, d2, _) => some d2
      else
        let d2 : Decoder := { d1 with c := d1.c - (qeValue <<< 16) }
        if d2.a &&& 0x8000 = 0 then
          match d2.mpsExchange stats icx with
          | none => none
          | some _ => some d2
        else none

/-- The end-of-data marker at offset `q` of the buffer: `0xFF` followed by a byte above
`0x8F`. -/
def MarkerAt (data : List (Fin 256)) (q : Nat) : Prop :=
  ∃ B B1 : Fin 256, data[q]? = some B ∧ data[q + 1]? = some B1 ∧ B.val = 0xFF ∧ 0x8F < B1.val

/-- The byte at offset `i` of the buffer, if there is one, is not `0xFF`. -/
def NotFF (data : List (Fin 256)) (i : Nat) : Prop :=
  ∀ B : Fin 256, data[i]? = some B → B.val ≠ 0xFF

/-- The offset of the first byte that `readByte` reads: one back from the position once the
reader has moved past the initial position (arithmetic.go:283-289). -/
def Decoder.byteInOffset (d : Decoder) : Nat :=
  if d.r.StreamPosition > d.streamPosition then d.r.pos - 1 else d.r.pos

/-- The decoder states in which the loop of `renormalize` calls `readByte`, in the order of
the calls: `renormalizeLoop` with the calls recorded. -/
def renormalizeByteIns : Nat → Decoder → List Decoder
  | 0, _ => []
  | fuel + 1, d =>
    match (if d.ct = 0 then d.readByte else (.ok (), d)) with
    | (.error _, _) => if d.ct = 0 then [d] else []
    | (.ok _, d0) =>
      let d1 : Decoder :=
        { d0 with a := (d0.a <<< 1) % 2 ^ 32, c := (d0.c <<< 1) % 2 ^ 64, ct := d0.ct - 1 }
      (if d.ct = 0 then [d] else []) ++
        (if d1.a &&& 0x8000 ≠ 0 then [] else renormalizeByteIns fuel d1)

/-- The states in which one call of `DecodeBit` calls `readByte`: those of its
`renormalize`, when it renormalizes. -/
def Decoder.byteIns (fuel : Nat) (d : Decoder) (stats : DecoderStats) : List Decoder :=
  match d.renormalizeEntry stats with
  | none => []
  | some e => renormalizeByteIns fuel e

/-- The state in which `init`, called by `New` on `r`, calls `readByte`
(arithmetic.go:260-270). -/
def initByteIn (r : Reader) : Option Decoder :=
  match r.ReadByte with
  | (.error _, _) => none
  | (.ok b, r1) =>
    some { ContextSize := [16, 13, 10, 10], ReferedToContextSize := [13, 10], r := r1,
           b := b, c := (b <<< 16) % 2 ^ 64, a := 0, previous := 0, ct := 0, prvCtr := 0,
           streamPosition := r.StreamPosition }

/-- A session started by `New`: the decoder after `New` and any number of successful calls
of `DecodeBit`, `DecodeInt` and `DecodeIAID`, each on any table and with any fuel. The
states between the `DecodeBit` calls that `DecodeInt` and `DecodeIAID` make are sessions
too: between these calls the two methods only update the field `previous`. -/
inductive Session : Decoder → Prop where
  | init (r : Reader) (d : Decoder) : New r = .ok d → Session d
  | bit (fuel : Nat) (d : Decoder) (stats : DecoderStats) (bit : Nat) (d1 : Decoder)
      (stats1 : DecoderStats) :
      Session d → d.DecodeBit fuel stats = (.ok bit, d1, stats1) → Session d1
  | int (fuel : Nat) (d : Decoder) (stats : Option DecoderStats) (v : Int) (d1 : Decoder)
      (stats1 : DecoderStats) :
      Session d → d.DecodeInt fuel stats = (.ok v, d1, stats1) → Session d1
  | iaid (fuel : Nat) (d : Decoder) (codeLen : Nat) (stats : DecoderStats) (v : Int)
      (d1 : Decoder) (stats1 : DecoderStats) :
      Session d → d.DecodeIAID fuel codeLen stats = (.ok v, d1, stats1) → Session d1
  | previous (d : Decoder) (p : Nat) : Session d → Session { d with previous := p }

/-- What a call made of `DecodeBit` calls and updates of `previous` leaves, for a property
`P` of decoders: after a success the decoder has `P`; after a failure, the error, the
decoder and the table are those of a failed `DecodeBit` call made from a decoder
with `P`. -/
def CallOutcome {α : Type} (P : Decoder → Prop) (fuel : Nat)
    (res : Except Err α × Decoder × DecoderStats) : Prop :=
  match res with
  | (.ok _, d1, _) => P d1
  | (.error e, d1, s1) =>
    ∃ (d0 : Decoder) (stats0 : DecoderStats), P d0 ∧ d0.DecodeBit fuel stats0 = (.error e, d1, s1)

/-- A decoding step keeps the property `P`: from a decoder with `P`, on any table, its
outcome is a `CallOutcome` for `P`. -/
def Keeps {α : Type} (P : Decoder → Prop) (fuel : Nat)
    (F : Decoder → DecoderStats → Except Err α × Decoder × DecoderStats) : Prop :=
  ∀ (d : Decoder) (s : DecoderStats), P d → CallOutcome P fuel (F d s)

/-- A run started by `New`, with the byte-in calls it has made: `Run log d` when `d` is the
decoder after `New`, a number of successful `DecodeBit` calls (each on any table) and
updates of the field `previous`, and `log` lists in order the states in which `readByte`
has been called so far, the call made by `init` first. `DecodeInt` and `DecodeIAID` reach
the decoder only through `DecodeBit` calls and updates of `previous`, so a run followed by
a successful `DecodeInt` or `DecodeIAID` is a run again, the log extended by the byte-in
calls of its `DecodeBit` calls (`run_DecodeInt`, `run_DecodeIAID`). -/
inductive Run : List Decoder → Decoder → Prop where
  | init (r : Reader) (e d : Decoder) : initByteIn r = some e → New r = .ok d → Run [e] d
  | step (fuel : Nat) (log : List Decoder) (d : Decoder) (stats : DecoderStats) (bit : Nat)
      (d1 : Decoder) (stats1 : DecoderStats) :
      Run log d → d.DecodeBit fuel stats = (.ok bit, d1, stats1) →
      Run (log ++ d.byteIns fuel stats) d1
  | previous (log : List Decoder) (d : Decoder) (p : Nat) :
      Run log d → Run log { d with previous := p }

/-- The reader of a run, with `s` the initial position: at `s + 1` (entry of the byte-in
of `init`), at `s` on a marker, past `s + 1` with no marker two bytes back, or on a marker
whose predecessor is not `0xFF`. -/
def ReaderInv (r : Reader) (sp : Int) : Prop :=
  ∃ s : Nat, sp = (s : Int) ∧ r.pos ≤ r.data.length ∧
    (r.pos = s + 1 ∨ (r.pos = s ∧ MarkerAt r.data s) ∨
     (s + 2 ≤ r.pos ∧ ¬ MarkerAt r.data (r.pos - 2)) ∨
     (s + 1 ≤ r.pos ∧ MarkerAt r.data r.pos ∧ NotFF r.data (r.pos - 1)))

/-- The reader once the marker at `q` has been found: on the marker, or one past its first
byte; the byte before the marker is not `0xFF` unless the marker is at the initial
position. -/
def Absorbed (q : Nat) (r : Reader) (sp : Int) : Prop :=
  ∃ s : Nat, sp = (s : Int) ∧ MarkerAt r.data q ∧
    ((r.pos = q ∧ q = s) ∨
     (s < q ∧ NotFF r.data (q - 1) ∧ (r.pos = q ∨ r.pos = q + 1)))

/-- The readers of a list of byte-in calls follow one another: each call starts with the
reader `(r, sp)` left by the one before, and the last leaves `(r1, sp1)`. -/
def Trail : Reader → Int → List Decoder → Reader → Int → Prop
  | r, sp, [], r1, sp1 => r1 = r ∧ sp1 = sp
  | r, sp, e :: rest, r1, sp1 =>
    e.r = r ∧ e.streamPosition = sp ∧ Trail e.readByte.2.r e.readByte.2.streamPosition rest r1 sp1

end Arithmetic

/-! ## Standard Huffman tables -/

namespace Huffman

/-- Modelled from the spec: the error of the Huffman table subsystem (package `huffman` has
only its test among the sources). Section 7: InvalidTableIndex, the Huffman table number is
out of the valid range. -/
inductive Err where
  | invalidTableIndex
deriving DecidableEq

/-- Modelled from the spec: a line of a prefix-code table (section 3, HuffmanTable):
`(rangeLow, prefixLength, rangeLength, isLowerRange, isOutOfBand)`. -/
structure Line where
  rangeLow : Int
  prefixLength : Nat
  rangeLength : Nat
  isLowerRange : Bool
  isOutOfBand : Bool
deriving DecidableEq

/-- Modelled from the spec: a node of the binary prefix-code tree (section 4.4): a leaf for a
line, or an inner node with a subtree under the bit 0 and one under the bit 1, either of
which may be missing. -/
inductive Node where
  | leaf (line : Line)
  | inner (zero one : Option Node)

/-- Modelled from the spec: a `HuffmanTable`, the lines it was built from and the root of
its tree; `rootNode` is the result of `RootNode()`, `none` standing for nil. -/
structure Table where
  lines : List Line
  rootNode : Option Node

/-- Modelled from the spec: the code of a line as bits, first bit first: the `prefixLength`
low bits of the code value (section 4.4, leaves are keyed by `(prefixLength, code-value)`). -/
def codeBits (prefixLength code : Nat) : List Bool :=
  (List.range prefixLength).map (fun i => code.testBit (prefixLength - 1 - i))

/-- Modelled from the spec: hang the leaf of `line` under `node` along the bits of its code,
making the inner nodes that are missing on the way (section 4.4: each line contributes
leaves to the tree). A place already taken by a leaf is kept. -/
def Node.append : Option Node → List Bool → Line → Node
  | some (.leaf l), _, _ => .leaf l
  | none, [], line => .leaf line
  | some (.inner zero one), [], _ => .inner zero one
  | none, b :: bits, line =>
    if b then .inner none (some (Node.append none bits line))
    else .inner (some (Node.append none bits line)) none
  | some (.inner zero one), b :: bits, line =>
    if b then .inner zero (some (Node.append one bits line))
    else .inner (some (Node.append zero bits line)) one

/-- Modelled from the spec: build a table from an ordered sequence of lines, each with its
code value (section 4.4): the tree starts as an inner node without children, the root, and
every line with a non-empty prefix is hung under it. -/
def newStandardTable (lines : List (Line × Nat)) : Table :=
  { lines := lines.map Prod.fst,
    rootNode := some (lines.foldl
      (fun root lc =>
        if lc.1.prefixLength = 0 then root
        else Node.append (some root) (codeBits lc.1.prefixLength lc.2) lc.1)
      (Node.inner none none)) }

/-- Modelled from the spec: `GetStandardTable(n)` (section 4.4): the predefined table number
`n` for `n` in `[1, N]`, the error InvalidTableIndex for `n <= 0` or `n > N`. The
definitions `tables` of the `N` standard tables, lines with their code values, are the
published constants of the external specification (section 6) and are a parameter. -/
def GetStandardTable (tables : List (List (Line × Nat))) (n : Int) : Except Err Table :=
  if n ≤ 0 ∨ n > (tables.length : Int) then .error .invalidTableIndex
  else
    match tables[(n - 1).toNat]? with
    | none => .error .invalidTableIndex
    | some lines => .ok (newStandardTable lines)

end Huffman

/-! ## The PostScript function parser -/

namespace PS

/-- The `for` loop of `PSParser.parseNumber` (parser.go:151-184) on the bytes not yet read,
with the flags `isFloat`, `allowSigns` and the text `numStr` read so far; the result is
`numStr`, `isFloat` and the bytes left unread. `Peek(1)` on an empty input is `io.EOF`,
which ends the loop. `IsDecimalDigit` stands for `pdfcore.IsDecimalDigit` (package `core`
is not among the sources). -/
def parseNumberLoop (IsDecimalDigit : Fin 256 → Bool) :
    List (Fin 256) → Bool → Bool → List (Fin 256) → List (Fin 256) × Bool × List (Fin 256)
  | [], isFloat, _, numStr => (numStr, isFloat, [])
  | b :: rest, isFloat, allowSigns, numStr =>
    if allowSigns = true ∧ (b = 0x2D ∨ b = 0x2B) then
      parseNumberLoop IsDecimalDigit rest isFloat false (numStr ++ [b])
    else if IsDecimalDigit b = true then
      parseNumberLoop IsDecimalDigit rest isFloat allowSigns (numStr ++ [b])
    else if b = 0x2E then
      parseNumberLoop IsDecimalDigit rest true allowSigns (numStr ++ [b])
    else if b = 0x65 then
      parseNumberLoop IsDecimalDigit rest true true (numStr ++ [b])
    else (numStr, isFloat, b :: rest)

/-- The method `PSParser.parseNumber` (parser.go:147-196): the loop started with
`isFloat = false`, `allowSigns = true` and an empty `numStr`, then the conversion of
`numStr` to a real or an integer object by `strconv`, which is the parameter `convert`.
The result is the object (or error) of the conversion and the bytes left unread. -/
def parseNumber {α : Type} (IsDecimalDigit : Fin 256 → Bool)
    (convert : List (Fin 256) → Bool → α) (input : List (Fin 256)) : α × List (Fin 256) :=
  match parseNumberLoop IsDecimalDigit input false true [] with
  | (numStr, isFloat, rest) => (convert numStr isFloat, rest)

/-- Failures of the parser: `eof` is `io.EOF` from `Peek`, the next five are the errors made
by parser.go and `strconv`, in the order `Parse`, `parseFunction`, `parseNumber`,
`parseBool`, `parseOperand`; `outOfFuel` and `depthExceeded` are the two cut-offs of the
embedding, for the loop of `parseFunction` and for its recursion. -/
inductive Err where
  | eof
  | notAProgram
  | invalidFunction
  | invalidNumber
  | unexpectedBoolean
  | emptyOperand
  | outOfFuel
  | depthExceeded
deriving DecidableEq

/-- The objects of a program (`PSObject`): numbers as `strconv` converts them (values of
the type `ν`), booleans, operands by name, and programs (`PSProgram`, a list of
objects). -/
inductive PSObject (ν : Type) where
  | number (v : ν)
  | boolean (b : Bool)
  | operand (name : List (Fin 256))
  | program (objs : List (PSObject ν))

/-- The helpers the parser takes from outside the sources: the byte classes of package
`core` (`pdfcore.IsWhiteSpace`, `pdfcore.IsDelimiter`, `pdfcore.IsDecimalDigit`) and the
conversion of the text of a number by `strconv` (`none` when it returns an error). -/
structure Helpers (ν : Type) where
  IsWhiteSpace : Fin 256 → Bool
  IsDelimiter : Fin 256 → Bool
  IsDecimalDigit : Fin 256 → Bool
  convert : List (Fin 256) → Bool → Option ν

/-- The method `PSParser.skipSpaces` (parser.go:127-143) on the bytes not yet read, `cnt`
counting the bytes skipped: the count, or the error of `Peek(1)` at the end of the input,
and the bytes left unread. -/
def skipSpaces (IsWhiteSpace : Fin 256 → Bool) :
    List (Fin 256) → Nat → Except Err Nat × List (Fin 256)
  | [], _ => (.error .eof, [])
  | b :: rest, cnt =>
    if IsWhiteSpace b = true then skipSpaces IsWhiteSpace rest (cnt + 1)
    else (.ok cnt, b :: rest)

/-- The method `PSParser.parseBool` (parser.go:199-219): `true` or `false` at the head of
the input is read; `Peek` fails when fewer bytes are left than asked for. -/
def parseBool (input : List (Fin 256)) : Except Err Bool × List (Fin 256) :=
  if input.length < 4 then (.error .eof, input)
  else if input.take 4 = [0x74, 0x72, 0x75, 0x65] then (.ok true, input.drop 4)
  else if input.length < 5 then (.error .eof, input)
  else if input.take 5 = [0x66, 0x61, 0x6C, 0x73, 0x65] then (.ok false, input.drop 5)
  else (.error .unexpectedBoolean, input)

/-- The `for` loop of `PSParser.parseOperand` (parser.go:224-241): bytes are read up to a
delimiter, a white space or the end of the input; the result is the bytes read and the
bytes left unread. -/
def parseOperandLoop (IsDelimiter IsWhiteSpace : Fin 256 → Bool) :
    List (Fin 256) → List (Fin 256) → List (Fin 256) × List (Fin 256)
  | [], bytes => (bytes, [])
  | b :: rest, bytes =>
    if IsDelimiter b = true then (bytes, b :: rest)
    else if IsWhiteSpace b = true then (bytes, b :: rest)
    else parseOperandLoop IsDelimiter IsWhiteSpace rest (bytes ++ [b])

/-- The method `PSParser.parseOperand` (parser.go:222-248): the loop, then the error for an
operand without bytes. -/
def parseOperand {ν : Type} (h : Helpers ν) (input : List (Fin 256)) :
    Except Err (PSObject ν) × List (Fin 256) :=
  match parseOperandLoop h.IsDelimiter h.IsWhiteSpace input [] with
  | (bytes, rest) =>
    if bytes.length = 0 then (.error .emptyOperand, rest) else (.ok (.operand bytes), rest)

/-- The outcome of one iteration of the loop of `parseFunction`: the function returns
(`done`, with its result), or the loop goes on (`next`) with the objects collected so far;
in both cases with the bytes left unread. -/
inductive Step (ν : Type) where
  | done (res : Except Err (List (PSObject ν))) (rest : List (Fin 256))
  | next (objs : List (PSObject ν)) (rest : List (Fin 256))

/-- One iteration of the loop of `PSParser.parseFunction` (parser.go:64-120), `objs` being
the objects appended to `function` so far and `nested` the recursive call of
`parseFunction`. `Peek(2)` fails with `io.EOF`, which ends the loop, when fewer than two
bytes are left. -/
def loopBody {ν : Type} (h : Helpers ν)
    (nested : List (Fin 256) → Except Err (List (PSObject ν)) × List (Fin 256))
    (input : List (Fin 256)) (objs : List (PSObject ν)) : Step ν :=
  match (skipSpaces h.IsWhiteSpace input 0).2 with
  | [] => .done (.ok objs) []
  | [b] => .done (.ok objs) [b]
  | b0 :: b1 :: rest =>
    if b0 = 0x7D then .done (.ok objs) (b1 :: rest)
    else if b0 = 0x7B then
      match nested (b0 :: b1 :: rest) with
      | (.error e, r) => .done (.error e) r
      | (.ok inlineF, r) => .next (objs ++ [.program inlineF]) r
    else if h.IsDecimalDigit b0 = true ∨ (b0 = 0x2D ∧ h.IsDecimalDigit b1 = true) then
      match parseNumber h.IsDecimalDigit h.convert (b0 :: b1 :: rest) with
      | (none, r) => .done (.error .invalidNumber) r
      | (some v, r) => .next (objs ++ [.number v]) r
    else
      let peekStr := (b0 :: b1 :: rest).take 5
      if peekStr.length > 4 ∧ peekStr.take 5 = [0x66, 0x61, 0x6C, 0x73, 0x65] then
        match parseBool (b0 :: b1 :: rest) with
        | (.error e, r) => .done (.error e) r
        | (.ok b, r) => .next (objs ++ [.boolean b]) r
      else if peekStr.length > 3 ∧ peekStr.take 4 = [0x74, 0x72, 0x75, 0x65] then
        match parseBool (b0 :: b1 :: rest) with
        | (.error e, r) => .done (.error e) r
        | (.ok b, r) => .next (objs ++ [.boolean b]) r
      else
        match parseOperand h (b0 :: b1 :: rest) with
        | (.error e, r) => .done (.error e) r
        | (.ok operand, r) => .next (objs ++ [operand]) r

/-- The loop of `PSParser.parseFunction` (parser.go:63-121): iterations of `loopBody` until
one returns. The loop of the source is unbounded, so it takes fuel, one unit an iteration;
running out of it is the result `Err.outOfFuel`. -/
def parseFunctionLoop {ν : Type} (h : Helpers ν)
    (nested : List (Fin 256) → Except Err (List (PSObject ν)) × List (Fin 256)) :
    Nat → List (Fin 256) → List (PSObject ν) → Except Err (List (PSObject ν)) × List (Fin 256)
  | 0, input, _ => (.error .outOfFuel, input)
  | fuel + 1, input, objs =>
    match loopBody h nested input objs with
    | .done res rest => (res, rest)
    | .next objs1 rest => parseFunctionLoop h nested fuel rest objs1

/-- The method `PSParser.parseFunction` (parser.go:55-124): one byte is read, which must be
`{` (at the end of the input `ReadByte` gives the byte 0), then the loop runs, its nested
functions parsed by the method itself. `depth` is the number of calls of `parseFunction`
that may be active at a time, this one included: a call beyond it is the result
`Err.depthExceeded`. Each loop gets `fuel` iterations. -/
def parseFunction {ν : Type} (h : Helpers ν) :
    Nat → Nat → List (Fin 256) → Except Err (List (PSObject ν)) × List (Fin 256)
  | 0, _, input => (.error .depthExceeded, input)
  | depth + 1, fuel, input =>
    match input with
    | [] => (.error .invalidFunction, [])
    | c :: rest =>
      if c ≠ 0x7B then (.error .invalidFunction, rest)
      else parseFunctionLoop h (fun i => parseFunction h depth fuel i) fuel rest []

/-- The method `PSParser.Parse` (parser.go:35-51) on the content given to `NewPSParser`:
spaces are skipped, two bytes must be left of which the first is `{`, and the program is
the function parsed from there. An error of `parseFunction` is returned as it is. -/
def Parse {ν : Type} (h : Helpers ν) (depth fuel : Nat) (content : List (Fin 256)) :
    Except Err (List (PSObject ν)) × List (Fin 256) :=
  match (skipSpaces h.IsWhiteSpace content 0).2 with
  | [] => (.error .eof, [])
  | [b] => (.error .eof, [b])
  | b0 :: b1 :: rest =>
    if b0 ≠ 0x7B then (.error .notAProgram, b0 :: b1 :: rest)
    else parseFunction h depth fuel (b0 :: b1 :: rest)

/-- Helpers for concrete instances: white space is the blank and the line feed, the
delimiters are `( ) < > [ ] { } / %`, the digits are `0` to `9`, and the conversion keeps
the text of the number and the flag `isFloat`. -/
def sampleHelpers : Helpers (List (Fin 256) × Bool) :=
  { IsWhiteSpace := fun b => b = 0x20 || b = 0x0A,
    IsDelimiter := fun b =>
      b = 0x28 || b = 0x29 || b = 0x3C || b = 0x3E || b = 0x5B || b = 0x5D || b = 0x7B ||
      b = 0x7D || b = 0x2F || b = 0x25,
    IsDecimalDigit := fun b => decide (0x30 ≤ b.val ∧ b.val ≤ 0x39),
    convert := fun numStr isFloat => some (numStr, isFloat) }

end PS

namespace Arithmetic

/-! ## Arithmetic helpers -/

theorem and_0x8000 (a : Nat) : a &&& 0x8000 = (a / 0x8000 % 2) * 0x8000 := by
  have h := Nat.and_two_pow a 15
  rw [Nat.testBit_to_div_mod] at h
  norm_num at h
  rw [h]
  by_cases h2 : a / 32768 % 2 = 1
  · simp [h2]
  · have : a / 32768 % 2 = 0 := by omega
    simp [this]

theorem and_mask40 (x : Nat) : x &&& 0xFFFFFFFFFF = x % 2 ^ 40 :=
  Nat.and_pow_two_sub_one_eq_mod x 40

theorem and_mask32 (x : Nat) : x &&& 0xffffffff = x % 2 ^ 32 :=
  Nat.and_pow_two_sub_one_eq_mod x 32

theorem and_mask9 (x : Nat) : x &&& 0x1ff = x % 2 ^ 9 :=
  Nat.and_pow_two_sub_one_eq_mod x 9

theorem shl1_or_bit (x b : Nat) (h : b ≤ 1) : (x <<< 1) ||| b = 2 * x + b := by
  rw [Nat.shiftLeft_eq, Nat.mul_comm]
  exact (Nat.mul_add_lt_is_or (i := 1) (by omega) x).symm

theorem qe_rows : ∀ row ∈ qe,
    0 < row.1 ∧ row.1 ≤ 0x5601 ∧ row.2.1 ≤ 46 ∧ row.2.2.1 ≤ 46 ∧ row.2.2.2 ≤ 1 := by
  decide

theorem qe_row_bounds {k : Nat} {row : Nat × Nat × Nat × Nat} (h : qe[k]? = some row) :
    0 < row.1 ∧ row.1 ≤ 0x5601 ∧ row.2.1 ≤ 46 ∧ row.2.2.1 ≤ 46 ∧ row.2.2.2 ≤ 1 :=
  qe_rows row (List.getElem?_mem h)

/-! ## Byte-in -/

/-- The three outcomes of byte-in as one equation: the state left by `readByte` when the
byte before the position is `B` and the byte at the position is `B1`. -/
theorem readByte_eq (d : Decoder) (B B1 : Fin 256)
    (h0 : 0 ≤ d.streamPosition) (hpos : d.streamPosition < (d.r.pos : Int))
    (hB : d.r.data[d.r.pos - 1]? = some B) (hB1 : d.r.data[d.r.pos]? = some B1) :
    d.readByte = (.ok (),
      { d with
        r := { d.r with pos := if B.val = 0xFF ∧ 0x8F < B1.val then d.r.pos - 1
                               else d.r.pos + 1 },
        b := if B.val = 0xFF then B.val else B1.val,
        c := (d.c + (if B.val = 0xFF then (if 0x8F < B1.val then 0xFF00 else B1.val <<< 9)
                     else B1.val <<< 8)) % 2 ^ 40,
        ct := if B.val = 0xFF ∧ B1.val ≤ 0x8F then 7 else 8 }) := by
  have hp : 1 ≤ d.r.pos := by omega
  have e1 : ((d.r.pos : Int) + -1).toNat = d.r.pos - 1 := by omega
  have e2 : d.r.pos - 1 + 1 = d.r.pos := by omega
  have e3 : ((((d.r.pos + 1 : Nat) : Int)) + -2).toNat = d.r.pos - 1 := by omega
  have m40 : ∀ x : Nat, (x % 2 ^ 64) &&& 0xFFFFFFFFFF = x % 2 ^ 40 := fun x => by
    rw [and_mask40]; exact Nat.mod_mod_of_dvd x (by norm_num)
  simp only [Decoder.readByte, Reader.StreamPosition, Reader.Seek, Reader.ReadByte]
  rw [if_pos (by omega), if_neg (by omega)]
  simp only [e1, hB, e2, hB1, m40]
  by_cases hff : B.val = 0xFF
  · by_cases hb1 : 0x8F < B1.val
    · simp only [hff, if_true, hb1, gt_iff_lt, true_and]
      rw [if_neg (by omega)]
      simp only [e3]
      rw [if_neg (by omega)]
    · simp only [hff, if_true, hb1, gt_iff_lt, if_false, true_and, false_and]
      rw [if_pos (by omega)]
  · simp only [hff, if_false, false_and]

/-- C6. Byte-in entered at stream position `p` past the initial position, with `B` the
byte at `p-1` and `B1` the byte at `p`: it succeeds, and `c`, `ct` and the final position
are those of the three cases (marker, stuffed byte, plain byte), `c` reduced modulo
`2^40` in each of them. -/
theorem readByte_cases (d : Decoder) (B B1 : Fin 256)
    (h0 : 0 ≤ d.streamPosition) (hpos : d.streamPosition < (d.r.pos : Int))
    (hB : d.r.data[d.r.pos - 1]? = some B) (hB1 : d.r.data[d.r.pos]? = some B1) :
    ∃ d1, d.readByte = (.ok (), d1) ∧ d1.r.data = d.r.data ∧
      (B.val = 0xFF → 0x8F < B1.val →
        d1.c = (d.c + 0xFF00) % 2 ^ 40 ∧ d1.ct = 8 ∧ d1.r.pos = d.r.pos - 1) ∧
      (B.val = 0xFF → B1.val ≤ 0x8F →
        d1.c = (d.c + (B1.val <<< 9)) % 2 ^ 40 ∧ d1.ct = 7 ∧ d1.r.pos = d.r.pos + 1) ∧
      (B.val ≠ 0xFF →
        d1.c = (d.c + (B1.val <<< 8)) % 2 ^ 40 ∧ d1.ct = 8 ∧ d1.r.pos = d.r.pos + 1) := by
  refine ⟨_, readByte_eq d B B1 h0 hpos hB hB1, rfl, ?_, ?_, ?_⟩
  · intro hff hb1
    simp [hff, hb1]
  · intro hff hb1
    have : ¬ (0x8F < B1.val) := by omega
    simp [hff, hb1, this]
  · intro hff
    simp [hff]

/-- Witness of C6: a decoder at position 1 of the buffer `FF 90` meets the marker case. -/
theorem readByte_cases_witness :
    ∃ d1, (mkDecoder [0xFF, 0x90] 1 0 0xFF0000 0).readByte = (.ok (), d1) ∧
      d1.r.data = [0xFF, 0x90] ∧
      ((0xFF : Fin 256).val = 0xFF → 0x8F < (0x90 : Fin 256).val →
        d1.c = (0xFF0000 + 0xFF00) % 2 ^ 40 ∧ d1.ct = 8 ∧ d1.r.pos = 1 - 1) ∧
      ((0xFF : Fin 256).val = 0xFF → (0x90 : Fin 256).val ≤ 0x8F →
        d1.c = (0xFF0000 + ((0x90 : Fin 256).val <<< 9)) % 2 ^ 40 ∧ d1.ct = 7 ∧
          d1.r.pos = 1 + 1) ∧
      ((0xFF : Fin 256).val ≠ 0xFF →
        d1.c = (0xFF0000 + ((0x90 : Fin 256).val <<< 8)) % 2 ^ 40 ∧ d1.ct = 8 ∧
          d1.r.pos = 1 + 1) :=
  readByte_cases (mkDecoder [0xFF, 0x90] 1 0 0xFF0000 0) 0xFF 0x90 (by decide) (by decide)
    (by decide) (by decide)

/-! ## Initialisation -/

/-- The decoder built by `New` when the reader still holds the two bytes `b0`, `b1`. -/
theorem New_eq (r : Reader) (b0 b1 : Fin 256)
    (h0 : r.data[r.pos]? = some b0) (h1 : r.data[r.pos + 1]? = some b1) :
    New r = .ok
      { ContextSize := [16, 13, 10, 10], ReferedToContextSize := [13, 10],
        r := { r with pos := if b0.val = 0xFF ∧ 0x8F < b1.val then r.pos else r.pos + 2 },
        b := if b0.val = 0xFF then b0.val else b1.val,
        c := ((b0.val <<< 16) +
              (if b0.val = 0xFF then (if 0x8F < b1.val then 0xFF00 else b1.val <<< 9)
               else b1.val <<< 8)) <<< 7,
        a := 0x8000, previous := 0,
        ct := if b0.val = 0xFF ∧ b1.val ≤ 0x8F then 0 else 1,
        prvCtr := 1, streamPosition := (r.pos : Int) } := by
  have hb0 := b0.isLt
  have hb1 := b1.isLt
  have hrb := readByte_eq
    { ContextSize := [16, 13, 10, 10], ReferedToContextSize := [13, 10],
      r := { r with pos := r.pos + 1 }, b := b0.val, c := (b0.val <<< 16) % 2 ^ 64,
      a := 0, previous := 0, ct := 0, prvCtr := 0, streamPosition := (r.pos : Int) }
    b0 b1 (by simp) (by simp) (by simpa using h0) (by simpa using h1)
  simp only [New, Decoder.init, Reader.ReadByte, h0, Reader.StreamPosition, hrb]
  clear hrb
  simp only [Nat.shiftLeft_eq]
  congr 2
  all_goals repeat' split
  all_goals omega

/-- With fewer than two bytes left, `New` fails with `io.EOF`. -/
theorem New_short (r : Reader) (h : r.data.length < r.pos + 2) : New r = .error .eof := by
  cases h0 : r.data[r.pos]? with
  | none => simp [New, Decoder.init, Reader.ReadByte, h0]
  | some b0 =>
    have hlen : r.pos < r.data.length := by
      by_contra hc
      rw [List.getElem?_eq_none (by omega)] at h0
      exact absurd h0 (by simp)
    have h1 : r.data[r.pos + 1]? = none := List.getElem?_eq_none (by omega)
    have e1 : ((((r.pos + 1 : Nat) : Int)) + -1).toNat = r.pos := by omega
    simp only [New, Decoder.init, Reader.ReadByte, h0, Reader.StreamPosition,
      Decoder.readByte, Reader.Seek]
    rw [if_pos (by omega), if_neg (by omega)]
    simp only [e1, h0, h1]
    by_cases hff : b0.val = 0xFF <;> simp [hff]

/-- C7. After a successful `New` on a reader whose next two bytes are `b0`, `b1`: `a` is
`0x8000`, and `c`, `ct` are those of the three byte-in cases; in the marker case the reader
is back at its starting position; `c` is below `2^32` in every case. -/
theorem New_registers (r : Reader) (d : Decoder) (b0 b1 : Fin 256)
    (h0 : r.data[r.pos]? = some b0) (h1 : r.data[r.pos + 1]? = some b1)
    (h : New r = .ok d) :
    d.a = 0x8000 ∧
    (b0.val ≠ 0xFF → d.c = ((b0.val <<< 16) + (b1.val <<< 8)) <<< 7 ∧ d.ct = 1) ∧
    (b0.val = 0xFF → b1.val ≤ 0x8F →
      d.c = ((0xFF <<< 16) + (b1.val <<< 9)) <<< 7 ∧ d.ct = 0) ∧
    (b0.val = 0xFF → 0x8F < b1.val →
      d.c = ((0xFF <<< 16) + 0xFF00) <<< 7 ∧ d.ct = 1 ∧ d.r.pos = r.pos) ∧
    d.c < 2 ^ 32 := by
  have hb0 := b0.isLt
  have hb1 := b1.isLt
  rw [New_eq r b0 b1 h0 h1] at h
  injection h with h
  subst h
  refine ⟨rfl, ?_, ?_, ?_, ?_⟩
  · intro hff
    simp [hff]
  · intro hff hle
    have : ¬ (0x8F < b1.val) := by omega
    simp [hff, hle, this]
  · intro hff hgt
    have : ¬ (b1.val ≤ 0x8F) := by omega
    simp [hff, hgt, this]
  · simp only [Nat.shiftLeft_eq]
    split <;> try split
    all_goals omega

/-- Witness of C7: `New` on the two bytes `08 03`. -/
theorem New_registers_witness :
    (0x8000 : Nat) = 0x8000 ∧
    ((0x08 : Fin 256).val ≠ 0xFF →
      (0x4018000 : Nat) = (((0x08 : Fin 256).val <<< 16) + ((0x03 : Fin 256).val <<< 8)) <<< 7 ∧
        (1 : Int) = 1) ∧
    ((0x08 : Fin 256).val = 0xFF → (0x03 : Fin 256).val ≤ 0x8F →
      (0x4018000 : Nat) = ((0xFF <<< 16) + ((0x03 : Fin 256).val <<< 9)) <<< 7 ∧
        (1 : Int) = 0) ∧
    ((0x08 : Fin 256).val = 0xFF → 0x8F < (0x03 : Fin 256).val →
      (0x4018000 : Nat) = ((0xFF <<< 16) + 0xFF00) <<< 7 ∧ (1 : Int) = 1 ∧ (2 : Nat) = 0) ∧
    (0x4018000 : Nat) < 2 ^ 32 :=
  New_registers ⟨[0x08, 0x03], 0⟩
    { mkDecoder [0x08, 0x03] 2 0x8000 0x4018000 1 with b := 3, prvCtr := 1 } 0x08 0x03
    (by decide) (by decide) rfl

/-- C8. `New` fails exactly when fewer than two bytes remain from the reader position,
and then with the end-of-input error; with two bytes or more it returns a decoder, whose
`c` is built from the two bytes really present in the buffer. -/
theorem New_error_iff (r : Reader) :
    ((∃ e, New r = .error e) ↔ r.data.length < r.pos + 2) ∧
    ((∃ d, New r = .ok d) ↔ r.pos + 2 ≤ r.data.length) ∧
    (∀ e, New r = .error e → e = .eof) ∧
    (∀ d, New r = .ok d → ∃ b0 b1 : Fin 256,
      r.data[r.pos]? = some b0 ∧ r.data[r.pos + 1]? = some b1 ∧
      d.c = ((b0.val <<< 16) +
             (if b0.val = 0xFF then (if 0x8F < b1.val then 0xFF00 else b1.val <<< 9)
              else b1.val <<< 8)) <<< 7) := by
  by_cases hlen : r.data.length < r.pos + 2
  · have hs := New_short r hlen
    refine ⟨⟨fun _ => hlen, fun _ => ⟨_, hs⟩⟩, ⟨?_, fun h => by omega⟩, ?_, ?_⟩
    · rintro ⟨d, hd⟩
      rw [hs] at hd
      cases hd
    · intro e he
      rw [hs] at he
      injection he with he
      exact he.symm
    · intro d hd
      rw [hs] at hd
      cases hd
  · have hl0 : r.pos < r.data.length := by omega
    have hl1 : r.pos + 1 < r.data.length := by omega
    have h0 : r.data[r.pos]? = some r.data[r.pos] := List.getElem?_eq_getElem hl0
    have h1 : r.data[r.pos + 1]? = some r.data[r.pos + 1] := List.getElem?_eq_getElem hl1
    have hs := New_eq r _ _ h0 h1
    refine ⟨⟨?_, fun h => absurd h hlen⟩, ⟨fun _ => by omega, fun _ => ⟨_, hs⟩⟩, ?_, ?_⟩
    · rintro ⟨e, he⟩
      rw [hs] at he
      cases he
    · intro e he
      rw [hs] at he
      cases he
    · intro d hd
      rw [hs] at hd
      injection hd with hd
      subst hd
      exact ⟨_, _, h0, h1, rfl⟩

/-! ## DecodeBit: the path without exchange, and the LPS exchange -/

/-- C9. When `(c >> 16) >= qeValue` and bit 15 of `a - qeValue` is set, `DecodeBit` returns
the MPS bit of the context without error; the statistics table, the reader (data and
position), `ct`, `b` and `previous` are as before, `a` has lost `qeValue`, `c` has lost
`qeValue << 16` (no wrap), and the call counter `prvCtr` is one higher. -/
theorem DecodeBit_mps_direct (fuel : Nat) (d : Decoder) (stats : DecoderStats) (k m : Nat)
    (row : Nat × Nat × Nat × Nat)
    (hcx : stats.cx = some k) (hrow : qe[k]? = some row) (hm : stats.getMps = some m)
    (hc : row.1 ≤ d.c >>> 16) (ha : ((d.a + 2 ^ 32 - row.1) % 2 ^ 32) &&& 0x8000 ≠ 0) :
    d.DecodeBit fuel stats =
      (.ok m, { d with a := (d.a + 2 ^ 32 - row.1) % 2 ^ 32, c := d.c - (row.1 <<< 16),
                       prvCtr := d.prvCtr + 1 }, stats) ∧
    row.1 <<< 16 ≤ d.c := by
  constructor
  · simp only [Decoder.DecodeBit, hcx, hrow]
    rw [if_neg (by omega), if_neg ha]
    simp only [hm]
  · rw [Nat.shiftRight_eq_div_pow] at hc
    rw [Nat.shiftLeft_eq]
    have := Nat.div_mul_le_self d.c (2 ^ 16)
    have := Nat.mul_le_mul_right (2 ^ 16) hc
    omega

/-- Witness of C9: state 0 (`qeValue = 0x5601`) with `a = 0xE000` and `c = 0x60000000`. -/
theorem DecodeBit_mps_direct_witness :
    (mkDecoder [] 0 0xE000 0x60000000 3).DecodeBit 0 (NewStats 1 0) =
      (.ok 0, { mkDecoder [] 0 0xE000 0x60000000 3 with
                a := 0xE000 - 0x5601, c := 0x60000000 - 0x56010000, prvCtr := 1 },
        NewStats 1 0) :=
  (DecodeBit_mps_direct 0 (mkDecoder [] 0 0xE000 0x60000000 3) (NewStats 1 0) 0 0
    (0x5601, 1, 1, 1) (by decide) (by decide) (by decide) (by decide) (by decide)).1

/-- C10, as stated, fails: state 0 has `switchMPS = 1`, and with `a = 0x8000`, `c = 0` the
call takes the LPS path with `a - qeValue = 0x29FF < 0x5601`; it returns the MPS bit 0 and
moves to state `nextIndexIfMPS = 1`, and the MPS bit of the context is still 0: it was not
flipped. -/
theorem lpsExchange_flip_counterexample :
    (qe[0]?).map (fun row => row.2.2.2) = some 1 ∧
    (NewStats 1 0).getMps = some 0 ∧
    (mkDecoder [] 0 (0x8000 - 0x5601) 0 3).lpsExchange (NewStats 1 0) 0 0x5601 =
      some (0, mkDecoder [] 0 0x5601 0 3,
        { index := 0, contextSize := 1, codingContextTable := [1], mps := [0] }) ∧
    ((mkDecoder [] 0 0x8000 0 3).DecodeBit 1 (NewStats 1 0)).1 = .ok 0 ∧
    ((mkDecoder [] 0 0x8000 0 3).DecodeBit 1 (NewStats 1 0)).2.2 =
      { index := 0, contextSize := 1, codingContextTable := [1], mps := [0] } :=
  ⟨by decide, by decide, by decide, rfl, by decide⟩

/-- C10, amended. In `lpsExchange` with `a < qeValue` (the row being that of the context):
the output is the MPS bit of the context, `a` becomes `qeValue`, the state index becomes
`nextIndexIfMPS` of the row, and the MPS column is left as it was, whatever the
`switchMPS` flag of the row. -/
theorem lpsExchange_lt (d : Decoder) (stats : DecoderStats) (k m : Nat)
    (row : Nat × Nat × Nat × Nat)
    (hcx : stats.cx = some k) (hrow : qe[k]? = some row) (hm : stats.getMps = some m)
    (ha : d.a < row.1) :
    ∃ stats1, d.lpsExchange stats k row.1 = some (m, { d with a := row.1 }, stats1) ∧
      stats1.cx = some row.2.1 ∧ stats1.getMps = some m ∧ stats1.mps = stats.mps ∧
      stats1.index = stats.index := by
  have hidx : ¬ stats.index < 0 := by
    intro h
    simp [DecoderStats.cx, h] at hcx
  have hlen : stats.index.toNat < stats.codingContextTable.length := by
    by_contra hc
    simp only [DecoderStats.cx, hidx, if_false] at hcx
    rw [List.getElem?_eq_none (by omega)] at hcx
    exact absurd hcx (by simp)
  refine ⟨{ stats with codingContextTable :=
              stats.codingContextTable.set stats.index.toNat row.2.1 }, ?_, ?_, ?_, rfl, rfl⟩
  · simp [Decoder.lpsExchange, hm, hrow, ha, DecoderStats.setEntry, hidx, hlen]
  · simp [DecoderStats.cx, hidx, List.getElem?_set_self hlen]
  · simpa [DecoderStats.getMps, hidx] using hm

/-- Witness of the amended C10: state 0 with `a = 0x29FF`. -/
theorem lpsExchange_lt_witness :
    ∃ stats1, (mkDecoder [] 0 0x29FF 0 3).lpsExchange (NewStats 1 0) 0 0x5601 =
        some (0, { mkDecoder [] 0 0x29FF 0 3 with a := 0x5601 }, stats1) ∧
      stats1.cx = some 1 ∧ stats1.getMps = some 0 ∧ stats1.mps = (NewStats 1 0).mps ∧
      stats1.index = (NewStats 1 0).index :=
  lpsExchange_lt (mkDecoder [] 0 0x29FF 0 3) (NewStats 1 0) 0 0 (0x5601, 1, 1, 1) (by decide)
    (by decide) (by decide) (by decide)

/-! ## The interval register stays in `[0x8000, 0xFFFF]` -/

theorem readByte_a (d : Decoder) : d.readByte.2.a = d.a := by
  unfold Decoder.readByte
  repeat' split
  all_goals rfl

theorem renormalizeLoop_range : ∀ (fuel : Nat) (d d1 : Decoder), 0 < d.a → d.a < 0x8000 →
    renormalizeLoop fuel d = (.ok (), d1) → 0x8000 ≤ d1.a ∧ d1.a ≤ 0xFFFF
  | 0, d, d1, _, _, h => by simp [renormalizeLoop] at h
  | fuel + 1, d, d1, h0, h1, h => by
    simp only [renormalizeLoop] at h
    have hA : (if d.ct = 0 then d.readByte else (Except.ok (), d)).2.a = d.a := by
      split
      · exact readByte_a d
      · rfl
    generalize (if d.ct = 0 then d.readByte else (Except.ok (), d)) = rb at h hA
    obtain ⟨res, d2⟩ := rb
    simp only at hA
    cases res with
    | error e => simp at h
    | ok u =>
      simp only [Nat.shiftLeft_eq, pow_one] at h
      have hbit := and_0x8000 (d2.a * 2 % 2 ^ 32)
      split at h
      · rename_i hne
        injection h with _ h
        subst h
        simp only
        omega
      · rename_i hne
        have hz : (d2.a * 2 % 2 ^ 32) &&& 0x8000 = 0 := by simpa using hne
        exact renormalizeLoop_range fuel _ d1 (by simp only; omega) (by simp only; omega) h

theorem renormalize_range (fuel : Nat) (d d1 : Decoder) (h0 : 0 < d.a) (h1 : d.a < 0x8000)
    (h : d.renormalize fuel = (.ok (), d1)) : 0x8000 ≤ d1.a ∧ d1.a ≤ 0xFFFF := by
  unfold Decoder.renormalize at h
  split at h
  · simp at h
  · rename_i u d2 heq
    injection h with _ h
    subst h
    have hu : renormalizeLoop fuel d = (Except.ok (), d2) := by rw [heq]
    exact renormalizeLoop_range fuel d d2 h0 h1 hu

theorem lpsExchange_a (d d1 : Decoder) (stats stats1 : DecoderStats) (k q bit : Nat)
    (h : d.lpsExchange stats k q = some (bit, d1, stats1)) : d1.a = q := by
  unfold Decoder.lpsExchange at h
  repeat' split at h
  all_goals first
    | (injection h with h; injection h with _ h; injection h with h _; subst h; rfl)
    | simp at h

/-- One successful `DecodeBit` from a state with `a` in `[0x8000, 0xFFFF]` leaves `a` in
that interval. -/
theorem DecodeBit_range (fuel : Nat) (d d1 : Decoder) (stats stats1 : DecoderStats) (bit : Nat)
    (hlo : 0x8000 ≤ d.a) (hhi : d.a ≤ 0xFFFF)
    (h : d.DecodeBit fuel stats = (.ok bit, d1, stats1)) : 0x8000 ≤ d1.a ∧ d1.a ≤ 0xFFFF := by
  unfold Decoder.DecodeBit at h
  split at h
  · simp at h
  · rename_i icx hcx
    split at h
    · simp at h
    · rename_i row hrow
      obtain ⟨hq0, hq1, -⟩ := qe_row_bounds hrow
      have ha : (d.a + 2 ^ 32 - row.1) % 2 ^ 32 = d.a - row.1 := by omega
      simp only [ha] at h
      split at h
      · split at h
        · simp at h
        · rename_i b2 d2 s2 hl
          have hd2 := lpsExchange_a _ _ _ _ _ _ _ hl
          split at h
          · simp at h
          · rename_i u d3 hr
            injection h with _ h
            injection h with h _
            subst h
            exact renormalize_range fuel d2 d3 (by omega) (by omega) hr
      · have hbit := and_0x8000 (d.a - row.1)
        split at h
        · rename_i hz
          split at h
          · simp at h
          · split at h
            · simp at h
            · rename_i u d3 hr
              injection h with _ h
              injection h with h _
              subst h
              exact renormalize_range fuel _ d3 (by simp only; omega) (by simp only; omega) hr
        · rename_i hnz
          split at h
          · simp at h
          · injection h with _ h
            injection h with h _
            subst h
            simp only
            omega

theorem New_a (r : Reader) (d : Decoder) (h : New r = .ok d) : d.a = 0x8000 := by
  unfold New at h
  split at h
  · simp at h
  · rename_i u d1 heq
    injection h with h
    subst h
    unfold Decoder.init at heq
    split at heq
    · simp at heq
    · split at heq
      · simp at heq
      · injection heq with _ heq
        subst heq
        rfl

/-- C1. In every state reachable from `New` by successful `DecodeBit` calls the interval
register satisfies `0x8000 <= a <= 0xFFFF`; and for every row of `qe`, a `renormalize` that
`DecodeBit` starts from such a state (with `a` equal to the row's estimate on the LPS path,
or to `a` minus the estimate with bit 15 clear on the MPS-exchange path) and that returns
without error ends with `a` in `[0x8000, 0xFFFF]`. -/
theorem a_in_range (d : Decoder) (h : Reachable d) :
    (0x8000 ≤ d.a ∧ d.a ≤ 0xFFFF) ∧
    ∀ row ∈ qe, ∀ (fuel : Nat) (e e1 : Decoder),
      (e.a = row.1 ∨ (e.a = d.a - row.1 ∧ e.a &&& 0x8000 = 0)) →
      e.renormalize fuel = (.ok (), e1) → 0x8000 ≤ e1.a ∧ e1.a ≤ 0xFFFF := by
  have inv : 0x8000 ≤ d.a ∧ d.a ≤ 0xFFFF := by
    induction h with
    | init r d hnew => rw [New_a r d hnew]; decide
    | step fuel d stats bit d1 stats1 _ hstep ih =>
      exact DecodeBit_range fuel d d1 stats stats1 bit ih.1 ih.2 hstep
  refine ⟨inv, ?_⟩
  intro row hrow fuel e e1 he hren
  obtain ⟨hq0, hq1, -⟩ := qe_rows row hrow
  have hbit := and_0x8000 e.a
  rcases he with he | ⟨he, hz⟩
  · exact renormalize_range fuel e e1 (by omega) (by omega) hren
  · exact renormalize_range fuel e e1 (by omega) (by omega) hren

/-- Witness of C1: the state after `New` on `08 03` and one `DecodeBit` on a fresh
one-slot table. -/
theorem a_in_range_witness :
    Reachable
      ((({ mkDecoder [0x08, 0x03] 2 0x8000 0x4018000 1 with b := 3, prvCtr := 1 } :
          Decoder).DecodeBit 2 (NewStats 1 0)).2.1) ∧
    0x8000 ≤ (({ mkDecoder [0x08, 0x03] 2 0x8000 0x4018000 1 with b := 3, prvCtr := 1 } :
        Decoder).DecodeBit 2 (NewStats 1 0)).2.1.a ∧
    (({ mkDecoder [0x08, 0x03] 2 0x8000 0x4018000 1 with b := 3, prvCtr := 1 } :
        Decoder).DecodeBit 2 (NewStats 1 0)).2.1.a ≤ 0xFFFF :=
  have hr : Reachable
      ((({ mkDecoder [0x08, 0x03] 2 0x8000 0x4018000 1 with b := 3, prvCtr := 1 } :
          Decoder).DecodeBit 2 (NewStats 1 0)).2.1) :=
    Reachable.step 2 _ (NewStats 1 0) 0 _ _ (Reachable.init ⟨[0x08, 0x03], 0⟩ _ rfl) rfl
  ⟨hr, (a_in_range _ hr).1⟩

/-! ## Frame lemmas: `previous` and `prvCtr` -/

theorem readByte_setPrevious (d : Decoder) (p : Nat) :
    ({ d with previous := p } : Decoder).readByte =
      (d.readByte.1, { d.readByte.2 with previous := p }) := by
  unfold Decoder.readByte
  simp only
  repeat' split
  all_goals simp_all

theorem readByte_prvCtr (d : Decoder) : d.readByte.2.prvCtr = d.prvCtr := by
  unfold Decoder.readByte
  repeat' split
  all_goals rfl

theorem renormalizeLoop_setPrevious : ∀ (fuel : Nat) (d : Decoder) (p : Nat),
    renormalizeLoop fuel { d with previous := p } =
      ((renormalizeLoop fuel d).1, { (renormalizeLoop fuel d).2 with previous := p })
  | 0, d, p => rfl
  | fuel + 1, d, p => by
    simp only [renormalizeLoop]
    have hA : (if d.ct = 0 then ({ d with previous := p } : Decoder).readByte
        else (Except.ok (), { d with previous := p })) =
        ((if d.ct = 0 then d.readByte else (Except.ok (), d)).1,
         { (if d.ct = 0 then d.readByte else (Except.ok (), d)).2 with previous := p }) := by
      split
      · exact readByte_setPrevious d p
      · rfl
    rw [hA]
    generalize (if d.ct = 0 then d.readByte else (Except.ok (), d)) = rb
    obtain ⟨res, d2⟩ := rb
    cases res with
    | error e => rfl
    | ok u =>
      simp only
      split
      · rfl
      · exact renormalizeLoop_setPrevious fuel
          { d2 with a := (d2.a <<< 1) % 2 ^ 32, c := (d2.c <<< 1) % 2 ^ 64, ct := d2.ct - 1 } p

theorem renormalizeLoop_prvCtr : ∀ (fuel : Nat) (d : Decoder),
    (renormalizeLoop fuel d).2.prvCtr = d.prvCtr
  | 0, d => rfl
  | fuel + 1, d => by
    simp only [renormalizeLoop]
    have hA : (if d.ct = 0 then d.readByte else (Except.ok (), d)).2.prvCtr = d.prvCtr := by
      split
      · exact readByte_prvCtr d
      · rfl
    generalize (if d.ct = 0 then d.readByte else (Except.ok (), d)) = rb at hA
    obtain ⟨res, d2⟩ := rb
    cases res with
    | error e => exact hA
    | ok u =>
      simp only at hA ⊢
      split
      · exact hA
      · rw [renormalizeLoop_prvCtr fuel _]
        exact hA

theorem renormalize_setPrevious (fuel : Nat) (d : Decoder) (p : Nat) :
    ({ d with previous := p } : Decoder).renormalize fuel =
      ((d.renormalize fuel).1, { (d.renormalize fuel).2 with previous := p }) := by
  unfold Decoder.renormalize
  rw [renormalizeLoop_setPrevious]
  generalize renormalizeLoop fuel d = rb
  obtain ⟨res, d2⟩ := rb
  cases res <;> rfl

theorem renormalize_prvCtr (fuel : Nat) (d : Decoder) :
    (d.renormalize fuel).2.prvCtr = d.prvCtr := by
  unfold Decoder.renormalize
  have h := renormalizeLoop_prvCtr fuel d
  generalize renormalizeLoop fuel d = rb at h
  obtain ⟨res, d2⟩ := rb
  cases res <;> exact h

theorem lpsExchange_setPrevious (d : Decoder) (stats : DecoderStats) (k q p : Nat) :
    ({ d with previous := p } : Decoder).lpsExchange stats k q =
      (d.lpsExchange stats k q).map (fun x => (x.1, { x.2.1 with previous := p }, x.2.2)) := by
  unfold Decoder.lpsExchange
  repeat' split
  all_goals simp_all

theorem DecodeBit_setPrevious (fuel : Nat) (d : Decoder) (stats : DecoderStats) (p : Nat) :
    ({ d with previous := p } : Decoder).DecodeBit fuel stats =
      ((d.DecodeBit fuel stats).1, { (d.DecodeBit fuel stats).2.1 with previous := p },
       (d.DecodeBit fuel stats).2.2) := by
  unfold Decoder.DecodeBit
  split
  · rfl
  · rename_i icx hcx
    split
    · rfl
    · rename_i row hrow
      simp only
      split
      · have hl := lpsExchange_setPrevious
          { d with a := (d.a + 2 ^ 32 - row.1) % 2 ^ 32 } stats icx row.1 p
        simp only at hl
        rw [hl]
        generalize Decoder.lpsExchange _ stats icx row.1 = lr
        cases lr with
        | none => rfl
        | some x =>
          obtain ⟨b, d2, s2⟩ := x
          simp only [Option.map]
          have hr := renormalize_setPrevious fuel d2 p
          simp only at hr
          rw [hr]
          generalize d2.renormalize fuel = rr
          obtain ⟨res, d3⟩ := rr
          cases res <;> rfl
      · split
        · have hm : ∀ (e : Decoder), ({ e with previous := p } : Decoder).mpsExchange stats icx
              = e.mpsExchange stats icx := fun e => rfl
          have hm2 := hm { d with a := (d.a + 2 ^ 32 - row.1) % 2 ^ 32,
                                  c := d.c - (row.1 <<< 16) }
          simp only at hm2
          rw [hm2]
          generalize Decoder.mpsExchange _ stats icx = mr
          cases mr with
          | none => rfl
          | some x =>
            obtain ⟨b, s2⟩ := x
            simp only
            have hr := renormalize_setPrevious fuel
              { d with a := (d.a + 2 ^ 32 - row.1) % 2 ^ 32, c := d.c - (row.1 <<< 16) } p
            simp only at hr
            rw [hr]
            generalize Decoder.renormalize fuel _ = rr
            obtain ⟨res, d3⟩ := rr
            cases res <;> rfl
        · split <;> rfl

theorem DecodeBit_previous (fuel : Nat) (d : Decoder) (stats : DecoderStats) :
    (d.DecodeBit fuel stats).2.1.previous = d.previous := by
  have h := DecodeBit_setPrevious fuel d stats d.previous
  have h2 := congrArg (fun x => x.2.1.previous) h
  simp only at h2
  exact h2

theorem lpsExchange_prvCtr (d d1 : Decoder) (stats stats1 : DecoderStats) (k q bit : Nat)
    (h : d.lpsExchange stats k q = some (bit, d1, stats1)) : d1.prvCtr = d.prvCtr := by
  unfold Decoder.lpsExchange at h
  repeat' split at h
  all_goals first
    | (injection h with h; injection h with _ h; injection h with h _; subst h; rfl)
    | simp at h

theorem DecodeBit_prvCtr (fuel : Nat) (d d1 : Decoder) (stats stats1 : DecoderStats) (bit : Nat)
    (h : d.DecodeBit fuel stats = (.ok bit, d1, stats1)) : d1.prvCtr = d.prvCtr + 1 := by
  unfold Decoder.DecodeBit at h
  split at h
  · simp at h
  · split at h
    · simp at h
    · simp only at h
      split at h
      · split at h
        · simp at h
        · rename_i b2 d2 s2 hl
          have hd2 := lpsExchange_prvCtr _ _ _ _ _ _ _ hl
          have hr := renormalize_prvCtr fuel d2
          split at h
          · simp at h
          · rename_i u d3 heq
            rw [heq] at hr
            injection h with _ h
            injection h with h _
            subst h
            simp only at hr hd2 ⊢
            omega
      · split at h
        · split at h
          · simp at h
          · split at h
            · simp at h
            · rename_i u d3 heq
              have hr := congrArg (fun x => x.2.prvCtr) heq
              simp only [renormalize_prvCtr] at hr
              injection h with _ h
              injection h with h _
              subst h
              simp only at hr ⊢
              omega
        · split at h
          · simp at h
          · injection h with _ h
            injection h with h _
            subst h
            rfl

/-- A table made by `NewStats` has bits in its MPS column. -/
theorem NewStats_mpsBits (contextSize : Nat) (index : Int) :
    (NewStats contextSize index).mpsBits := by
  intro m hm
  have := List.eq_of_mem_replicate hm
  omega

theorem getMps_le_one (stats : DecoderStats) (m : Nat) (hb : stats.mpsBits)
    (h : stats.getMps = some m) : m ≤ 1 := by
  unfold DecoderStats.getMps at h
  split at h
  · simp at h
  · exact hb m (List.getElem?_mem h)

theorem toggleMps_mpsBits (stats stats1 : DecoderStats) (hb : stats.mpsBits)
    (h : stats.toggleMps = some stats1) : stats1.mpsBits := by
  unfold DecoderStats.toggleMps at h
  split at h
  · simp at h
  · split at h
    · rename_i m hm
      injection h with h
      subst h
      intro x hx
      have hm1 : m ≤ 1 := hb m (List.getElem?_mem hm)
      rcases List.mem_or_eq_of_mem_set hx with hx | hx
      · exact hb x hx
      · subst hx
        interval_cases m <;> decide
    · simp at h

theorem setEntry_mps (stats stats1 : DecoderStats) (v : Nat)
    (h : stats.setEntry v = some stats1) : stats1.mps = stats.mps := by
  unfold DecoderStats.setEntry at h
  repeat' split at h
  all_goals first
    | (injection h with h; subst h; rfl)
    | simp at h

theorem setEntry_mpsBits (stats stats1 : DecoderStats) (v : Nat) (hb : stats.mpsBits)
    (h : stats.setEntry v = some stats1) : stats1.mpsBits := by
  unfold DecoderStats.mpsBits
  rw [setEntry_mps stats stats1 v h]
  exact hb

theorem lpsExchange_bits (d d1 : Decoder) (stats stats1 : DecoderStats) (k q bit : Nat)
    (hb : stats.mpsBits) (h : d.lpsExchange stats k q = some (bit, d1, stats1)) :
    bit ≤ 1 ∧ stats1.mpsBits := by
  unfold Decoder.lpsExchange at h
  split at h
  · rename_i mps row hm hrow
    have hm1 := getMps_le_one stats mps hb hm
    split at h
    · split at h
      · simp at h
      · rename_i s1 hs1
        injection h with h
        injection h with h1 h
        injection h with _ h
        subst h1 h
        exact ⟨hm1, setEntry_mpsBits _ _ _ hb hs1⟩
    · split at h
      · simp at h
      · rename_i s1 hs1
        have hb1 : s1.mpsBits := by
          split at hs1
          · exact toggleMps_mpsBits _ _ hb hs1
          · injection hs1 with hs1
            subst hs1
            exact hb
        split at h
        · simp at h
        · rename_i s2 hs2
          injection h with h
          injection h with h1 h
          injection h with _ h
          subst h1 h
          exact ⟨by omega, setEntry_mpsBits _ _ _ hb1 hs2⟩
  · simp at h

theorem mpsExchange_bits (d : Decoder) (stats stats1 : DecoderStats) (k bit : Nat)
    (hb : stats.mpsBits) (h : d.mpsExchange stats k = some (bit, stats1)) :
    bit ≤ 1 ∧ stats1.mpsBits := by
  unfold Decoder.mpsExchange at h
  split at h
  · rename_i mps row hm hrow
    have hm1 := getMps_le_one stats mps hb hm
    split at h
    · split at h
      · simp at h
      · rename_i s1 hs1
        have hb1 : s1.mpsBits := by
          split at hs1
          · exact toggleMps_mpsBits _ _ hb hs1
          · injection hs1 with hs1
            subst hs1
            exact hb
        split at h
        · simp at h
        · rename_i s2 hs2
          injection h with h
          injection h with h1 h
          subst h1 h
          exact ⟨by omega, setEntry_mpsBits _ _ _ hb1 hs2⟩
    · split at h
      · simp at h
      · rename_i s1 hs1
        injection h with h
        injection h with h1 h
        subst h1 h
        exact ⟨hm1, setEntry_mpsBits _ _ _ hb hs1⟩
  · simp at h

/-- A successful `DecodeBit` on a table whose MPS entries are bits returns a bit and leaves
such a table. -/
theorem DecodeBit_bits (fuel : Nat) (d d1 : Decoder) (stats stats1 : DecoderStats) (bit : Nat)
    (hb : stats.mpsBits) (h : d.DecodeBit fuel stats = (.ok bit, d1, stats1)) :
    bit ≤ 1 ∧ stats1.mpsBits := by
  unfold Decoder.DecodeBit at h
  split at h
  · simp at h
  · split at h
    · simp at h
    · simp only at h
      split at h
      · split at h
        · simp at h
        · rename_i b2 d2 s2 hl
          have hx := lpsExchange_bits _ _ _ _ _ _ _ hb hl
          split at h
          · simp at h
          · injection h with h1 h
            injection h with _ h
            injection h1 with h1
            subst h1 h
            exact hx
      · split at h
        · split at h
          · simp at h
          · rename_i b2 s2 hl
            have hx := mpsExchange_bits _ _ _ _ _ hb hl
            split at h
            · simp at h
            · injection h with h1 h
              injection h with _ h
              injection h1 with h1
              subst h1 h
              exact hx
        · split at h
          · simp at h
          · rename_i m hm
            injection h with h1 h
            injection h with _ h
            injection h1 with h1
            subst h1 h
            exact ⟨getMps_le_one _ _ hb hm, hb⟩

/-! ## Runs of bit decodings -/

theorem decodeBits_setPrevious (fuel : Nat) (ctx : List Nat → Int) : ∀ (n : Nat)
    (sofar : List Nat) (d : Decoder) (s : DecoderStats) (p : Nat),
    decodeBits fuel ctx n sofar { d with previous := p } s =
      ((decodeBits fuel ctx n sofar d s).1,
       { (decodeBits fuel ctx n sofar d s).2.1 with previous := p },
       (decodeBits fuel ctx n sofar d s).2.2)
  | 0, sofar, d, s, p => rfl
  | n + 1, sofar, d, s, p => by
    simp only [decodeBits]
    rw [DecodeBit_setPrevious]
    generalize d.DecodeBit fuel (s.SetIndex (ctx sofar)) = res
    obtain ⟨out, d1, s1⟩ := res
    cases out with
    | error e => rfl
    | ok bit => exact decodeBits_setPrevious fuel ctx n _ d1 s1 p

theorem decodeBits_add (fuel : Nat) (ctx : List Nat → Int) : ∀ (n m : Nat)
    (sofar bits : List Nat) (d d1 : Decoder) (s s1 : DecoderStats),
    decodeBits fuel ctx n sofar d s = (.ok bits, d1, s1) →
    decodeBits fuel ctx (n + m) sofar d s = decodeBits fuel ctx m bits d1 s1
  | 0, m, sofar, bits, d, d1, s, s1, h => by
    simp only [decodeBits] at h
    injection h with h1 h
    injection h with h2 h3
    injection h1 with h1
    subst h1 h2 h3
    simp
  | n + 1, m, sofar, bits, d, d1, s, s1, h => by
    rw [Nat.add_right_comm]
    simp only [decodeBits] at h ⊢
    generalize d.DecodeBit fuel (s.SetIndex (ctx sofar)) = res at h
    obtain ⟨out, d2, s2⟩ := res
    cases out with
    | error e => simp at h
    | ok bit => exact decodeBits_add fuel ctx n m _ bits d2 d1 s2 s1 h

theorem bitsMSB_append (xs : List Nat) (b : Nat) : bitsMSB (xs ++ [b]) = 2 * bitsMSB xs + b := by
  simp [bitsMSB, List.foldl_append]

theorem bitsMSB_lt : ∀ (xs : List Nat), (∀ b ∈ xs, b ≤ 1) → bitsMSB xs < 2 ^ xs.length := by
  intro xs
  induction xs using List.reverseRecOn with
  | nil => intro _; simp [bitsMSB]
  | append_singleton xs b ih =>
    intro h
    have h1 : bitsMSB xs < 2 ^ xs.length := ih (fun x hx => h x (by simp [hx]))
    have h2 : b ≤ 1 := h b (by simp)
    rw [bitsMSB_append, List.length_append, List.length_singleton, pow_succ]
    omega

/-! ## DecodeIAID -/

theorem toInt64_small (p : Nat) (h : p < 2 ^ 63) : toInt64 p = (p : Int) := by
  unfold toInt64
  have : p % 2 ^ 64 = p := Nat.mod_eq_of_lt (by omega)
  rw [this, if_pos h]

theorem iaidContext_eq (sofar : List Nat) (h : bitsMSB sofar < 2 ^ sofar.length) :
    iaidContext sofar = ((2 ^ sofar.length + bitsMSB sofar : Nat) : Int) := by
  unfold iaidContext
  rw [Nat.shiftLeft_eq, Nat.one_mul]
  have := Nat.mul_add_lt_is_or h 1
  rw [Nat.mul_one] at this
  rw [this]

theorem iaidLoop_run (fuel : Nat) (p0 : Nat) : ∀ (n : Nat) (sofar : List Nat)
    (d d1 : Decoder) (s s1 : DecoderStats),
    s.mpsBits → bitsMSB sofar < 2 ^ sofar.length →
    d.previous = 2 ^ sofar.length + bitsMSB sofar → sofar.length + n ≤ 62 →
    Decoder.iaidLoop fuel n d s = (.ok (), d1, s1) →
    ∃ bits, decodeBits fuel iaidContext n sofar { d with previous := p0 } s =
        (.ok bits, { d1 with previous := p0 }, s1) ∧
      bits.length = sofar.length + n ∧ bitsMSB bits < 2 ^ bits.length ∧
      d1.previous = 2 ^ bits.length + bitsMSB bits ∧ d1.prvCtr = d.prvCtr + n
  | 0, sofar, d, d1, s, s1, _, hv, hp, _, h => by
    simp only [Decoder.iaidLoop] at h
    injection h with _ h
    injection h with h2 h3
    subst h2 h3
    exact ⟨sofar, rfl, rfl, hv, hp, by simp⟩
  | n + 1, sofar, d, d1, s, s1, hb, hv, hp, hk, h => by
    simp only [Decoder.iaidLoop] at h
    have hpow : 2 ^ (sofar.length + 1) ≤ 2 ^ 63 := Nat.pow_le_pow_right (by norm_num) (by omega)
    rw [pow_succ] at hpow
    have hidx : toInt64 d.previous = iaidContext sofar := by
      rw [iaidContext_eq sofar hv, toInt64_small _ (by omega), hp]
    rw [hidx] at h
    have hprev := DecodeBit_previous fuel d (s.SetIndex (iaidContext sofar))
    simp only [decodeBits]
    rw [DecodeBit_setPrevious]
    generalize hres : d.DecodeBit fuel (s.SetIndex (iaidContext sofar)) = res at h hprev
    obtain ⟨out, d2, s2⟩ := res
    cases out with
    | error e => simp at h
    | ok bit =>
      simp only at h hprev ⊢
      obtain ⟨hbit, hb2⟩ :=
        DecodeBit_bits fuel d d2 (s.SetIndex (iaidContext sofar)) s2 bit hb hres
      have hctr := DecodeBit_prvCtr fuel d d2 _ s2 bit hres
      have hnew : ((d2.previous <<< 1) % 2 ^ 64) ||| bit = 2 * d2.previous + bit := by
        have e1 : (d2.previous <<< 1) % 2 ^ 64 = d2.previous <<< 1 := by
          rw [Nat.shiftLeft_eq]
          exact Nat.mod_eq_of_lt (by omega)
        rw [e1, shl1_or_bit _ _ hbit]
      rw [hnew] at h
      have hv2 : bitsMSB (sofar ++ [bit]) < 2 ^ (sofar ++ [bit]).length := by
        rw [bitsMSB_append, List.length_append, List.length_singleton, pow_succ]
        omega
      have hp2 : 2 * d2.previous + bit =
          2 ^ (sofar ++ [bit]).length + bitsMSB (sofar ++ [bit]) := by
        rw [bitsMSB_append, List.length_append, List.length_singleton, pow_succ]
        omega
      have ih := iaidLoop_run fuel p0 n (sofar ++ [bit])
        { d2 with previous := 2 * d2.previous + bit } d1 s2 s1 hb2 hv2 hp2
        (by simp only [List.length_append, List.length_singleton]; omega) h
      obtain ⟨bits, hrun, hlen, hlt, hprv, hc⟩ := ih
      refine ⟨bits, hrun, ?_, hlt, hprv, ?_⟩
      · rw [hlen]
        simp only [List.length_append, List.length_singleton]
        omega
      · simp only at hc
        omega

/-- C5. A successful `DecodeIAID` with `codeLen <= 62` on a table whose MPS entries are bits:
the call is a run of exactly `codeLen` `DecodeBit` calls (the counter `prvCtr` grows by
`codeLen`), the bit after the bits `sofar` being decoded on context index
`(1 << i) | sofar` (`iaidContext`), and the result is the number formed by the decoded bits
most significant first, hence in `[0, 2^codeLen)`; with `codeLen = 0` nothing is decoded
and the result is 0. -/
theorem DecodeIAID_spec (fuel : Nat) (d d1 : Decoder) (codeLen : Nat) (stats s1 : DecoderStats)
    (r : Int) (hlen : codeLen ≤ 62) (hb : stats.mpsBits)
    (h : d.DecodeIAID fuel codeLen stats = (.ok r, d1, s1)) :
    ∃ bits, decodeBits fuel iaidContext codeLen [] d stats =
        (.ok bits, { d1 with previous := d.previous }, s1) ∧
      bits.length = codeLen ∧ r = (bitsMSB bits : Int) ∧ 0 ≤ r ∧ r < 2 ^ codeLen ∧
      d1.prvCtr = d.prvCtr + codeLen ∧
      (codeLen = 0 → r = 0 ∧ d1 = { d with previous := 1 } ∧ s1 = stats) := by
  unfold Decoder.DecodeIAID at h
  split at h
  · simp at h
  · rename_i u d2 s2 hloop
    injection h with h1 h
    injection h with h2 h3
    injection h1 with h1
    subst h2 h3
    have hu : Decoder.iaidLoop fuel codeLen { d with previous := 1 } stats =
        (Except.ok (), d2, s2) := by rw [hloop]
    obtain ⟨bits, hrun, hl, hlt, hprv, hc⟩ :=
      iaidLoop_run fuel d.previous codeLen [] { d with previous := 1 } d2 stats s2 hb
        (by simp [bitsMSB]) (by simp [bitsMSB]) (by simpa using hlen) hu
    have hl2 : bits.length = codeLen := by simpa using hl
    rw [hl2] at hlt hprv
    have hpow : 2 ^ codeLen ≤ 2 ^ 62 := Nat.pow_le_pow_right (by norm_num) hlen
    have hr : r = (bitsMSB bits : Int) := by
      rw [← h1, hprv, Nat.shiftLeft_eq, Nat.one_mul,
        Nat.mod_eq_of_lt (a := 2 ^ codeLen) (by omega)]
      have e : (2 ^ codeLen + bitsMSB bits + 2 ^ 64 - 2 ^ codeLen) % 2 ^ 64 = bitsMSB bits := by
        omega
      rw [e, toInt64_small _ (by omega)]
    refine ⟨bits, hrun, hl2, hr, ?_, ?_, ?_, ?_⟩
    · rw [hr]
      exact Int.natCast_nonneg _
    · rw [hr]
      exact_mod_cast hlt
    · simp only at hc
      rw [hc]
    · intro h0
      subst h0
      simp only [Decoder.iaidLoop] at hu
      injection hu with _ hu
      injection hu with hu1 hu2
      subst hu1 hu2
      have hnil : bits = [] := List.length_eq_zero.mp hl2
      subst hnil
      exact ⟨by rw [hr]; rfl, rfl, rfl⟩

/-- Witness of C5: three bits decoded from a decoder over `F8 03 A5 5A`, giving 7. -/
theorem DecodeIAID_spec_witness :
    ∃ bits, decodeBits 2 iaidContext 3 [] (mkDecoder [0xF8, 0x03, 0xA5, 0x5A] 2 0x8000 0x7C018000 1)
        (NewStats 8 0) =
        (.ok bits,
          { ((mkDecoder [0xF8, 0x03, 0xA5, 0x5A] 2 0x8000 0x7C018000 1).DecodeIAID 2 3
              (NewStats 8 0)).2.1 with previous := 0 },
          ((mkDecoder [0xF8, 0x03, 0xA5, 0x5A] 2 0x8000 0x7C018000 1).DecodeIAID 2 3
              (NewStats 8 0)).2.2) ∧
      bits.length = 3 ∧ (7 : Int) = (bitsMSB bits : Int) ∧ (0 : Int) ≤ 7 ∧ (7 : Int) < 2 ^ 3 ∧
      ((mkDecoder [0xF8, 0x03, 0xA5, 0x5A] 2 0x8000 0x7C018000 1).DecodeIAID 2 3
          (NewStats 8 0)).2.1.prvCtr = 0 + (3 : Nat) ∧
      (3 = 0 → (7 : Int) = 0 ∧
        ((mkDecoder [0xF8, 0x03, 0xA5, 0x5A] 2 0x8000 0x7C018000 1).DecodeIAID 2 3
          (NewStats 8 0)).2.1 =
          { mkDecoder [0xF8, 0x03, 0xA5, 0x5A] 2 0x8000 0x7C018000 1 with previous := 1 } ∧
        ((mkDecoder [0xF8, 0x03, 0xA5, 0x5A] 2 0x8000 0x7C018000 1).DecodeIAID 2 3
          (NewStats 8 0)).2.2 = NewStats 8 0) :=
  DecodeIAID_spec 2 (mkDecoder [0xF8, 0x03, 0xA5, 0x5A] 2 0x8000 0x7C018000 1) _ 3
    (NewStats 8 0) _ 7 (by decide) (by decide) rfl

/-! ## DecodeInt -/

theorem or_256 (y : Nat) (h : y < 512) : y ||| 256 = if y < 256 then y + 256 else y := by
  split
  · rename_i hlt
    have := Nat.mul_add_lt_is_or (i := 8) (b := y) (by simpa using hlt) 1
    simp only [Nat.reducePow, Nat.mul_one] at this
    rw [Nat.or_comm, ← this]
    omega
  · rename_i hge
    have hz : y - 256 < 2 ^ 8 := by norm_num; omega
    have := Nat.mul_add_lt_is_or (i := 8) (b := y - 256) hz 1
    simp only [Nat.reducePow, Nat.mul_one] at this
    have e : y = 256 ||| (y - 256) := by rw [← this]; omega
    conv_lhs => rw [e]
    rw [Nat.or_comm, ← Nat.or_assoc, Nat.or_self, ← e]

theorem nextPrevious_lt (p b : Nat) (hp : p < 256) (hb : b ≤ 1) :
    nextPrevious p b = 2 * p + b := by
  unfold nextPrevious
  rw [if_pos hp, shl1_or_bit _ _ hb, and_mask9]
  exact Nat.mod_eq_of_lt (by norm_num; omega)

theorem nextPrevious_ge (p b : Nat) (hp : ¬ p < 256) (hb : b ≤ 1) :
    256 ≤ nextPrevious p b ∧ nextPrevious p b ≤ 511 := by
  unfold nextPrevious
  rw [if_neg hp, shl1_or_bit _ _ hb, and_mask9, and_mask9]
  have hy : (2 * p + b) % 2 ^ 9 < 512 := Nat.mod_lt _ (by norm_num)
  rw [or_256 _ hy]
  split <;> omega

theorem intContext_append (sofar : List Nat) (b : Nat) :
    intContext (sofar ++ [b]) = nextPrevious (intContext sofar) b := by
  simp [intContext, List.foldl_append]

theorem intContext_range : ∀ (sofar : List Nat), (∀ b ∈ sofar, b ≤ 1) →
    1 ≤ intContext sofar ∧ intContext sofar ≤ 511 := by
  intro sofar
  induction sofar using List.reverseRecOn with
  | nil => intro _; simp [intContext]
  | append_singleton xs b ih =>
    intro h
    have h1 := ih (fun x hx => h x (by simp [hx]))
    have h2 : b ≤ 1 := h b (by simp)
    rw [intContext_append]
    by_cases hp : intContext xs < 256
    · rw [nextPrevious_lt _ _ hp h2]
      omega
    · have := nextPrevious_ge _ _ hp h2
      omega

theorem decodeIntBit_step (fuel p0 : Nat) (sofar : List Nat) (d d1 : Decoder)
    (s s1 : DecoderStats) (bit : Nat)
    (hprev : d.previous = intContext sofar) (hbits : ∀ b ∈ sofar, b ≤ 1) (hb : s.mpsBits)
    (h : d.decodeIntBit fuel s = (.ok bit, d1, s1)) :
    decodeBits fuel (fun l => (intContext l : Int)) 1 sofar { d with previous := p0 } s =
        (.ok (sofar ++ [bit]), { d1 with previous := p0 }, s1) ∧
      d1.previous = intContext (sofar ++ [bit]) ∧ bit ≤ 1 ∧ s1.mpsBits ∧
      d1.prvCtr = d.prvCtr + 1 := by
  obtain ⟨hlo, hhi⟩ := intContext_range sofar hbits
  unfold Decoder.decodeIntBit at h
  have hidx : toInt64 d.previous = (intContext sofar : Int) := by
    rw [hprev, toInt64_small _ (by omega)]
  rw [hidx] at h
  have hp2 := DecodeBit_previous fuel d (s.SetIndex (intContext sofar : Int))
  simp only [decodeBits]
  rw [DecodeBit_setPrevious]
  generalize hres : d.DecodeBit fuel (s.SetIndex (intContext sofar : Int)) = res at h hp2
  obtain ⟨out, d2, s2⟩ := res
  cases out with
  | error e => simp at h
  | ok b2 =>
    simp only at h hp2 ⊢
    obtain ⟨hbit, hb2⟩ :=
      DecodeBit_bits fuel d d2 (s.SetIndex (intContext sofar : Int)) s2 b2 hb hres
    have hctr := DecodeBit_prvCtr fuel d d2 _ s2 b2 hres
    have e64 : (d2.previous <<< 1) % 2 ^ 64 = d2.previous <<< 1 := by
      rw [Nat.shiftLeft_eq]
      exact Nat.mod_eq_of_lt (by omega)
    have hnext : (if toInt64 d2.previous < 256 then
          (((d2.previous <<< 1) % 2 ^ 64) ||| b2) &&& 0x1ff
        else (((((d2.previous <<< 1) % 2 ^ 64) ||| b2) &&& 511) ||| 256) &&& 0x1ff) =
        nextPrevious (intContext sofar) b2 := by
      rw [e64, toInt64_small _ (by omega), hp2, hprev]
      unfold nextPrevious
      by_cases hc : intContext sofar < 256
      · rw [if_pos hc, if_pos (by exact_mod_cast hc)]
      · rw [if_neg hc, if_neg (by exact_mod_cast hc)]
    split at h
    all_goals
      injection h with h1 h
      injection h with h2 h3
      injection h1 with h1
      subst h1 h2 h3
      simp only at hnext ⊢
      refine ⟨trivial, ?_, hbit, hb2, hctr⟩
      rw [intContext_append, ← hnext]
      first
        | rw [if_pos (by assumption)]
        | rw [if_neg (by assumption)]

theorem intRun_nil (fuel p0 : Nat) (sofar : List Nat) (d : Decoder) (s : DecoderStats)
    (hprev : d.previous = intContext sofar) (hb : s.mpsBits) :
    IntRun fuel p0 sofar d s [] d s := by
  refine ⟨?_, ?_, ?_, hb, ?_⟩
  · simp [decodeBits]
  · simpa using hprev
  · simp
  · simp

theorem intRun_single (fuel p0 : Nat) (sofar : List Nat) (d d1 : Decoder)
    (s s1 : DecoderStats) (bit : Nat)
    (hprev : d.previous = intContext sofar) (hbits : ∀ b ∈ sofar, b ≤ 1) (hb : s.mpsBits)
    (h : d.decodeIntBit fuel s = (.ok bit, d1, s1)) :
    IntRun fuel p0 sofar d s [bit] d1 s1 := by
  obtain ⟨h1, h2, h3, h4, h5⟩ := decodeIntBit_step fuel p0 sofar d d1 s s1 bit hprev hbits hb h
  refine ⟨h1, h2, ?_, h4, ?_⟩
  · simpa using h3
  · simpa using h5

theorem intRun_append (fuel p0 : Nat) (sofar new1 new2 : List Nat) (d d1 d2 : Decoder)
    (s s1 s2 : DecoderStats)
    (h1 : IntRun fuel p0 sofar d s new1 d1 s1)
    (h2 : IntRun fuel p0 (sofar ++ new1) d1 s1 new2 d2 s2) :
    IntRun fuel p0 sofar d s (new1 ++ new2) d2 s2 := by
  obtain ⟨a1, a2, a3, a4, a5⟩ := h1
  obtain ⟨b1, b2, b3, b4, b5⟩ := h2
  refine ⟨?_, ?_, ?_, b4, ?_⟩
  · rw [List.length_append, decodeBits_add fuel _ new1.length new2.length sofar _ _ _ s s1 a1,
      b1, List.append_assoc]
  · rw [b2, List.append_assoc]
  · intro b hb
    rcases List.mem_append.mp hb with hb | hb
    · exact a3 b hb
    · exact b3 b hb
  · rw [b5, a5, List.length_append]
    push_cast
    ring

theorem intRun_bits (fuel p0 : Nat) (sofar new : List Nat) (d d1 : Decoder)
    (s s1 : DecoderStats) (hbits : ∀ b ∈ sofar, b ≤ 1)
    (h : IntRun fuel p0 sofar d s new d1 s1) : ∀ b ∈ sofar ++ new, b ≤ 1 := by
  intro b hb
  rcases List.mem_append.mp hb with hb | hb
  · exact hbits b hb
  · exact h.2.2.1 b hb

theorem decodeIntValue_run (fuel p0 : Nat) : ∀ (n v : Nat) (sofar : List Nat)
    (d d1 : Decoder) (s s1 : DecoderStats) (v1 : Nat),
    d.previous = intContext sofar → (∀ b ∈ sofar, b ≤ 1) → s.mpsBits →
    Decoder.decodeIntValue fuel n v d s = (.ok v1, d1, s1) →
    ∃ vbits, vbits.length = n ∧ IntRun fuel p0 sofar d s vbits d1 s1 ∧
      v1 = vbits.foldl (fun v b => 2 * v + b) v
  | 0, v, sofar, d, d1, s, s1, v1, hprev, _, hb, h => by
    simp only [Decoder.decodeIntValue] at h
    injection h with h1 h
    injection h with h2 h3
    injection h1 with h1
    subst h1 h2 h3
    exact ⟨[], rfl, intRun_nil fuel p0 sofar d s hprev hb, rfl⟩
  | n + 1, v, sofar, d, d1, s, s1, v1, hprev, hbits, hb, h => by
    simp only [Decoder.decodeIntValue] at h
    generalize hres : d.decodeIntBit fuel s = res at h
    obtain ⟨out, d2, s2⟩ := res
    cases out with
    | error e => simp at h
    | ok bit =>
      simp only at h
      have hs := intRun_single fuel p0 sofar d d2 s s2 bit hprev hbits hb hres
      have hbit : bit ≤ 1 := hs.2.2.1 bit (by simp)
      rw [shl1_or_bit _ _ hbit] at h
      obtain ⟨vbits, hl, hrun, hv⟩ := decodeIntValue_run fuel p0 n (2 * v + bit)
        (sofar ++ [bit]) d2 d1 s2 s1 v1 hs.2.1
        (intRun_bits fuel p0 sofar [bit] d d2 s s2 hbits hs) hs.2.2.2.1 h
      exact ⟨bit :: vbits, by simp [hl],
        intRun_append fuel p0 sofar [bit] vbits d d2 d1 s s2 s1 hs hrun, by simpa using hv⟩

theorem intRun_snoc (fuel p0 : Nat) (sofar pre : List Nat) (d dk d1 : Decoder)
    (s sk s1 : DecoderStats) (bit : Nat) (hbits : ∀ b ∈ sofar, b ≤ 1)
    (t : IntRun fuel p0 sofar d s pre dk sk)
    (h : dk.decodeIntBit fuel sk = (.ok bit, d1, s1)) :
    IntRun fuel p0 sofar d s (pre ++ [bit]) d1 s1 ∧ bit ≤ 1 := by
  have hs := intRun_single fuel p0 (sofar ++ pre) dk d1 sk s1 bit t.2.1
    (intRun_bits fuel p0 sofar pre d dk s sk hbits t) t.2.2.2.1 h
  exact ⟨intRun_append fuel p0 sofar pre [bit] d dk d1 s sk s1 t hs, hs.2.2.1 bit (by simp)⟩

theorem decodeIntRange_run (fuel p0 : Nat) (sofar : List Nat) (d d2 : Decoder)
    (s s2 : DecoderStats) (n off : Nat)
    (hprev : d.previous = intContext sofar) (hbits : ∀ b ∈ sofar, b ≤ 1) (hb : s.mpsBits)
    (h : d.decodeIntRange fuel s = (.ok (n, off), d2, s2)) :
    ∃ pre, selectRange pre = some (n, off) ∧ IntRun fuel p0 sofar d s pre d2 s2 := by
  have t0 := intRun_nil fuel p0 sofar d s hprev hb
  unfold Decoder.decodeIntRange at h
  generalize hr1 : d.decodeIntBit fuel s = r1 at h
  obtain ⟨o1, d1, s1⟩ := r1
  cases o1 with
  | error e => simp at h
  | ok b1 =>
    obtain ⟨t1, hb1⟩ := intRun_snoc fuel p0 sofar [] d d d1 s s s1 b1 hbits t0 hr1
    simp only at h
    split at h
    · rename_i e1
      subst e1
      generalize hr2 : d1.decodeIntBit fuel s1 = r2 at h
      obtain ⟨o2, d3, s3⟩ := r2
      cases o2 with
      | error e => simp at h
      | ok b2 =>
        obtain ⟨t2, hb2⟩ := intRun_snoc fuel p0 sofar _ d d1 d3 s s1 s3 b2 hbits t1 hr2
        simp only at h
        split at h
        · rename_i e2
          subst e2
          generalize hr3 : d3.decodeIntBit fuel s3 = r3 at h
          obtain ⟨o3, d4, s4⟩ := r3
          cases o3 with
          | error e => simp at h
          | ok b3 =>
            obtain ⟨t3, hb3⟩ := intRun_snoc fuel p0 sofar _ d d3 d4 s s3 s4 b3 hbits t2 hr3
            simp only at h
            split at h
            · rename_i e3
              subst e3
              generalize hr4 : d4.decodeIntBit fuel s4 = r4 at h
              obtain ⟨o4, d5, s5⟩ := r4
              cases o4 with
              | error e => simp at h
              | ok b4 =>
                obtain ⟨t4, hb4⟩ :=
                  intRun_snoc fuel p0 sofar _ d d4 d5 s s4 s5 b4 hbits t3 hr4
                simp only at h
                split at h
                · rename_i e4
                  subst e4
                  generalize hr5 : d5.decodeIntBit fuel s5 = r5 at h
                  obtain ⟨o5, d6, s6⟩ := r5
                  cases o5 with
                  | error e => simp at h
                  | ok b5 =>
                    obtain ⟨t5, hb5⟩ :=
                      intRun_snoc fuel p0 sofar _ d d5 d6 s s5 s6 b5 hbits t4 hr5
                    simp only at h
                    split at h
                    · rename_i e5
                      subst e5
                      injection h with h1 h
                      injection h with h2 h3
                      injection h1 with h1
                      subst h2 h3
                      exact ⟨[1, 1, 1, 1, 1], by rw [← h1]; rfl, t5⟩
                    · have e5 : b5 = 0 := by omega
                      subst e5
                      injection h with h1 h
                      injection h with h2 h3
                      injection h1 with h1
                      subst h2 h3
                      exact ⟨[1, 1, 1, 1, 0], by rw [← h1]; rfl, t5⟩
                · have e4 : b4 = 0 := by omega
                  subst e4
                  injection h with h1 h
                  injection h with h2 h3
                  injection h1 with h1
                  subst h2 h3
                  exact ⟨[1, 1, 1, 0], by rw [← h1]; rfl, t4⟩
            · have e3 : b3 = 0 := by omega
              subst e3
              injection h with h1 h
              injection h with h2 h3
              injection h1 with h1
              subst h2 h3
              exact ⟨[1, 1, 0], by rw [← h1]; rfl, t3⟩
        · have e2 : b2 = 0 := by omega
          subst e2
          injection h with h1 h
          injection h with h2 h3
          injection h1 with h1
          subst h2 h3
          exact ⟨[1, 0], by rw [← h1]; rfl, t2⟩
    · have e1 : b1 = 0 := by omega
      subst e1
      injection h with h1 h
      injection h with h2 h3
      injection h1 with h1
      subst h2 h3
      exact ⟨[0], by rw [← h1]; rfl, t1⟩

theorem selectRange_cases (pre : List Nat) (n off : Nat) (h : selectRange pre = some (n, off)) :
    (n, off) ∈ [(2, 0), (4, 4), (6, 20), (8, 84), (12, 340), (32, 4436)] := by
  unfold selectRange at h
  repeat' split at h
  all_goals first
    | (injection h with h; rw [← h]; decide)
    | simp at h

/-- The whole of a successful `DecodeInt` as a run of bit decodings: a sign bit, the bits
selecting `(bitsToRead, offset)`, and `bitsToRead` value bits, with the value returned. -/
theorem DecodeInt_run (fuel : Nat) (d d1 : Decoder) (stats : Option DecoderStats)
    (s1 : DecoderStats) (r : Int)
    (hb : (statsOrNew stats).mpsBits) (h : d.DecodeInt fuel stats = (.ok r, d1, s1)) :
    ∃ (sgn : Nat) (pre vbits : List Nat) (n off : Nat),
      selectRange pre = some (n, off) ∧ vbits.length = n ∧
      IntRun fuel d.previous [] { d with previous := 1 } (statsOrNew stats)
        (sgn :: (pre ++ vbits)) d1 s1 ∧
      r = (if sgn = 0 then ((bitsMSB vbits + off : Nat) : Int)
           else if 0 < bitsMSB vbits + off then -((bitsMSB vbits + off : Nat) : Int)
           else MaxInt64) := by
  unfold Decoder.DecodeInt at h
  simp only at h
  generalize hr1 :
    Decoder.decodeIntBit fuel { d with previous := 1 } (statsOrNew stats) = r1 at h
  obtain ⟨o1, d2, s2⟩ := r1
  cases o1 with
  | error e => simp at h
  | ok sgn =>
    have t0 := intRun_nil fuel d.previous [] { d with previous := 1 } (statsOrNew stats) rfl hb
    obtain ⟨t1, hsgn⟩ := intRun_snoc fuel d.previous [] [] _ _ d2 (statsOrNew stats)
      (statsOrNew stats) s2 sgn
      (by simp) t0 hr1
    simp only [List.nil_append] at t1
    simp only at h
    generalize hr2 : d2.decodeIntRange fuel s2 = r2 at h
    obtain ⟨o2, d3, s3⟩ := r2
    cases o2 with
    | error e => simp at h
    | ok pr =>
      obtain ⟨n, off⟩ := pr
      have hbits1 : ∀ b ∈ ([] ++ [sgn] : List Nat), b ≤ 1 := by
        intro b hb
        simp at hb
        omega
      obtain ⟨pre, hsel, t2⟩ := decodeIntRange_run fuel d.previous ([] ++ [sgn]) d2 d3 s2 s3
        n off t1.2.1 hbits1 t1.2.2.2.1 hr2
      have t12 := intRun_append fuel d.previous [] [sgn] pre _ d2 d3 (statsOrNew stats) s2 s3
        t1 t2
      simp only at h
      generalize hr3 : Decoder.decodeIntValue fuel n 0 d3 s3 = r3 at h
      obtain ⟨o3, d4, s4⟩ := r3
      cases o3 with
      | error e => simp at h
      | ok v =>
        obtain ⟨vbits, hl, t3, hv⟩ := decodeIntValue_run fuel d.previous n 0
          ([] ++ ([sgn] ++ pre)) d3 d4 s3 s4 v t12.2.1
          (intRun_bits fuel d.previous [] ([sgn] ++ pre) _ d3 (statsOrNew stats) s3 (by simp)
            t12)
          t12.2.2.2.1 hr3
        have t123 := intRun_append fuel d.previous [] ([sgn] ++ pre) vbits _ d3 d4
          (statsOrNew stats) s3 s4 t12 t3
        have hv2 : v = bitsMSB vbits := hv
        subst hv2
        simp only at h
        refine ⟨sgn, pre, vbits, n, off, hsel, hl, ?_, ?_⟩
        · have e : sgn :: (pre ++ vbits) = [sgn] ++ pre ++ vbits := by simp
          rw [e]
          split at h <;> try split at h
          all_goals
            injection h with h1 h
            injection h with h2 h3
            subst h2 h3
            exact t123
        · split at h
          · rename_i hs0
            injection h with h1 h
            injection h1 with h1
            rw [if_pos hs0, ← h1]
          · rename_i hs0
            rw [if_neg hs0]
            split at h
            · rename_i hs1
              injection h with h1 h
              injection h1 with h1
              rw [if_pos hs1.2, ← h1]
            · rename_i hs1
              injection h with h1 h
              injection h1 with h1
              have hs : sgn = 1 := by omega
              rw [if_neg (fun hpos => hs1 ⟨hs, hpos⟩), ← h1]

theorem intRun_toDecodeBits (fuel : Nat) (d d1 : Decoder) (stats s1 : DecoderStats)
    (bits : List Nat)
    (t : IntRun fuel d.previous [] { d with previous := 1 } stats bits d1 s1) :
    decodeBits fuel (fun l => (intContext l : Int)) bits.length [] d stats =
      (.ok bits, { d1 with previous := d.previous }, s1) :=
  t.1

theorem intContext_small : ∀ (sofar : List Nat), (∀ b ∈ sofar, b ≤ 1) → sofar.length ≤ 8 →
    2 ^ sofar.length ≤ intContext sofar ∧ intContext sofar < 2 ^ (sofar.length + 1) := by
  intro sofar
  induction sofar using List.reverseRecOn with
  | nil => intro _ _; simp [intContext]
  | append_singleton xs b ih =>
    intro h hl
    simp only [List.length_append, List.length_singleton] at hl ⊢
    have h1 := ih (fun x hx => h x (by simp [hx])) (by omega)
    have h2 : b ≤ 1 := h b (by simp)
    have hpow : 2 ^ (xs.length + 1) ≤ 2 ^ 8 := Nat.pow_le_pow_right (by norm_num) hl
    rw [intContext_append, nextPrevious_lt _ _ (by omega) h2, pow_succ, pow_succ]
    rw [pow_succ] at h1
    omega

theorem intContext_large : ∀ (sofar : List Nat), (∀ b ∈ sofar, b ≤ 1) → 8 ≤ sofar.length →
    256 ≤ intContext sofar := by
  intro sofar
  induction sofar using List.reverseRecOn with
  | nil => intro _ hl; simp at hl
  | append_singleton xs b ih =>
    intro h hl
    simp only [List.length_append, List.length_singleton] at hl
    have hx : ∀ x ∈ xs, x ≤ 1 := fun x hx => h x (by simp [hx])
    have h2 : b ≤ 1 := h b (by simp)
    rw [intContext_append]
    by_cases hp : intContext xs < 256
    · have hlen : xs.length = 7 := by
        by_contra hne
        have := ih hx (by omega)
        omega
      have hs := intContext_small xs hx (by omega)
      rw [hlen] at hs
      rw [nextPrevious_lt _ _ hp h2]
      norm_num at hs
      omega
    · exact (nextPrevious_ge _ _ hp h2).1

/-- C2. A successful `DecodeInt` on a table whose MPS entries are bits is a run of
`1 + (number of selecting bits) + bitsToRead` bit decodings (`prvCtr` grows by that number):
the sign bit `sgn`, the bits `pre` that select `(bitsToRead, offset)` as in `selectRange`,
and `bitsToRead` bits `vbits`; with `value` the number formed by `vbits` most significant
first, the result is `value + offset` when `sgn = 0` and `-(value + offset)` when `sgn = 1`
and `value + offset > 0`. -/
theorem DecodeInt_value (fuel : Nat) (d d1 : Decoder) (stats : Option DecoderStats)
    (s1 : DecoderStats) (r : Int)
    (hb : (statsOrNew stats).mpsBits) (h : d.DecodeInt fuel stats = (.ok r, d1, s1)) :
    ∃ (sgn : Nat) (pre vbits : List Nat) (bitsToRead offset : Nat),
      decodeBits fuel (fun l => (intContext l : Int)) (1 + pre.length + bitsToRead) [] d
          (statsOrNew stats) =
        (.ok (sgn :: (pre ++ vbits)), { d1 with previous := d.previous }, s1) ∧
      sgn ≤ 1 ∧ selectRange pre = some (bitsToRead, offset) ∧ vbits.length = bitsToRead ∧
      (sgn = 0 → r = ((bitsMSB vbits + offset : Nat) : Int)) ∧
      (sgn = 1 → 0 < bitsMSB vbits + offset → r = -((bitsMSB vbits + offset : Nat) : Int)) ∧
      d1.prvCtr = d.prvCtr + ((1 + pre.length + bitsToRead : Nat) : Int) := by
  obtain ⟨sgn, pre, vbits, n, off, hsel, hl, t, hr⟩ := DecodeInt_run fuel d d1 stats s1 r hb h
  have hlen : (sgn :: (pre ++ vbits)).length = 1 + pre.length + n := by
    simp [hl]
    omega
  have hrun := intRun_toDecodeBits fuel d d1 (statsOrNew stats) s1 _ t
  rw [hlen] at hrun
  have hctr := t.2.2.2.2
  rw [hlen] at hctr
  refine ⟨sgn, pre, vbits, n, off, hrun, t.2.2.1 sgn (by simp), hsel, hl, ?_, ?_, hctr⟩
  · intro h0
    rw [hr, if_pos h0]
  · intro h1 hpos
    rw [hr, if_neg (by omega), if_pos hpos]

/-- C3. For a successful `DecodeInt` on a table whose MPS entries are bits, decomposed into
sign bit, selecting bits and value bits as in C2: the result is `math.MaxInt64` exactly
when the sign bit is 1 and `value + offset` is 0; otherwise it is `value + offset` or its
negation, both different from `math.MaxInt64`. -/
theorem DecodeInt_oob_iff (fuel : Nat) (d d1 : Decoder) (stats : Option DecoderStats)
    (s1 : DecoderStats) (r : Int)
    (hb : (statsOrNew stats).mpsBits) (h : d.DecodeInt fuel stats = (.ok r, d1, s1)) :
    ∃ (sgn : Nat) (pre vbits : List Nat) (bitsToRead offset : Nat),
      decodeBits fuel (fun l => (intContext l : Int)) (1 + pre.length + bitsToRead) [] d
          (statsOrNew stats) =
        (.ok (sgn :: (pre ++ vbits)), { d1 with previous := d.previous }, s1) ∧
      sgn ≤ 1 ∧ selectRange pre = some (bitsToRead, offset) ∧ vbits.length = bitsToRead ∧
      (r = MaxInt64 ↔ sgn = 1 ∧ bitsMSB vbits + offset = 0) ∧
      (r ≠ MaxInt64 → (r = ((bitsMSB vbits + offset : Nat) : Int) ∨
        r = -((bitsMSB vbits + offset : Nat) : Int)) ∧ -MaxInt64 < r ∧ r < MaxInt64) := by
  obtain ⟨sgn, pre, vbits, n, off, hsel, hl, t, hr⟩ := DecodeInt_run fuel d d1 stats s1 r hb h
  have hlen : (sgn :: (pre ++ vbits)).length = 1 + pre.length + n := by
    simp [hl]
    omega
  have hrun := intRun_toDecodeBits fuel d d1 (statsOrNew stats) s1 _ t
  rw [hlen] at hrun
  have hsgn : sgn ≤ 1 := t.2.2.1 sgn (by simp)
  have hvb : ∀ b ∈ vbits, b ≤ 1 := fun b hb => t.2.2.1 b (by simp [hb])
  have hv := bitsMSB_lt vbits hvb
  rw [hl] at hv
  have hcases := selectRange_cases pre n off hsel
  have hbound : bitsMSB vbits + off < 2 ^ 33 := by
    simp only [List.mem_cons, Prod.mk.injEq, List.mem_singleton, List.not_mem_nil,
      or_false] at hcases
    rcases hcases with ⟨h1, h2⟩ | ⟨h1, h2⟩ | ⟨h1, h2⟩ | ⟨h1, h2⟩ | ⟨h1, h2⟩ | ⟨h1, h2⟩ <;>
      subst h1 h2 <;> norm_num at hv ⊢ <;> omega
  have hM : MaxInt64 = 2 ^ 63 - 1 := rfl
  refine ⟨sgn, pre, vbits, n, off, hrun, hsgn, hsel, hl, ?_, ?_⟩
  · rw [hr, hM]
    constructor
    · intro heq
      split at heq
      · omega
      · split at heq
        · omega
        · omega
    · rintro ⟨h1, h0⟩
      rw [if_neg (by omega), if_neg (by omega)]
  · intro hne
    rw [hr, hM] at hne ⊢
    split
    · exact ⟨Or.inl rfl, by omega, by omega⟩
    · split
      · exact ⟨Or.inr rfl, by omega, by omega⟩
      · rename_i h1 h2
        rw [if_neg h1, if_neg h2] at hne
        exact absurd rfl hne

/-- Witness of C2: `DecodeInt` on `sampleDecoderA` decodes the four bits 0, 0, 0, 0 and
returns 0. -/
theorem DecodeInt_value_witness :
    ∃ (sgn : Nat) (pre vbits : List Nat) (bitsToRead offset : Nat),
      decodeBits 2 (fun l => (intContext l : Int)) (1 + pre.length + bitsToRead) []
          sampleDecoderA (NewStats 16 0) =
        (.ok (sgn :: (pre ++ vbits)),
          { (sampleDecoderA.DecodeInt 2 (some (NewStats 16 0))).2.1 with
            previous := sampleDecoderA.previous },
          (sampleDecoderA.DecodeInt 2 (some (NewStats 16 0))).2.2) ∧
      sgn ≤ 1 ∧ selectRange pre = some (bitsToRead, offset) ∧ vbits.length = bitsToRead ∧
      (sgn = 0 → (0 : Int) = ((bitsMSB vbits + offset : Nat) : Int)) ∧
      (sgn = 1 → 0 < bitsMSB vbits + offset →
        (0 : Int) = -((bitsMSB vbits + offset : Nat) : Int)) ∧
      (sampleDecoderA.DecodeInt 2 (some (NewStats 16 0))).2.1.prvCtr =
        sampleDecoderA.prvCtr + ((1 + pre.length + bitsToRead : Nat) : Int) :=
  DecodeInt_value 2 sampleDecoderA _ (some (NewStats 16 0)) _ 0 (by decide) rfl

/-- Witness of C3: `DecodeInt` on `sampleDecoderB` decodes the bits 1, 0, 0, 0 (sign 1,
magnitude 0) and returns `math.MaxInt64`. -/
theorem DecodeInt_oob_iff_witness :
    ∃ (sgn : Nat) (pre vbits : List Nat) (bitsToRead offset : Nat),
      decodeBits 2 (fun l => (intContext l : Int)) (1 + pre.length + bitsToRead) []
          sampleDecoderB (NewStats 16 0) =
        (.ok (sgn :: (pre ++ vbits)),
          { (sampleDecoderB.DecodeInt 2 (some (NewStats 16 0))).2.1 with
            previous := sampleDecoderB.previous },
          (sampleDecoderB.DecodeInt 2 (some (NewStats 16 0))).2.2) ∧
      sgn ≤ 1 ∧ selectRange pre = some (bitsToRead, offset) ∧ vbits.length = bitsToRead ∧
      ((9223372036854775807 : Int) = MaxInt64 ↔ sgn = 1 ∧ bitsMSB vbits + offset = 0) ∧
      ((9223372036854775807 : Int) ≠ MaxInt64 →
        ((9223372036854775807 : Int) = ((bitsMSB vbits + offset : Nat) : Int) ∨
          (9223372036854775807 : Int) = -((bitsMSB vbits + offset : Nat) : Int)) ∧
        -MaxInt64 < (9223372036854775807 : Int) ∧ (9223372036854775807 : Int) < MaxInt64) :=
  DecodeInt_oob_iff 2 sampleDecoderB _ (some (NewStats 16 0)) _ 9223372036854775807 (by decide)
    rfl

/-- C4. In a successful `DecodeInt` on a table whose MPS entries are bits, with `bits` the
decoded bits: the bit number `k` is decoded on the context index `intContext (bits.take k)`,
the history value, which is 1 for the sign bit and follows the update rule of section 4.2
(`nextPrevious`) from one bit to the next, and is the value of `previous` at the end. Every
such index lies in `[1, 511]`, and the history value is at least 256 exactly from the
eighth decoded bit on, so it never falls below 256 again. -/
theorem DecodeInt_contexts (fuel : Nat) (d d1 : Decoder) (stats : Option DecoderStats)
    (s1 : DecoderStats) (r : Int)
    (hb : (statsOrNew stats).mpsBits) (h : d.DecodeInt fuel stats = (.ok r, d1, s1)) :
    ∃ bits : List Nat,
      decodeBits fuel (fun l => (intContext l : Int)) bits.length [] d (statsOrNew stats) =
        (.ok bits, { d1 with previous := d.previous }, s1) ∧
      d1.previous = intContext bits ∧ intContext (bits.take 0) = 1 ∧
      ∀ k, k ≤ bits.length →
        (1 ≤ intContext (bits.take k) ∧ intContext (bits.take k) ≤ 511) ∧
        (∀ b, bits[k]? = some b →
          intContext (bits.take (k + 1)) = nextPrevious (intContext (bits.take k)) b) ∧
        (256 ≤ intContext (bits.take k) ↔ 8 ≤ k) := by
  obtain ⟨sgn, pre, vbits, n, off, hsel, hl, t, hr⟩ := DecodeInt_run fuel d d1 stats s1 r hb h
  refine ⟨sgn :: (pre ++ vbits), intRun_toDecodeBits fuel d d1 (statsOrNew stats) s1 _ t, ?_,
    rfl, ?_⟩
  · simpa using t.2.1
  · intro k hk
    have hbits : ∀ b ∈ (sgn :: (pre ++ vbits)).take k, b ≤ 1 :=
      fun b hb => t.2.2.1 b (List.mem_of_mem_take hb)
    have hlen : ((sgn :: (pre ++ vbits)).take k).length = k := by
      rw [List.length_take]
      omega
    refine ⟨intContext_range _ hbits, ?_, ?_⟩
    · intro b hb
      rw [List.take_succ, hb]
      exact intContext_append _ b
    · constructor
      · intro h256
        by_contra hlt
        have hs := intContext_small _ hbits (by omega)
        rw [hlen] at hs
        have hpow : 2 ^ (k + 1) ≤ 2 ^ 8 := Nat.pow_le_pow_right (by norm_num) (by omega)
        omega
      · intro h8
        exact intContext_large _ hbits (by omega)

/-- Witness of C4: the four contexts of `DecodeInt` on `sampleDecoderA`. -/
theorem DecodeInt_contexts_witness :
    ∃ bits : List Nat,
      decodeBits 2 (fun l => (intContext l : Int)) bits.length [] sampleDecoderA (NewStats 16 0) =
        (.ok bits,
          { (sampleDecoderA.DecodeInt 2 (some (NewStats 16 0))).2.1 with
            previous := sampleDecoderA.previous },
          (sampleDecoderA.DecodeInt 2 (some (NewStats 16 0))).2.2) ∧
      (sampleDecoderA.DecodeInt 2 (some (NewStats 16 0))).2.1.previous = intContext bits ∧
      intContext (bits.take 0) = 1 ∧
      ∀ k, k ≤ bits.length →
        (1 ≤ intContext (bits.take k) ∧ intContext (bits.take k) ≤ 511) ∧
        (∀ b, bits[k]? = some b →
          intContext (bits.take (k + 1)) = nextPrevious (intContext (bits.take k)) b) ∧
        (256 ≤ intContext (bits.take k) ↔ 8 ≤ k) :=
  DecodeInt_contexts 2 sampleDecoderA _ (some (NewStats 16 0)) _ 0 (by decide) rfl

/-! ## Fuel -/

theorem Seek_error (r r1 : Reader) (off : Int) (e : Err)
    (h : r.Seek off = (.error e, r1)) : e = .negativeSeek := by
  unfold Reader.Seek at h
  split at h
  · injection h with h _
    injection h with h
    exact h.symm
  · simp at h

theorem ReadByte_error (r r1 : Reader) (e : Err)
    (h : r.ReadByte = (.error e, r1)) : e = .eof := by
  unfold Reader.ReadByte at h
  split at h
  · simp at h
  · injection h with h _
    injection h with h
    exact h.symm

/-- Byte-in fails only with end of input or a refused seek. -/
theorem readByte_error (d d1 : Decoder) (e : Err) (h : d.readByte = (.error e, d1)) :
    e = .eof ∨ e = .negativeSeek := by
  unfold Decoder.readByte at h
  split at h
  · rename_i e1 r1 heq
    injection h with h _
    injection h with h
    subst h
    split at heq
    · exact Or.inr (Seek_error _ _ _ _ heq)
    · simp at heq
  · split at h
    · rename_i e1 r1 heq
      injection h with h _
      injection h with h
      subst h
      exact Or.inl (ReadByte_error _ _ _ heq)
    · split at h
      · split at h
        · rename_i e1 r1 heq
          injection h with h _
          injection h with h
          subst h
          exact Or.inl (ReadByte_error _ _ _ heq)
        · split at h
          · split at h
            · rename_i e1 r1 heq
              injection h with h _
              injection h with h
              subst h
              exact Or.inr (Seek_error _ _ _ _ heq)
            · simp at h
          · simp at h
      · split at h
        · rename_i e1 r1 heq
          injection h with h _
          injection h with h
          subst h
          exact Or.inl (ReadByte_error _ _ _ heq)
        · simp at h

/-- Entered with `0 < a < 0x8000` the loop of `renormalize` needs at most 15 iterations: with
that much fuel it is never cut off. -/
theorem renormalizeLoop_fuel : ∀ (fuel : Nat) (d : Decoder), 0 < d.a → d.a < 0x8000 →
    0x8000 ≤ d.a * 2 ^ fuel → (renormalizeLoop fuel d).1 ≠ .error .outOfFuel
  | 0, d, _, h1, h2 => by
    simp at h2
    omega
  | fuel + 1, d, h0, h1, h2 => by
    simp only [renormalizeLoop]
    have hA : (if d.ct = 0 then d.readByte else (Except.ok (), d)).2.a = d.a := by
      split
      · exact readByte_a d
      · rfl
    have hE : (if d.ct = 0 then d.readByte else (Except.ok (), d)).1 ≠ .error .outOfFuel := by
      split
      · intro hc
        have hp : d.readByte = (.error .outOfFuel, d.readByte.2) := by rw [← hc]
        rcases readByte_error d _ _ hp with h | h <;> cases h
      · simp
    generalize (if d.ct = 0 then d.readByte else (Except.ok (), d)) = rb at hA hE
    obtain ⟨res, d2⟩ := rb
    simp only at hA hE
    cases res with
    | error e => exact hE
    | ok u =>
      simp only [Nat.shiftLeft_eq, pow_one]
      have hbit := and_0x8000 (d2.a * 2 % 2 ^ 32)
      split
      · simp
      · rename_i hne
        have hz : (d2.a * 2 % 2 ^ 32) &&& 0x8000 = 0 := by simpa using hne
        rw [pow_succ] at h2
        exact renormalizeLoop_fuel fuel _ (by simp only; omega) (by simp only; omega)
          (by simp only; rw [Nat.mod_eq_of_lt (by omega), hA]; nlinarith)

/-- From a state with `a` in `[0x8000, 0xFFFF]`, `DecodeBit` with fuel 15 or more is never
cut off: it returns a bit or a genuine error. -/
theorem DecodeBit_fuel (fuel : Nat) (d : Decoder) (stats : DecoderStats) (hf : 15 ≤ fuel)
    (hlo : 0x8000 ≤ d.a) (hhi : d.a ≤ 0xFFFF) :
    (d.DecodeBit fuel stats).1 ≠ .error .outOfFuel := by
  have hren : ∀ e : Decoder, 0 < e.a → e.a < 0x8000 →
      (e.renormalize fuel).1 ≠ .error .outOfFuel := by
    intro e h0 h1
    have hp : 2 ^ 15 ≤ 2 ^ fuel := Nat.pow_le_pow_right (by norm_num) hf
    have h2 : 0x8000 ≤ e.a * 2 ^ fuel := by nlinarith
    have := renormalizeLoop_fuel fuel e h0 h1 h2
    unfold Decoder.renormalize
    generalize renormalizeLoop fuel e = rb at this
    obtain ⟨res, d2⟩ := rb
    cases res with
    | error x => exact this
    | ok u => simp
  unfold Decoder.DecodeBit
  split
  · simp
  · split
    · simp
    · rename_i row hrow
      obtain ⟨hq0, hq1, -⟩ := qe_row_bounds hrow
      have ha : (d.a + 2 ^ 32 - row.1) % 2 ^ 32 = d.a - row.1 := by omega
      simp only [ha]
      split
      · split
        · simp
        · rename_i b2 d2 s2 hl
          have hd2 := lpsExchange_a _ _ _ _ _ _ _ hl
          have := hren d2 (by omega) (by omega)
          generalize d2.renormalize fuel = rr at this
          obtain ⟨res, d3⟩ := rr
          cases res with
          | error x => simpa using this
          | ok u => simp
      · have hbit := and_0x8000 (d.a - row.1)
        split
        · rename_i hz
          split
          · simp
          · have := hren { d with a := d.a - row.1, c := d.c - (row.1 <<< 16) }
              (by simp only; omega) (by simp only; omega)
            generalize Decoder.renormalize fuel _ = rr at this
            obtain ⟨res, d3⟩ := rr
            cases res with
            | error x => simpa using this
            | ok u => simp
        · split <;> simp

/-! ## DecodeBit touches one slot only -/

theorem agreeOff_refl (s : DecoderStats) : s.agreeOff s :=
  ⟨rfl, rfl, rfl, rfl, fun _ _ => ⟨rfl, rfl⟩⟩

theorem agreeOff_trans (s s1 s2 : DecoderStats) (h1 : s.agreeOff s1) (h2 : s1.agreeOff s2) :
    s.agreeOff s2 := by
  obtain ⟨a1, a2, a3, a4, a5⟩ := h1
  obtain ⟨b1, b2, b3, b4, b5⟩ := h2
  refine ⟨b1.trans a1, b2.trans a2, b3.trans a3, b4.trans a4, fun j hj => ?_⟩
  have hj1 : (j : Int) ≠ s1.index := by rw [a1]; exact hj
  exact ⟨(b5 j hj1).1.trans (a5 j hj).1, (b5 j hj1).2.trans (a5 j hj).2⟩

theorem setEntry_agreeOff (s s1 : DecoderStats) (v : Nat) (h : s.setEntry v = some s1) :
    s.agreeOff s1 := by
  unfold DecoderStats.setEntry at h
  split at h
  · simp at h
  · rename_i hneg
    split at h
    · injection h with h
      subst h
      refine ⟨rfl, rfl, by simp, rfl, fun j hj => ⟨?_, rfl⟩⟩
      have hne : s.index.toNat ≠ j := by omega
      simp [List.getElem?_set_ne hne]
    · simp at h

theorem toggleMps_agreeOff (s s1 : DecoderStats) (h : s.toggleMps = some s1) :
    s.agreeOff s1 := by
  unfold DecoderStats.toggleMps at h
  split at h
  · simp at h
  · rename_i hneg
    split at h
    · injection h with h
      subst h
      refine ⟨rfl, rfl, rfl, by simp, fun j hj => ⟨rfl, ?_⟩⟩
      have hne : s.index.toNat ≠ j := by omega
      simp [List.getElem?_set_ne hne]
    · simp at h

theorem lpsExchange_agreeOff (d d1 : Decoder) (stats stats1 : DecoderStats) (k q bit : Nat)
    (h : d.lpsExchange stats k q = some (bit, d1, stats1)) : stats.agreeOff stats1 := by
  unfold Decoder.lpsExchange at h
  split at h
  · split at h
    · split at h
      · simp at h
      · rename_i s1 hs1
        injection h with h
        injection h with _ h
        injection h with _ h
        subst h
        exact setEntry_agreeOff _ _ _ hs1
    · split at h
      · simp at h
      · rename_i s1 hs1
        have h1 : stats.agreeOff s1 := by
          split at hs1
          · exact toggleMps_agreeOff _ _ hs1
          · injection hs1 with hs1
            subst hs1
            exact agreeOff_refl _
        split at h
        · simp at h
        · rename_i s2 hs2
          injection h with h
          injection h with _ h
          injection h with _ h
          subst h
          exact agreeOff_trans _ _ _ h1 (setEntry_agreeOff _ _ _ hs2)
  · simp at h

theorem mpsExchange_agreeOff (d : Decoder) (stats stats1 : DecoderStats) (k bit : Nat)
    (h : d.mpsExchange stats k = some (bit, stats1)) : stats.agreeOff stats1 := by
  unfold Decoder.mpsExchange at h
  split at h
  · split at h
    · split at h
      · simp at h
      · rename_i s1 hs1
        have h1 : stats.agreeOff s1 := by
          split at hs1
          · exact toggleMps_agreeOff _ _ hs1
          · injection hs1 with hs1
            subst hs1
            exact agreeOff_refl _
        split at h
        · simp at h
        · rename_i s2 hs2
          injection h with h
          injection h with _ h
          subst h
          exact agreeOff_trans _ _ _ h1 (setEntry_agreeOff _ _ _ hs2)
    · split at h
      · simp at h
      · rename_i s1 hs1
        injection h with h
        injection h with _ h
        subst h
        exact setEntry_agreeOff _ _ _ hs1
  · simp at h

/-- The table left by `DecodeBit`, whatever the outcome, differs from the one given at most in
the slot of the index. -/
theorem DecodeBit_agreeOff (fuel : Nat) (d : Decoder) (stats : DecoderStats) :
    stats.agreeOff (d.DecodeBit fuel stats).2.2 := by
  unfold Decoder.DecodeBit
  split
  · exact agreeOff_refl _
  · split
    · exact agreeOff_refl _
    · simp only
      split
      · split
        · exact agreeOff_refl _
        · rename_i b2 d2 s2 hl
          have := lpsExchange_agreeOff _ _ _ _ _ _ _ hl
          split <;> exact this
      · split
        · split
          · exact agreeOff_refl _
          · rename_i b2 s2 hl
            have := mpsExchange_agreeOff _ _ _ _ _ hl
            split <;> exact this
        · split <;> exact agreeOff_refl _

/-- C11. For a `DecodeBit` call on a table positioned at context index `i`, successful or
not: every slot `j` other than `i` has the same state index and the same MPS bit after the
call as before it (and the index and the sizes of the table are unchanged). -/
theorem DecodeBit_other_slots (fuel : Nat) (d : Decoder) (stats : DecoderStats) (j : Nat)
    (hj : (j : Int) ≠ stats.index) :
    (d.DecodeBit fuel stats).2.2.codingContextTable[j]? = stats.codingContextTable[j]? ∧
    (d.DecodeBit fuel stats).2.2.mps[j]? = stats.mps[j]? ∧
    (d.DecodeBit fuel stats).2.2.index = stats.index ∧
    (d.DecodeBit fuel stats).2.2.codingContextTable.length = stats.codingContextTable.length ∧
    (d.DecodeBit fuel stats).2.2.mps.length = stats.mps.length := by
  obtain ⟨h1, _, h3, h4, h5⟩ := DecodeBit_agreeOff fuel d stats
  exact ⟨(h5 j hj).1, (h5 j hj).2, h1, h3, h4⟩

/-- Witness of C11: a decoding on slot 1 of a three-slot table (state 0 switches the MPS bit
and moves to state 1) leaves slot 2 alone. -/
theorem DecodeBit_other_slots_witness :
    ((mkDecoder [] 0 0x8000 0x60000000 3).DecodeBit 2 (NewStats 3 1)).2.2.codingContextTable[2]?
      = (NewStats 3 1).codingContextTable[2]? ∧
    ((mkDecoder [] 0 0x8000 0x60000000 3).DecodeBit 2 (NewStats 3 1)).2.2.mps[2]?
      = (NewStats 3 1).mps[2]? ∧
    ((mkDecoder [] 0 0x8000 0x60000000 3).DecodeBit 2 (NewStats 3 1)).2.2.index
      = (NewStats 3 1).index ∧
    ((mkDecoder [] 0 0x8000 0x60000000 3).DecodeBit 2 (NewStats 3 1)).2.2.codingContextTable.length
      = (NewStats 3 1).codingContextTable.length ∧
    ((mkDecoder [] 0 0x8000 0x60000000 3).DecodeBit 2 (NewStats 3 1)).2.2.mps.length
      = (NewStats 3 1).mps.length :=
  DecodeBit_other_slots 2 (mkDecoder [] 0 0x8000 0x60000000 3) (NewStats 3 1) 2 (by decide)

/-! ## Determinism and the bookkeeping fields -/

theorem erase_eq_iff (d e : Decoder) :
    d.eraseBookkeeping = e.eraseBookkeeping ↔
      e = { d with b := e.b, prvCtr := e.prvCtr } := by
  obtain ⟨d1, d2, d3, d4, d5, d6, d7, d8, d9, d10⟩ := d
  obtain ⟨e1, e2, e3, e4, e5, e6, e7, e8, e9, e10⟩ := e
  simp only [Decoder.eraseBookkeeping, Decoder.mk.injEq]
  constructor
  · rintro ⟨h1, h2, h3, -, h5, h6, h7, h8, -, h10⟩
    exact ⟨h1.symm, h2.symm, h3.symm, trivial, h5.symm, h6.symm, h7.symm, h8.symm, trivial,
      h10.symm⟩
  · rintro ⟨h1, h2, h3, -, h5, h6, h7, h8, -, h10⟩
    exact ⟨h1.symm, h2.symm, h3.symm, trivial, h5.symm, h6.symm, h7.symm, h8.symm, trivial,
      h10.symm⟩

theorem readByte_erase (d : Decoder) (x : Nat) (y : Int) :
    ({ d with b := x, prvCtr := y } : Decoder).readByte.1 = d.readByte.1 ∧
    ({ d with b := x, prvCtr := y } : Decoder).readByte.2.eraseBookkeeping =
      d.readByte.2.eraseBookkeeping := by
  unfold Decoder.readByte
  simp only
  repeat' split
  all_goals simp_all [Decoder.eraseBookkeeping]

theorem erase_eq_exists (d e : Decoder) (h : d.eraseBookkeeping = e.eraseBookkeeping) :
    ∃ (x : Nat) (y : Int), e = { d with b := x, prvCtr := y } :=
  ⟨e.b, e.prvCtr, (erase_eq_iff d e).mp h⟩

theorem erase_set (d : Decoder) (x : Nat) (y : Int) :
    ({ d with b := x, prvCtr := y } : Decoder).eraseBookkeeping = d.eraseBookkeeping := rfl

theorem renormalizeLoop_erase : ∀ (fuel : Nat) (d : Decoder) (x : Nat) (y : Int),
    (renormalizeLoop fuel { d with b := x, prvCtr := y }).1 = (renormalizeLoop fuel d).1 ∧
    (renormalizeLoop fuel { d with b := x, prvCtr := y }).2.eraseBookkeeping =
      (renormalizeLoop fuel d).2.eraseBookkeeping
  | 0, d, x, y => ⟨rfl, rfl⟩
  | fuel + 1, d, x, y => by
    simp only [renormalizeLoop]
    have hA : (if d.ct = 0 then ({ d with b := x, prvCtr := y } : Decoder).readByte
          else (Except.ok (), { d with b := x, prvCtr := y })).1 =
          (if d.ct = 0 then d.readByte else (Except.ok (), d)).1 ∧
        (if d.ct = 0 then ({ d with b := x, prvCtr := y } : Decoder).readByte
          else (Except.ok (), { d with b := x, prvCtr := y })).2.eraseBookkeeping =
          (if d.ct = 0 then d.readByte else (Except.ok (), d)).2.eraseBookkeeping := by
      split
      · exact readByte_erase d x y
      · exact ⟨rfl, rfl⟩
    generalize (if d.ct = 0 then ({ d with b := x, prvCtr := y } : Decoder).readByte
          else (Except.ok (), { d with b := x, prvCtr := y })) = rbE at hA
    generalize (if d.ct = 0 then d.readByte else (Except.ok (), d)) = rbD at hA
    obtain ⟨resE, e2⟩ := rbE
    obtain ⟨resD, d2⟩ := rbD
    obtain ⟨h1, h2⟩ := hA
    simp only at h1 h2
    subst h1
    obtain ⟨x2, y2, rfl⟩ := erase_eq_exists d2 e2 h2.symm
    cases resE with
    | error err => exact ⟨rfl, rfl⟩
    | ok u =>
      simp only
      split
      · exact ⟨rfl, rfl⟩
      · exact renormalizeLoop_erase fuel
          { d2 with a := (d2.a <<< 1) % 2 ^ 32, c := (d2.c <<< 1) % 2 ^ 64, ct := d2.ct - 1 }
          x2 y2

theorem renormalize_erase (fuel : Nat) (d : Decoder) (x : Nat) (y : Int) :
    (({ d with b := x, prvCtr := y } : Decoder).renormalize fuel).1 = (d.renormalize fuel).1 ∧
    (({ d with b := x, prvCtr := y } : Decoder).renormalize fuel).2.eraseBookkeeping =
      (d.renormalize fuel).2.eraseBookkeeping := by
  unfold Decoder.renormalize
  have h := renormalizeLoop_erase fuel d x y
  generalize renormalizeLoop fuel { d with b := x, prvCtr := y } = rbE at h
  generalize renormalizeLoop fuel d = rbD at h
  obtain ⟨resE, e2⟩ := rbE
  obtain ⟨resD, d2⟩ := rbD
  obtain ⟨h1, h2⟩ := h
  simp only at h1 h2
  subst h1
  obtain ⟨x2, y2, rfl⟩ := erase_eq_exists d2 e2 h2.symm
  cases resE <;> exact ⟨rfl, rfl⟩

theorem lpsExchange_erase (d : Decoder) (stats : DecoderStats) (k q x : Nat) (y : Int) :
    ({ d with b := x, prvCtr := y } : Decoder).lpsExchange stats k q =
      (d.lpsExchange stats k q).map
        (fun r => (r.1, { r.2.1 with b := x, prvCtr := y }, r.2.2)) := by
  unfold Decoder.lpsExchange
  repeat' split
  all_goals simp_all

theorem DecodeBit_erase (fuel : Nat) (d : Decoder) (stats : DecoderStats) (x : Nat) (y : Int) :
    (({ d with b := x, prvCtr := y } : Decoder).DecodeBit fuel stats).1 =
      (d.DecodeBit fuel stats).1 ∧
    (({ d with b := x, prvCtr := y } : Decoder).DecodeBit fuel stats).2.1.eraseBookkeeping =
      (d.DecodeBit fuel stats).2.1.eraseBookkeeping ∧
    (({ d with b := x, prvCtr := y } : Decoder).DecodeBit fuel stats).2.2 =
      (d.DecodeBit fuel stats).2.2 := by
  unfold Decoder.DecodeBit
  split
  · exact ⟨rfl, rfl, rfl⟩
  · rename_i icx hcx
    split
    · exact ⟨rfl, rfl, rfl⟩
    · rename_i row hrow
      simp only
      split
      · have hl := lpsExchange_erase
          { d with a := (d.a + 2 ^ 32 - row.1) % 2 ^ 32 } stats icx row.1 x y
        simp only at hl
        rw [hl]
        generalize Decoder.lpsExchange _ stats icx row.1 = lr
        cases lr with
        | none => exact ⟨rfl, rfl, rfl⟩
        | some r =>
          obtain ⟨b, d2, s2⟩ := r
          simp only [Option.map]
          have hr := renormalize_erase fuel d2 x y
          simp only at hr
          generalize Decoder.renormalize fuel { d2 with b := x, prvCtr := y } = rrE at hr
          generalize d2.renormalize fuel = rrD at hr
          obtain ⟨resE, e3⟩ := rrE
          obtain ⟨resD, d3⟩ := rrD
          obtain ⟨h1, h2⟩ := hr
          simp only at h1 h2
          subst h1
          obtain ⟨x2, y2, rfl⟩ := erase_eq_exists d3 e3 h2.symm
          cases resE <;> exact ⟨rfl, rfl, rfl⟩
      · split
        · have hm : ∀ (e : Decoder),
              ({ e with b := x, prvCtr := y } : Decoder).mpsExchange stats icx =
                e.mpsExchange stats icx := fun e => rfl
          have hm2 := hm { d with a := (d.a + 2 ^ 32 - row.1) % 2 ^ 32,
                                  c := d.c - (row.1 <<< 16) }
          simp only at hm2
          rw [hm2]
          generalize Decoder.mpsExchange _ stats icx = mr
          cases mr with
          | none => exact ⟨rfl, rfl, rfl⟩
          | some r =>
            obtain ⟨b, s2⟩ := r
            simp only
            have hr := renormalize_erase fuel
              { d with a := (d.a + 2 ^ 32 - row.1) % 2 ^ 32, c := d.c - (row.1 <<< 16) } x y
            simp only at hr
            generalize Decoder.renormalize fuel
              { d with b := x, prvCtr := y, a := (d.a + 2 ^ 32 - row.1) % 2 ^ 32,
                       c := d.c - (row.1 <<< 16) } = rrE at hr
            generalize Decoder.renormalize fuel
              { d with a := (d.a + 2 ^ 32 - row.1) % 2 ^ 32,
                       c := d.c - (row.1 <<< 16) } = rrD at hr
            obtain ⟨resE, e3⟩ := rrE
            obtain ⟨resD, d3⟩ := rrD
            obtain ⟨h1, h2⟩ := hr
            simp only at h1 h2
            subst h1
            obtain ⟨x2, y2, rfl⟩ := erase_eq_exists d3 e3 h2.symm
            cases resE <;> exact ⟨rfl, rfl, rfl⟩
        · split <;> exact ⟨rfl, rfl, rfl⟩

theorem blind_andThen {α β : Type}
    {F : Decoder → DecoderStats → Except Err α × Decoder × DecoderStats}
    {G : α → Decoder → DecoderStats → Except Err β × Decoder × DecoderStats}
    (hF : Blind F) (hG : ∀ a, Blind (G a)) : Blind (andThen F G) := by
  intro d e s h
  obtain ⟨h1, h2, h3⟩ := hF d e s h
  unfold andThen
  generalize F d s = rd at h1 h2 h3
  generalize F e s = re at h1 h2 h3
  obtain ⟨od, d1, s1⟩ := rd
  obtain ⟨oe, e1, t1⟩ := re
  simp only at h1 h2 h3
  subst h1 h3
  cases od with
  | error err => exact ⟨rfl, h2, rfl⟩
  | ok a => exact hG a d1 e1 s1 h2

theorem blind_ite {α : Type} (c : Prop) [Decidable c]
    {F G : Decoder → DecoderStats → Except Err α × Decoder × DecoderStats}
    (hF : Blind F) (hG : Blind G) : Blind (fun d s => if c then F d s else G d s) := by
  intro d e s h
  by_cases hc : c
  · simpa [hc] using hF d e s h
  · simpa [hc] using hG d e s h

theorem blind_ret {α : Type} (v : α) : Blind (fun d s => (Except.ok v, d, s)) :=
  fun _ _ _ h => ⟨rfl, h, rfl⟩

theorem blind_setOne {α : Type}
    {F : Decoder → DecoderStats → Except Err α × Decoder × DecoderStats} (hF : Blind F) :
    Blind (fun d s => F { d with previous := 1 } s) := by
  intro d e s h
  obtain ⟨x, y, rfl⟩ := erase_eq_exists d e h
  exact hF _ _ s rfl

theorem blind_DecodeBit_at (fuel : Nat) (index : Int) :
    Blind (fun d s => d.DecodeBit fuel (s.SetIndex index)) := by
  intro d e s h
  obtain ⟨x, y, rfl⟩ := erase_eq_exists d e h
  obtain ⟨h1, h2, h3⟩ := DecodeBit_erase fuel d (s.SetIndex index) x y
  exact ⟨h1.symm, h2.symm, h3.symm⟩

theorem blind_DecodeBit_previous (fuel : Nat) :
    Blind (fun d s => d.DecodeBit fuel (s.SetIndex (toInt64 d.previous))) := by
  intro d e s h
  obtain ⟨x, y, rfl⟩ := erase_eq_exists d e h
  obtain ⟨h1, h2, h3⟩ := DecodeBit_erase fuel d (s.SetIndex (toInt64 d.previous)) x y
  exact ⟨h1.symm, h2.symm, h3.symm⟩

theorem blind_congr {α : Type}
    {F G : Decoder → DecoderStats → Except Err α × Decoder × DecoderStats}
    (h : ∀ d s, F d s = G d s) (hG : Blind G) : Blind F := by
  intro d e s hde
  rw [h d s, h e s]
  exact hG d e s hde

theorem blind_decodeIntBit (fuel : Nat) : Blind (fun d s => d.decodeIntBit fuel s) :=
  blind_congr
    (fun d s => by
      simp only [Decoder.decodeIntBit, andThen]
      split <;> simp_all)
    (blind_andThen (blind_DecodeBit_previous fuel)
      (G := fun bit d1 s1 =>
        if toInt64 d1.previous < 256 then
          (.ok bit,
            { d1 with previous := (((d1.previous <<< 1) % 2 ^ 64) ||| bit) &&& 0x1ff }, s1)
        else
          (.ok bit,
            { d1 with previous :=
                (((((d1.previous <<< 1) % 2 ^ 64) ||| bit) &&& 511) ||| 256) &&& 0x1ff }, s1))
      (by
        intro bit d e s h
        obtain ⟨x, y, rfl⟩ := erase_eq_exists d e h
        simp only
        split <;> exact ⟨rfl, rfl, rfl⟩))

theorem blind_decodeIntRange (fuel : Nat) : Blind (fun d s => d.decodeIntRange fuel s) :=
  have hb := blind_decodeIntBit fuel
  blind_congr
    (fun d s => by
      simp only [Decoder.decodeIntRange, andThen]
      repeat' split
      all_goals simp_all)
    (blind_andThen hb (fun b1 => blind_ite (b1 = 1)
      (blind_andThen hb (fun b2 => blind_ite (b2 = 1)
        (blind_andThen hb (fun b3 => blind_ite (b3 = 1)
          (blind_andThen hb (fun b4 => blind_ite (b4 = 1)
            (blind_andThen hb (fun b5 => blind_ite (b5 = 1)
              (blind_ret (32, 4436)) (blind_ret (12, 340))))
            (blind_ret (8, 84))))
          (blind_ret (6, 20))))
        (blind_ret (4, 4))))
      (blind_ret (2, 0))))

theorem blind_decodeIntValue (fuel : Nat) : ∀ (n v : Nat),
    Blind (fun d s => Decoder.decodeIntValue fuel n v d s)
  | 0, v => blind_ret v
  | n + 1, v =>
    blind_congr
      (fun d s => by
        simp only [Decoder.decodeIntValue, andThen]
        split <;> simp_all)
      (blind_andThen (blind_decodeIntBit fuel)
        (fun bit => blind_decodeIntValue fuel n ((v <<< 1) ||| bit)))

theorem blind_DecodeInt (fuel : Nat) : Blind (fun d s => d.DecodeInt fuel (some s)) :=
  blind_congr
    (fun d s => by
      simp only [Decoder.DecodeInt, andThen, statsOrNew]
      generalize Decoder.decodeIntBit fuel _ s = r1
      obtain ⟨o1, d1, s1⟩ := r1
      cases o1 with
      | error err => rfl
      | ok sgn =>
        simp only
        generalize d1.decodeIntRange fuel s1 = r2
        obtain ⟨o2, d2, s2⟩ := r2
        cases o2 with
        | error err => rfl
        | ok pr =>
          obtain ⟨n, off⟩ := pr
          simp only
          generalize Decoder.decodeIntValue fuel n 0 d2 s2 = r3
          obtain ⟨o3, d3, s3⟩ := r3
          cases o3 with
          | error err => rfl
          | ok v => rfl)
    (blind_andThen (blind_setOne (blind_decodeIntBit fuel))
      (fun sgn => blind_andThen (blind_decodeIntRange fuel)
        (fun pr => blind_andThen (blind_decodeIntValue fuel pr.1 0)
          (fun v => blind_ite (sgn = 0) (blind_ret ((v + pr.2 : Nat) : Int))
            (blind_ite (sgn = 1 ∧ v + pr.2 > 0) (blind_ret (-((v + pr.2 : Nat) : Int)))
              (blind_ret MaxInt64))))))

theorem blind_iaidLoop (fuel : Nat) : ∀ (n : Nat),
    Blind (fun d s => Decoder.iaidLoop fuel n d s)
  | 0 => blind_ret ()
  | n + 1 =>
    blind_congr
      (fun d s => by
        simp only [Decoder.iaidLoop, andThen]
        split <;> simp_all)
      (blind_andThen (blind_DecodeBit_previous fuel)
        (G := fun bit d1 s1 =>
          Decoder.iaidLoop fuel n
            { d1 with previous := ((d1.previous <<< 1) % 2 ^ 64) ||| bit } s1)
        (by
          intro bit d e s h
          obtain ⟨x, y, rfl⟩ := erase_eq_exists d e h
          exact blind_iaidLoop fuel n _ _ s rfl))

theorem blind_DecodeIAID (fuel codeLen : Nat) :
    Blind (fun d s => d.DecodeIAID fuel codeLen s) :=
  blind_congr
    (fun d s => by
      simp only [Decoder.DecodeIAID, andThen]
      split <;> simp_all)
    (blind_andThen (blind_setOne (blind_iaidLoop fuel codeLen))
      (G := fun (_ : Unit) d1 s1 =>
        (.ok (toInt64 ((d1.previous + 2 ^ 64 - (1 <<< codeLen) % 2 ^ 64) % 2 ^ 64)), d1, s1))
      (by
        intro u d e s h
        obtain ⟨x, y, rfl⟩ := erase_eq_exists d e h
        exact ⟨rfl, rfl, rfl⟩))

theorem blind_runCall (fuel : Nat) (call : Call) : Blind (fun d s => runCall fuel d s call) := by
  cases call with
  | bit index =>
    exact blind_congr
      (fun d s => by
        simp only [runCall, andThen]
        split <;> simp_all)
      (blind_andThen (blind_DecodeBit_at fuel index) (fun bit => blind_ret ((bit : Nat) : Int)))
  | int => exact blind_DecodeInt fuel
  | iaid codeLen => exact blind_DecodeIAID fuel codeLen

/-- Two sessions whose decoders agree up to `b` and `prvCtr` and whose tables are equal give,
for the same calls, the same results and tables and decoders that agree up to `b` and
`prvCtr`. -/
theorem runCalls_blind (fuel : Nat) : ∀ (calls : List Call) (d e : Decoder) (s : DecoderStats),
    d.eraseBookkeeping = e.eraseBookkeeping →
    (runCalls fuel calls d s).1 = (runCalls fuel calls e s).1 ∧
    (runCalls fuel calls d s).2.1.eraseBookkeeping =
      (runCalls fuel calls e s).2.1.eraseBookkeeping ∧
    (runCalls fuel calls d s).2.2 = (runCalls fuel calls e s).2.2
  | [], d, e, s, h => ⟨rfl, h, rfl⟩
  | call :: calls, d, e, s, h => by
    have hb := blind_runCall fuel call d e s h
    simp only at hb
    obtain ⟨h1, h2, h3⟩ := hb
    simp only [runCalls]
    generalize runCall fuel d s call = rd at h1 h2 h3 ⊢
    generalize runCall fuel e s call = re at h1 h2 h3 ⊢
    obtain ⟨od, d1, s1⟩ := rd
    obtain ⟨oe, e1, t1⟩ := re
    simp only at h1 h2 h3
    subst h1 h3
    obtain ⟨k1, k2, k3⟩ := runCalls_blind fuel calls d1 e1 s1 h2
    generalize runCalls fuel calls d1 s1 = rd2 at k1 k2 k3 ⊢
    generalize runCalls fuel calls e1 s1 = re2 at k1 k2 k3 ⊢
    obtain ⟨rsd, d2, s2⟩ := rd2
    obtain ⟨rse, e2, t2⟩ := re2
    simp only at k1 k2 k3 ⊢
    subst k1 k3
    exact ⟨rfl, k2, rfl⟩

/-- C12. Decoding is a function of the byte stream, the calls and the starting table, and it
does not look at the bookkeeping fields: two decoders that agree except in `b` and `prvCtr`
(in particular two decoders made by `New` over the same bytes), driven by the same calls on
tables that start identical, return identical results (bits, values and errors) and end with
identical `a`, `c`, `ct`, `previous`, reader (data and position) and statistics. -/
theorem decode_deterministic (fuel : Nat) (calls : List Call) (d e : Decoder)
    (s : DecoderStats) (h : d.eraseBookkeeping = e.eraseBookkeeping) :
    (runCalls fuel calls d s).1 = (runCalls fuel calls e s).1 ∧
    (runCalls fuel calls d s).2.2 = (runCalls fuel calls e s).2.2 ∧
    (runCalls fuel calls d s).2.1.a = (runCalls fuel calls e s).2.1.a ∧
    (runCalls fuel calls d s).2.1.c = (runCalls fuel calls e s).2.1.c ∧
    (runCalls fuel calls d s).2.1.ct = (runCalls fuel calls e s).2.1.ct ∧
    (runCalls fuel calls d s).2.1.previous = (runCalls fuel calls e s).2.1.previous ∧
    (runCalls fuel calls d s).2.1.r = (runCalls fuel calls e s).2.1.r ∧
    (∀ (r : Reader) (d1 d2 : Decoder), New r = .ok d1 → New r = .ok d2 →
      d1.eraseBookkeeping = d2.eraseBookkeeping) := by
  obtain ⟨h1, h2, h3⟩ := runCalls_blind fuel calls d e s h
  refine ⟨h1, h3, ?_, ?_, ?_, ?_, ?_, ?_⟩
  · have k := congrArg Decoder.a h2
    exact k
  · have k := congrArg Decoder.c h2
    exact k
  · have k := congrArg Decoder.ct h2
    exact k
  · have k := congrArg Decoder.previous h2
    exact k
  · have k := congrArg Decoder.r h2
    exact k
  · intro r d1 d2 k1 k2
    rw [k1] at k2
    injection k2 with k2
    rw [k2]

/-- Witness of C12: `sampleDecoderA` and a copy with other bookkeeping values, on the calls
`DecodeInt`, `DecodeBit` at index 3, `DecodeIAID` with two bits. -/
theorem decode_deterministic_witness :
    (runCalls 15 [Call.int, Call.bit 3, Call.iaid 2] sampleDecoderA (NewStats 16 0)).1 =
      (runCalls 15 [Call.int, Call.bit 3, Call.iaid 2]
        { sampleDecoderA with b := 7, prvCtr := 40 } (NewStats 16 0)).1 ∧
    (runCalls 15 [Call.int, Call.bit 3, Call.iaid 2] sampleDecoderA (NewStats 16 0)).2.2 =
      (runCalls 15 [Call.int, Call.bit 3, Call.iaid 2]
        { sampleDecoderA with b := 7, prvCtr := 40 } (NewStats 16 0)).2.2 ∧
    (runCalls 15 [Call.int, Call.bit 3, Call.iaid 2] sampleDecoderA (NewStats 16 0)).2.1.a =
      (runCalls 15 [Call.int, Call.bit 3, Call.iaid 2]
        { sampleDecoderA with b := 7, prvCtr := 40 } (NewStats 16 0)).2.1.a ∧
    (runCalls 15 [Call.int, Call.bit 3, Call.iaid 2] sampleDecoderA (NewStats 16 0)).2.1.c =
      (runCalls 15 [Call.int, Call.bit 3, Call.iaid 2]
        { sampleDecoderA with b := 7, prvCtr := 40 } (NewStats 16 0)).2.1.c ∧
    (runCalls 15 [Call.int, Call.bit 3, Call.iaid 2] sampleDecoderA (NewStats 16 0)).2.1.ct =
      (runCalls 15 [Call.int, Call.bit 3, Call.iaid 2]
        { sampleDecoderA with b := 7, prvCtr := 40 } (NewStats 16 0)).2.1.ct ∧
    (runCalls 15 [Call.int, Call.bit 3, Call.iaid 2] sampleDecoderA
        (NewStats 16 0)).2.1.previous =
      (runCalls 15 [Call.int, Call.bit 3, Call.iaid 2]
        { sampleDecoderA with b := 7, prvCtr := 40 } (NewStats 16 0)).2.1.previous ∧
    (runCalls 15 [Call.int, Call.bit 3, Call.iaid 2] sampleDecoderA (NewStats 16 0)).2.1.r =
      (runCalls 15 [Call.int, Call.bit 3, Call.iaid 2]
        { sampleDecoderA with b := 7, prvCtr := 40 } (NewStats 16 0)).2.1.r ∧
    (∀ (r : Reader) (d1 d2 : Decoder), New r = .ok d1 → New r = .ok d2 →
      d1.eraseBookkeeping = d2.eraseBookkeeping) :=
  decode_deterministic 15 [Call.int, Call.bit 3, Call.iaid 2] sampleDecoderA
    { sampleDecoderA with b := 7, prvCtr := 40 } (NewStats 16 0) (by decide)

/-! ## The out-of-band sentinel and the values of DecodeInt -/

theorem decodeBits_extends (fuel : Nat) (ctx : List Nat → Int) : ∀ (n : Nat)
    (sofar bits : List Nat) (d d1 : Decoder) (s s1 : DecoderStats),
    decodeBits fuel ctx n sofar d s = (.ok bits, d1, s1) →
    ∃ new, bits = sofar ++ new ∧ new.length = n
  | 0, sofar, bits, d, d1, s, s1, h => by
    simp only [decodeBits] at h
    injection h with h1 h
    injection h1 with h1
    exact ⟨[], by simp [h1], rfl⟩
  | n + 1, sofar, bits, d, d1, s, s1, h => by
    simp only [decodeBits] at h
    generalize d.DecodeBit fuel (s.SetIndex (ctx sofar)) = res at h
    obtain ⟨out, d2, s2⟩ := res
    cases out with
    | error e => simp at h
    | ok bit =>
      obtain ⟨new, h1, h2⟩ := decodeBits_extends fuel ctx n _ bits d2 d1 s2 s1 h
      exact ⟨bit :: new, by simp [h1], by simp [h2]⟩

theorem decodeBits_le (fuel : Nat) (ctx : List Nat → Int) (n m : Nat) (bits bits1 : List Nat)
    (d d1 d2 : Decoder) (s s1 s2 : DecoderStats) (hnm : n ≤ m)
    (h1 : decodeBits fuel ctx n [] d s = (.ok bits, d1, s1))
    (h2 : decodeBits fuel ctx m [] d s = (.ok bits1, d2, s2)) :
    ∃ new, bits1 = bits ++ new ∧ bits.length = n ∧ bits1.length = m := by
  obtain ⟨k, rfl⟩ := Nat.exists_eq_add_of_le hnm
  rw [decodeBits_add fuel ctx n k [] bits d d1 s s1 h1] at h2
  obtain ⟨new, e1, e2⟩ := decodeBits_extends fuel ctx k bits bits1 d1 d2 s1 s2 h2
  obtain ⟨new0, e3, e4⟩ := decodeBits_extends fuel ctx n [] bits d d1 s s1 h1
  refine ⟨new, e1, ?_, ?_⟩
  · rw [e3]
    simpa using e4
  · rw [e1, e3]
    simp [e4, e2]

theorem selectRange_pre (pre : List Nat) (n off : Nat) (h : selectRange pre = some (n, off)) :
    (pre = [0] ∧ n = 2 ∧ off = 0) ∨ (pre = [1, 0] ∧ n = 4 ∧ off = 4) ∨
    (pre = [1, 1, 0] ∧ n = 6 ∧ off = 20) ∨ (pre = [1, 1, 1, 0] ∧ n = 8 ∧ off = 84) ∨
    (pre = [1, 1, 1, 1, 0] ∧ n = 12 ∧ off = 340) ∨
    (pre = [1, 1, 1, 1, 1] ∧ n = 32 ∧ off = 4436) := by
  unfold selectRange at h
  repeat' split at h
  all_goals first
    | (injection h with h; injection h with h1 h2; subst h1 h2; simp_all)
    | simp at h

/-- The selecting bits form a prefix-free code: two decompositions of bit lists, one list
extending the other, are the same decomposition. -/
theorem decomposition_unique (sgn sgn1 : Nat) (pre pre1 vbits vbits1 new : List Nat)
    (n off n1 off1 : Nat)
    (h : sgn1 :: (pre1 ++ vbits1) = sgn :: (pre ++ vbits) ++ new)
    (hs : selectRange pre = some (n, off)) (hs1 : selectRange pre1 = some (n1, off1))
    (hl : vbits.length = n) (hl1 : vbits1.length = n1) :
    sgn1 = sgn ∧ pre1 = pre ∧ vbits1 = vbits ∧ n1 = n ∧ off1 = off := by
  have hlen := congrArg List.length h
  simp only [List.length_cons, List.length_append] at hlen
  rcases selectRange_pre pre n off hs with
    ⟨rfl, rfl, rfl⟩ | ⟨rfl, rfl, rfl⟩ | ⟨rfl, rfl, rfl⟩ | ⟨rfl, rfl, rfl⟩ | ⟨rfl, rfl, rfl⟩ |
    ⟨rfl, rfl, rfl⟩ <;>
  rcases selectRange_pre pre1 n1 off1 hs1 with
    ⟨rfl, rfl, rfl⟩ | ⟨rfl, rfl, rfl⟩ | ⟨rfl, rfl, rfl⟩ | ⟨rfl, rfl, rfl⟩ | ⟨rfl, rfl, rfl⟩ |
    ⟨rfl, rfl, rfl⟩ <;>
  simp only [List.cons_append, List.nil_append, List.cons.injEq, List.length_cons,
    List.length_nil] at h hlen <;>
  first
    | omega
    | (obtain ⟨h0, h⟩ := h
       have hnew : new = [] := List.length_eq_zero.mp (by omega)
       subst hnew
       simp only [List.append_nil] at h
       simp_all)

/-- The decomposition of the bits of a successful `DecodeInt` is the only one, and the result
is given by it. -/
theorem DecodeInt_result (fuel : Nat) (d d1 : Decoder) (stats : Option DecoderStats)
    (s1 : DecoderStats) (r : Int) (sgn : Nat) (pre vbits : List Nat) (n off : Nat)
    (hb : (statsOrNew stats).mpsBits) (h : d.DecodeInt fuel stats = (.ok r, d1, s1))
    (hrun : (decodeBits fuel (fun l => (intContext l : Int)) (1 + pre.length + n) [] d
      (statsOrNew stats)).1 = .ok (sgn :: (pre ++ vbits)))
    (hsel : selectRange pre = some (n, off)) (hlen : vbits.length = n) :
    sgn ≤ 1 ∧ bitsMSB vbits + off < 2 ^ 32 + 4436 ∧
    r = (if sgn = 0 then ((bitsMSB vbits + off : Nat) : Int)
         else if 0 < bitsMSB vbits + off then -((bitsMSB vbits + off : Nat) : Int)
         else MaxInt64) := by
  obtain ⟨sgn0, pre0, vbits0, n0, off0, hsel0, hl0, t, hr⟩ :=
    DecodeInt_run fuel d d1 stats s1 r hb h
  have hrun0 := intRun_toDecodeBits fuel d d1 (statsOrNew stats) s1 _ t
  generalize hres : decodeBits fuel (fun l => (intContext l : Int)) (1 + pre.length + n) [] d
      (statsOrNew stats) = res at hrun
  obtain ⟨o, d2, s2⟩ := res
  simp only at hrun
  subst hrun
  have huniq : sgn = sgn0 ∧ pre = pre0 ∧ vbits = vbits0 ∧ n = n0 ∧ off = off0 := by
    rcases Nat.le_total (sgn0 :: (pre0 ++ vbits0)).length (1 + pre.length + n) with hle | hle
    · obtain ⟨new, e1, _, _⟩ := decodeBits_le fuel _ _ _ _ _ d _ _ _ _ _ hle hrun0 hres
      exact decomposition_unique sgn0 sgn pre0 pre vbits0 vbits new n0 off0 n off e1 hsel0 hsel
        hl0 hlen
    · obtain ⟨new, e1, _, _⟩ := decodeBits_le fuel _ _ _ _ _ d _ _ _ _ _ hle hres hrun0
      obtain ⟨a1, a2, a3, a4, a5⟩ := decomposition_unique sgn sgn0 pre pre0 vbits vbits0 new
        n off n0 off0 e1 hsel hsel0 hlen hl0
      exact ⟨a1.symm, a2.symm, a3.symm, a4.symm, a5.symm⟩
  obtain ⟨rfl, rfl, rfl, rfl, rfl⟩ := huniq
  have hsgn : sgn ≤ 1 := t.2.2.1 sgn (by simp)
  have hvb : ∀ b ∈ vbits, b ≤ 1 := fun b hb => t.2.2.1 b (by simp [hb])
  have hv := bitsMSB_lt vbits hvb
  rw [hlen] at hv
  refine ⟨hsgn, ?_, hr⟩
  rcases selectRange_pre pre n off hsel with
    ⟨_, rfl, rfl⟩ | ⟨_, rfl, rfl⟩ | ⟨_, rfl, rfl⟩ | ⟨_, rfl, rfl⟩ | ⟨_, rfl, rfl⟩ |
    ⟨_, rfl, rfl⟩ <;>
  norm_num at hv ⊢ <;> omega

/-- C13, as stated, fails: no successful `DecodeInt` (on a table whose MPS entries are bits)
whose decoded bits have sign bit 0 or a non-zero magnitude returns `math.MaxInt64`. -/
theorem sentinel_collision_counterexample :
    ¬ ∃ (fuel : Nat) (d d1 : Decoder) (stats : Option DecoderStats) (s1 : DecoderStats)
        (sgn : Nat) (pre vbits : List Nat) (n off : Nat),
      (statsOrNew stats).mpsBits ∧ d.DecodeInt fuel stats = (.ok MaxInt64, d1, s1) ∧
      (decodeBits fuel (fun l => (intContext l : Int)) (1 + pre.length + n) [] d
        (statsOrNew stats)).1 = .ok (sgn :: (pre ++ vbits)) ∧
      selectRange pre = some (n, off) ∧ vbits.length = n ∧
      (sgn = 0 ∨ bitsMSB vbits + off ≠ 0) := by
  rintro ⟨fuel, d, d1, stats, s1, sgn, pre, vbits, n, off, hb, h, hrun, hsel, hlen, hleg⟩
  obtain ⟨hsgn, hmag, hr⟩ :=
    DecodeInt_result fuel d d1 stats s1 MaxInt64 sgn pre vbits n off hb h hrun hsel hlen
  have hM : MaxInt64 = 2 ^ 63 - 1 := rfl
  rw [hM] at hr
  split at hr
  · omega
  · split at hr
    · omega
    · omega

/-- C13, amended. The sentinel does not collide with a value that `DecodeInt` can return
for an integer: when the decoded bits have sign bit 0 or a non-zero magnitude, the result
is not `math.MaxInt64`; it is `value + offset` or its negation, of absolute value below
`2^32 + 4436`. `math.MaxInt64` is returned only for sign bit 1 with magnitude 0. -/
theorem sentinel_no_collision (fuel : Nat) (d d1 : Decoder) (stats : Option DecoderStats)
    (s1 : DecoderStats) (r : Int) (sgn : Nat) (pre vbits : List Nat) (n off : Nat)
    (hb : (statsOrNew stats).mpsBits) (h : d.DecodeInt fuel stats = (.ok r, d1, s1))
    (hrun : (decodeBits fuel (fun l => (intContext l : Int)) (1 + pre.length + n) [] d
      (statsOrNew stats)).1 = .ok (sgn :: (pre ++ vbits)))
    (hsel : selectRange pre = some (n, off)) (hlen : vbits.length = n)
    (hleg : sgn = 0 ∨ bitsMSB vbits + off ≠ 0) :
    r ≠ MaxInt64 ∧ -(2 ^ 32 + 4436) < r ∧ r < 2 ^ 32 + 4436 ∧
    (r = ((bitsMSB vbits + off : Nat) : Int) ∨ r = -((bitsMSB vbits + off : Nat) : Int)) := by
  obtain ⟨hsgn, hmag, hr⟩ :=
    DecodeInt_result fuel d d1 stats s1 r sgn pre vbits n off hb h hrun hsel hlen
  have hM : MaxInt64 = 2 ^ 63 - 1 := rfl
  rw [hM]
  rw [hr]
  split
  · exact ⟨by omega, by omega, by omega, Or.inl rfl⟩
  · split
    · exact ⟨by omega, by omega, by omega, Or.inr rfl⟩
    · omega

/-- Witness of the amended C13: `DecodeInt` on `sampleDecoderA` decodes sign 0, the selecting
bit 0 and the value bits 0, 0, and returns 0. -/
theorem sentinel_no_collision_witness :
    (0 : Int) ≠ MaxInt64 ∧ -(2 ^ 32 + 4436) < (0 : Int) ∧ (0 : Int) < 2 ^ 32 + 4436 ∧
    ((0 : Int) = ((bitsMSB [0, 0] + 0 : Nat) : Int) ∨
      (0 : Int) = -((bitsMSB [0, 0] + 0 : Nat) : Int)) :=
  sentinel_no_collision 2 sampleDecoderA
    (sampleDecoderA.DecodeInt 2 (some (NewStats 16 0))).2.1 (some (NewStats 16 0))
    (sampleDecoderA.DecodeInt 2 (some (NewStats 16 0))).2.2 0 0 [0] [0, 0] 2 0
    (by decide) rfl rfl (by decide) rfl (Or.inl rfl)

/-! ## The exchange procedures -/

theorem setEntry_spec (stats : DecoderStats) (k v : Nat) (hcx : stats.cx = some k) :
    ∃ s1, stats.setEntry v = some s1 ∧ s1.cx = some v ∧ s1.getMps = stats.getMps ∧
      s1.mps = stats.mps ∧ s1.index = stats.index ∧
      s1.codingContextTable = stats.codingContextTable.set stats.index.toNat v := by
  have hidx : ¬ stats.index < 0 := by
    intro h
    simp [DecoderStats.cx, h] at hcx
  have hlen : stats.index.toNat < stats.codingContextTable.length := by
    by_contra hc
    simp only [DecoderStats.cx, hidx, if_false] at hcx
    rw [List.getElem?_eq_none (by omega)] at hcx
    exact absurd hcx (by simp)
  refine ⟨{ stats with codingContextTable :=
              stats.codingContextTable.set stats.index.toNat v }, ?_, ?_, rfl, rfl, rfl, rfl⟩
  · simp [DecoderStats.setEntry, hidx, hlen]
  · simp [DecoderStats.cx, hidx, List.getElem?_set_self hlen]

theorem toggleMps_spec (stats : DecoderStats) (m : Nat) (hm : stats.getMps = some m) :
    ∃ s1, stats.toggleMps = some s1 ∧ s1.getMps = some (m ^^^ 1) ∧ s1.cx = stats.cx ∧
      s1.codingContextTable = stats.codingContextTable ∧ s1.index = stats.index := by
  have hidx : ¬ stats.index < 0 := by
    intro h
    simp [DecoderStats.getMps, h] at hm
  have hm2 : stats.mps[stats.index.toNat]? = some m := by
    simpa [DecoderStats.getMps, hidx] using hm
  have hlen : stats.index.toNat < stats.mps.length := by
    by_contra hc
    rw [List.getElem?_eq_none (by omega)] at hm2
    exact absurd hm2 (by simp)
  refine ⟨{ stats with mps := stats.mps.set stats.index.toNat (m ^^^ 1) }, ?_, ?_, rfl, rfl, rfl⟩
  · simp [DecoderStats.toggleMps, hidx, hm2]
  · simp [DecoderStats.getMps, hidx, List.getElem?_set_self hlen]

/-- The table after the exchange that takes the LPS sense: state `nextIndexIfLPS`, and the
MPS bit flipped when the row has the switch flag. -/
theorem switch_spec (stats : DecoderStats) (k m : Nat) (row : Nat × Nat × Nat × Nat)
    (hcx : stats.cx = some k) (hm : stats.getMps = some m) :
    ∃ s1 s2, (if row.2.2.2 = 1 then stats.toggleMps else some stats) = some s1 ∧
      s1.setEntry row.2.2.1 = some s2 ∧ s2.cx = some row.2.2.1 ∧
      s2.getMps = some (if row.2.2.2 = 1 then m ^^^ 1 else m) ∧
      s2.codingContextTable = stats.codingContextTable.set stats.index.toNat row.2.2.1 := by
  by_cases hsw : row.2.2.2 = 1
  · obtain ⟨s1, h1, h2, h3, h4, h5⟩ := toggleMps_spec stats m hm
    obtain ⟨s2, k1, k2, k3, _, _, k6⟩ := setEntry_spec s1 k row.2.2.1 (by rw [h3]; exact hcx)
    refine ⟨s1, s2, by simp [hsw, h1], k1, k2, ?_, ?_⟩
    · rw [k3, h2, if_pos hsw]
    · rw [k6, h4, h5]
  · obtain ⟨s2, k1, k2, k3, _, _, k6⟩ := setEntry_spec stats k row.2.2.1 hcx
    refine ⟨stats, s2, by simp [hsw], k1, k2, ?_, k6⟩
    rw [k3, hm, if_neg hsw]

theorem lpsExchange_spec (d : Decoder) (stats : DecoderStats) (k m : Nat)
    (row : Nat × Nat × Nat × Nat)
    (hcx : stats.cx = some k) (hrow : qe[k]? = some row) (hm : stats.getMps = some m) :
    ∃ s1, d.lpsExchange stats k row.1 =
        some (if d.a < row.1 then m else (1 + 256 - m) % 256, { d with a := row.1 }, s1) ∧
      s1.cx = some (if d.a < row.1 then row.2.1 else row.2.2.1) ∧
      s1.getMps = some (if d.a < row.1 then m else if row.2.2.2 = 1 then m ^^^ 1 else m) ∧
      s1.codingContextTable = stats.codingContextTable.set stats.index.toNat
        (if d.a < row.1 then row.2.1 else row.2.2.1) := by
  by_cases ha : d.a < row.1
  · obtain ⟨s1, k1, k2, k3, _, _, k6⟩ := setEntry_spec stats k row.2.1 hcx
    refine ⟨s1, ?_, by simp [ha, k2], by simp [ha, k3, hm], by simp [ha, k6]⟩
    simp [Decoder.lpsExchange, hm, hrow, ha, k1]
  · obtain ⟨s1, s2, h1, h2, h3, h4, h5⟩ := switch_spec stats k m row hcx hm
    refine ⟨s2, ?_, by simp [ha, h3], by simp [ha, h4], by simp [ha, h5]⟩
    simp only [Decoder.lpsExchange, hm, hrow, ha, if_false, h1, h2]

theorem mpsExchange_spec (d : Decoder) (stats : DecoderStats) (k m : Nat)
    (row : Nat × Nat × Nat × Nat)
    (hcx : stats.cx = some k) (hrow : qe[k]? = some row) (hm : stats.getMps = some m) :
    ∃ s1, d.mpsExchange stats k =
        some (if d.a < row.1 then (1 + 256 - m) % 256 else m, s1) ∧
      s1.cx = some (if d.a < row.1 then row.2.2.1 else row.2.1) ∧
      s1.getMps = some (if d.a < row.1 then (if row.2.2.2 = 1 then m ^^^ 1 else m) else m) ∧
      s1.codingContextTable = stats.codingContextTable.set stats.index.toNat
        (if d.a < row.1 then row.2.2.1 else row.2.1) := by
  by_cases ha : d.a < row.1
  · obtain ⟨s1, s2, h1, h2, h3, h4, h5⟩ := switch_spec stats k m row hcx hm
    refine ⟨s2, ?_, by simp [ha, h3], by simp [ha, h4], by simp [ha, h5]⟩
    simp only [Decoder.mpsExchange, hm, hrow, ha, if_true, h1, h2]
  · obtain ⟨s1, k1, k2, k3, _, _, k6⟩ := setEntry_spec stats k row.2.1 hcx
    refine ⟨s1, ?_, by simp [ha, k2], by simp [ha, k3, hm], by simp [ha, k6]⟩
    simp [Decoder.mpsExchange, hm, hrow, ha, k1]

/-- `DecodeBit` on the LPS path: the LPS exchange, then `renormalize` entered with `a` equal
to the estimate of the row. -/
theorem DecodeBit_lps_eq (fuel : Nat) (d : Decoder) (stats : DecoderStats) (k m : Nat)
    (row : Nat × Nat × Nat × Nat)
    (hcx : stats.cx = some k) (hrow : qe[k]? = some row) (hm : stats.getMps = some m)
    (hc : d.c >>> 16 < row.1) :
    ∃ s1,
      s1.cx = some (if (d.a + 2 ^ 32 - row.1) % 2 ^ 32 < row.1 then row.2.1 else row.2.2.1) ∧
      s1.getMps = some (if (d.a + 2 ^ 32 - row.1) % 2 ^ 32 < row.1 then m
        else if row.2.2.2 = 1 then m ^^^ 1 else m) ∧
      s1.codingContextTable = stats.codingContextTable.set stats.index.toNat
        (if (d.a + 2 ^ 32 - row.1) % 2 ^ 32 < row.1 then row.2.1 else row.2.2.1) ∧
      d.DecodeBit fuel stats =
        ((({ d with a := row.1 } : Decoder).renormalize fuel).1.map
            (fun _ => if (d.a + 2 ^ 32 - row.1) % 2 ^ 32 < row.1 then m
              else (1 + 256 - m) % 256),
          { (({ d with a := row.1 } : Decoder).renormalize fuel).2 with
            prvCtr := (({ d with a := row.1 } : Decoder).renormalize fuel).2.prvCtr + 1 },
          s1) := by
  obtain ⟨s1, h1, h2, h3, h4⟩ := lpsExchange_spec
    { d with a := (d.a + 2 ^ 32 - row.1) % 2 ^ 32 } stats k m row hcx hrow hm
  refine ⟨s1, h2, h3, h4, ?_⟩
  simp only [Decoder.DecodeBit, hcx, hrow, hc, if_true]
  simp only at h1
  rw [h1]
  simp only
  generalize Decoder.renormalize fuel _ = rr
  obtain ⟨res, d3⟩ := rr
  cases res <;> rfl

/-- `DecodeBit` on the MPS path with bit 15 of the reduced `a` clear: the MPS exchange, then
`renormalize` entered with the reduced `a` and `c`. -/
theorem DecodeBit_mps_eq (fuel : Nat) (d : Decoder) (stats : DecoderStats) (k m : Nat)
    (row : Nat × Nat × Nat × Nat)
    (hcx : stats.cx = some k) (hrow : qe[k]? = some row) (hm : stats.getMps = some m)
    (hc : ¬ d.c >>> 16 < row.1) (ha : ((d.a + 2 ^ 32 - row.1) % 2 ^ 32) &&& 0x8000 = 0) :
    ∃ s1,
      s1.cx = some (if (d.a + 2 ^ 32 - row.1) % 2 ^ 32 < row.1 then row.2.2.1 else row.2.1) ∧
      s1.getMps = some (if (d.a + 2 ^ 32 - row.1) % 2 ^ 32 < row.1
        then (if row.2.2.2 = 1 then m ^^^ 1 else m) else m) ∧
      s1.codingContextTable = stats.codingContextTable.set stats.index.toNat
        (if (d.a + 2 ^ 32 - row.1) % 2 ^ 32 < row.1 then row.2.2.1 else row.2.1) ∧
      d.DecodeBit fuel stats =
        ((({ d with a := (d.a + 2 ^ 32 - row.1) % 2 ^ 32,
                    c := d.c - (row.1 <<< 16) } : Decoder).renormalize fuel).1.map
            (fun _ => if (d.a + 2 ^ 32 - row.1) % 2 ^ 32 < row.1 then (1 + 256 - m) % 256
              else m),
          { (({ d with a := (d.a + 2 ^ 32 - row.1) % 2 ^ 32,
                       c := d.c - (row.1 <<< 16) } : Decoder).renormalize fuel).2 with
            prvCtr := (({ d with a := (d.a + 2 ^ 32 - row.1) % 2 ^ 32,
                                 c := d.c - (row.1 <<< 16) } : Decoder).renormalize fuel).2.prvCtr
              + 1 },
          s1) := by
  obtain ⟨s1, h1, h2, h3, h4⟩ := mpsExchange_spec
    { d with a := (d.a + 2 ^ 32 - row.1) % 2 ^ 32, c := d.c - (row.1 <<< 16) } stats k m row
    hcx hrow hm
  refine ⟨s1, h2, h3, h4, ?_⟩
  simp only [Decoder.DecodeBit, hcx, hrow, hc, if_false, ha, if_true]
  simp only at h1
  rw [h1]
  simp only
  generalize Decoder.renormalize fuel _ = rr
  obtain ⟨res, d3⟩ := rr
  cases res <;> rfl

theorem xor_one_bit (m : Nat) (h : m ≤ 1) : m ^^^ 1 = 1 - m := by
  interval_cases m <;> rfl

theorem byte_one_sub (m : Nat) (h : m ≤ 1) : (1 + 256 - m) % 256 = 1 - m := by
  omega

/-- C16. A `DecodeBit` call that runs an exchange procedure (LPS path, or MPS path with bit 15
of `a' = a - qe[k][0]` clear) on a context with state index `k` and MPS bit `m` has exactly
one of two outcomes. It takes the MPS sense when it is on the LPS path with `a' < qe[k][0]`
or on the MPS-exchange path with `a' >= qe[k][0]`: then the state index becomes `qe[k][1]`,
the MPS bit is unchanged and a returned bit is `m`. Otherwise the state index becomes
`qe[k][2]`, the MPS bit is flipped exactly when `qe[k][3] = 1`, and a returned bit is
`1 - m`. The table is updated in this way also when `renormalize` then fails. -/
theorem DecodeBit_exchange (fuel : Nat) (d : Decoder) (stats : DecoderStats) (k m : Nat)
    (row : Nat × Nat × Nat × Nat)
    (hcx : stats.cx = some k) (hrow : qe[k]? = some row) (hm : stats.getMps = some m)
    (hm1 : m ≤ 1)
    (hex : d.c >>> 16 < row.1 ∨ ((d.a + 2 ^ 32 - row.1) % 2 ^ 32) &&& 0x8000 = 0) :
    (((d.c >>> 16 < row.1 ∧ (d.a + 2 ^ 32 - row.1) % 2 ^ 32 < row.1) ∨
        (¬ d.c >>> 16 < row.1 ∧ row.1 ≤ (d.a + 2 ^ 32 - row.1) % 2 ^ 32)) →
      (d.DecodeBit fuel stats).2.2.cx = some row.2.1 ∧
      (d.DecodeBit fuel stats).2.2.getMps = some m ∧
      ∀ bit, (d.DecodeBit fuel stats).1 = .ok bit → bit = m) ∧
    (¬ ((d.c >>> 16 < row.1 ∧ (d.a + 2 ^ 32 - row.1) % 2 ^ 32 < row.1) ∨
        (¬ d.c >>> 16 < row.1 ∧ row.1 ≤ (d.a + 2 ^ 32 - row.1) % 2 ^ 32)) →
      (d.DecodeBit fuel stats).2.2.cx = some row.2.2.1 ∧
      (d.DecodeBit fuel stats).2.2.getMps = some (if row.2.2.2 = 1 then 1 - m else m) ∧
      ∀ bit, (d.DecodeBit fuel stats).1 = .ok bit → bit = 1 - m) := by
  have hx := xor_one_bit m hm1
  have hy := byte_one_sub m hm1
  have hbit : ∀ (out : Except Err Unit) (v bit : Nat),
      out.map (fun _ => v) = .ok bit → bit = v := by
    intro out v bit h
    cases out with
    | error e => simp [Except.map] at h
    | ok u =>
      simp only [Except.map, Except.ok.injEq] at h
      exact h.symm
  by_cases hc : d.c >>> 16 < row.1
  · obtain ⟨s1, h1, h2, h3, h4⟩ := DecodeBit_lps_eq fuel d stats k m row hcx hrow hm hc
    rw [h4]
    by_cases ha : (d.a + 2 ^ 32 - row.1) % 2 ^ 32 < row.1
    · simp only [ha, if_true] at h1 h2
      refine ⟨fun _ => ⟨h1, h2, fun bit hb => ?_⟩, fun hn => absurd (Or.inl ⟨hc, ha⟩) hn⟩
      have := hbit _ _ _ hb
      rw [if_pos ha] at this
      exact this
    · simp only [ha, if_false, hx] at h1 h2
      refine ⟨fun hp => ?_, fun _ => ⟨h1, h2, fun bit hb => ?_⟩⟩
      · rcases hp with ⟨_, h⟩ | ⟨h, _⟩
        · exact absurd h ha
        · exact absurd hc h
      · have := hbit _ _ _ hb
        rw [if_neg ha, hy] at this
        exact this
  · have hbit15 : ((d.a + 2 ^ 32 - row.1) % 2 ^ 32) &&& 0x8000 = 0 := by
      rcases hex with h | h
      · exact absurd h hc
      · exact h
    obtain ⟨s1, h1, h2, h3, h4⟩ :=
      DecodeBit_mps_eq fuel d stats k m row hcx hrow hm hc hbit15
    rw [h4]
    by_cases ha : (d.a + 2 ^ 32 - row.1) % 2 ^ 32 < row.1
    · simp only [ha, if_true, hx] at h1 h2
      refine ⟨fun hp => ?_, fun _ => ⟨h1, h2, fun bit hb => ?_⟩⟩
      · rcases hp with ⟨h, _⟩ | ⟨_, h⟩
        · exact absurd h hc
        · omega
      · have := hbit _ _ _ hb
        rw [if_pos ha, hy] at this
        exact this
    · simp only [ha, if_false] at h1 h2
      refine ⟨fun _ => ⟨h1, h2, fun bit hb => ?_⟩,
        fun hn => absurd (Or.inr ⟨hc, by omega⟩) hn⟩
      have := hbit _ _ _ hb
      rw [if_neg ha] at this
      exact this

/-- Witness of C16: state 0 with `a = 0x8000`, `c = 0`, the LPS path with `a' < qe[0][0]`. -/
theorem DecodeBit_exchange_witness :
    ((((mkDecoder [] 0 0x8000 0 3).c >>> 16 < 0x5601 ∧
          ((mkDecoder [] 0 0x8000 0 3).a + 2 ^ 32 - 0x5601) % 2 ^ 32 < 0x5601) ∨
        (¬ (mkDecoder [] 0 0x8000 0 3).c >>> 16 < 0x5601 ∧
          0x5601 ≤ ((mkDecoder [] 0 0x8000 0 3).a + 2 ^ 32 - 0x5601) % 2 ^ 32)) →
      ((mkDecoder [] 0 0x8000 0 3).DecodeBit 2 (NewStats 1 0)).2.2.cx = some 1 ∧
      ((mkDecoder [] 0 0x8000 0 3).DecodeBit 2 (NewStats 1 0)).2.2.getMps = some 0 ∧
      ∀ bit, ((mkDecoder [] 0 0x8000 0 3).DecodeBit 2 (NewStats 1 0)).1 = .ok bit → bit = 0) ∧
    (¬ (((mkDecoder [] 0 0x8000 0 3).c >>> 16 < 0x5601 ∧
          ((mkDecoder [] 0 0x8000 0 3).a + 2 ^ 32 - 0x5601) % 2 ^ 32 < 0x5601) ∨
        (¬ (mkDecoder [] 0 0x8000 0 3).c >>> 16 < 0x5601 ∧
          0x5601 ≤ ((mkDecoder [] 0 0x8000 0 3).a + 2 ^ 32 - 0x5601) % 2 ^ 32)) →
      ((mkDecoder [] 0 0x8000 0 3).DecodeBit 2 (NewStats 1 0)).2.2.cx = some 1 ∧
      ((mkDecoder [] 0 0x8000 0 3).DecodeBit 2 (NewStats 1 0)).2.2.getMps =
        some (if (1 : Nat) = 1 then 1 - 0 else 0) ∧
      ∀ bit, ((mkDecoder [] 0 0x8000 0 3).DecodeBit 2 (NewStats 1 0)).1 = .ok bit →
        bit = 1 - 0) :=
  DecodeBit_exchange 2 (mkDecoder [] 0 0x8000 0 3) (NewStats 1 0) 0 0 (0x5601, 1, 1, 1)
    (by decide) (by decide) (by decide) (by decide) (Or.inl (by decide))

/-! ## The state index stays in 0..46 -/

theorem set_le46 (l : List Nat) (i v : Nat) (h : ∀ k ∈ l, k ≤ 46) (hv : v ≤ 46) :
    ∀ k ∈ l.set i v, k ≤ 46 := by
  intro k hk
  rcases List.mem_or_eq_of_mem_set hk with hk | hk
  · exact h k hk
  · omega

theorem renormalizeLoop_error : ∀ (fuel : Nat) (d d1 : Decoder) (e : Err),
    renormalizeLoop fuel d = (.error e, d1) → e = .eof ∨ e = .negativeSeek ∨ e = .outOfFuel
  | 0, d, d1, e, h => by
    simp only [renormalizeLoop] at h
    injection h with h _
    injection h with h
    exact Or.inr (Or.inr h.symm)
  | fuel + 1, d, d1, e, h => by
    simp only [renormalizeLoop] at h
    have hE : ∀ (x : Err) (d2 : Decoder),
        (if d.ct = 0 then d.readByte else (Except.ok (), d)) = (.error x, d2) →
        x = .eof ∨ x = .negativeSeek := by
      intro x d2 hx
      split at hx
      · exact readByte_error d d2 x hx
      · simp at hx
    generalize (if d.ct = 0 then d.readByte else (Except.ok (), d)) = rb at h hE
    obtain ⟨res, d2⟩ := rb
    cases res with
    | error x =>
      simp only at h
      injection h with h _
      injection h with h
      subst h
      rcases hE x d2 rfl with h | h
      · exact Or.inl h
      · exact Or.inr (Or.inl h)
    | ok u =>
      simp only at h
      split at h
      · simp at h
      · exact renormalizeLoop_error fuel _ d1 e h

/-- The loop `renormalize` has no slice lookup: it never ends in an index panic. -/
theorem renormalize_no_panic (fuel : Nat) (d : Decoder) :
    (d.renormalize fuel).1 ≠ .error .indexOutOfRange := by
  unfold Decoder.renormalize
  intro hc
  split at hc
  · rename_i e d1 heq
    simp only at hc
    injection hc with hc
    subst hc
    rcases renormalizeLoop_error fuel d d1 _ heq with h | h | h <;> cases h
  · simp at hc

/-- C18. The table `qe` has 47 rows and both successor columns stay within `0..46`; hence a
table whose slots all hold a state index of at most 46 is again such a table after a
`DecodeBit` call, whatever its outcome. The lookup `qe[stats.cx()]` is then in range
whenever the index addresses a slot, and with the slot present in both columns `DecodeBit`
(with `lpsExchange` and `mpsExchange`) hits no index panic. -/
theorem state_index_bound (fuel : Nat) (d : Decoder) (stats : DecoderStats)
    (h46 : ∀ k ∈ stats.codingContextTable, k ≤ 46) :
    qe.length = 47 ∧ (∀ row ∈ qe, row.2.1 ≤ 46 ∧ row.2.2.1 ≤ 46) ∧
    (∀ k ∈ (d.DecodeBit fuel stats).2.2.codingContextTable, k ≤ 46) ∧
    (∀ k, stats.cx = some k → k ≤ 46 ∧ ∃ row, qe[k]? = some row) ∧
    (stats.cx ≠ none → stats.getMps ≠ none →
      (d.DecodeBit fuel stats).1 ≠ .error .indexOutOfRange) := by
  have hlook : ∀ k, stats.cx = some k → k ≤ 46 ∧ ∃ row, qe[k]? = some row := by
    intro k hk
    have hk46 : k ≤ 46 := by
      unfold DecoderStats.cx at hk
      split at hk
      · simp at hk
      · exact h46 k (List.getElem?_mem hk)
    have hlt : k < qe.length := by
      have : qe.length = 47 := rfl
      omega
    exact ⟨hk46, qe[k], List.getElem?_eq_getElem hlt⟩
  have hmap : ∀ (e : Decoder) (v : Nat),
      (e.renormalize fuel).1.map (fun _ => v) ≠ .error .indexOutOfRange := by
    intro e v hc
    have := renormalize_no_panic fuel e
    generalize (e.renormalize fuel).1 = out at hc this
    cases out with
    | error x =>
      simp only [Except.map] at hc
      injection hc with hc
      subst hc
      exact this rfl
    | ok u => simp [Except.map] at hc
  refine ⟨rfl, fun row hr => ⟨(qe_rows row hr).2.2.1, (qe_rows row hr).2.2.2.1⟩, ?_, hlook, ?_⟩
  · cases hcx : stats.cx with
    | none => simpa [Decoder.DecodeBit, hcx] using h46
    | some k =>
      obtain ⟨_, row, hrow⟩ := hlook k hcx
      obtain ⟨_, _, hn1, hn2, _⟩ := qe_row_bounds hrow
      cases hm : stats.getMps with
      | none =>
        simp only [Decoder.DecodeBit, hcx, hrow, Decoder.lpsExchange, Decoder.mpsExchange, hm]
        split <;> try split
        all_goals exact h46
      | some m =>
        by_cases hc : d.c >>> 16 < row.1
        · obtain ⟨s1, _, _, h3, h4⟩ := DecodeBit_lps_eq fuel d stats k m row hcx hrow hm hc
          rw [h4]
          simp only [h3]
          exact set_le46 _ _ _ h46 (by split <;> assumption)
        · by_cases ha : ((d.a + 2 ^ 32 - row.1) % 2 ^ 32) &&& 0x8000 = 0
          · obtain ⟨s1, _, _, h3, h4⟩ :=
              DecodeBit_mps_eq fuel d stats k m row hcx hrow hm hc ha
            rw [h4]
            simp only [h3]
            exact set_le46 _ _ _ h46 (by split <;> assumption)
          · simp only [Decoder.DecodeBit, hcx, hrow, hc, if_false, ha, hm]
            exact h46
  · intro hcx hm
    obtain ⟨k, hcx⟩ := Option.ne_none_iff_exists'.mp hcx
    obtain ⟨m, hm⟩ := Option.ne_none_iff_exists'.mp hm
    obtain ⟨_, row, hrow⟩ := hlook k hcx
    by_cases hc : d.c >>> 16 < row.1
    · obtain ⟨s1, _, _, _, h4⟩ := DecodeBit_lps_eq fuel d stats k m row hcx hrow hm hc
      rw [h4]
      exact hmap _ _
    · by_cases ha : ((d.a + 2 ^ 32 - row.1) % 2 ^ 32) &&& 0x8000 = 0
      · obtain ⟨s1, _, _, _, h4⟩ := DecodeBit_mps_eq fuel d stats k m row hcx hrow hm hc ha
        rw [h4]
        exact hmap _ _
      · simp only [Decoder.DecodeBit, hcx, hrow, hc, if_false, ha, hm]
        simp

/-- Witness of C18: a fresh three-slot table and a decoder with `a = 0x8000`. -/
theorem state_index_bound_witness :
    qe.length = 47 ∧ (∀ row ∈ qe, row.2.1 ≤ 46 ∧ row.2.2.1 ≤ 46) ∧
    (∀ k ∈ ((mkDecoder [] 0 0x8000 0 3).DecodeBit 2 (NewStats 3 1)).2.2.codingContextTable,
      k ≤ 46) ∧
    (∀ k, (NewStats 3 1).cx = some k → k ≤ 46 ∧ ∃ row, qe[k]? = some row) ∧
    ((NewStats 3 1).cx ≠ none → (NewStats 3 1).getMps ≠ none →
      ((mkDecoder [] 0 0x8000 0 3).DecodeBit 2 (NewStats 3 1)).1 ≠ .error .indexOutOfRange) :=
  state_index_bound 2 (mkDecoder [] 0 0x8000 0 3) (NewStats 3 1) (by decide)

/-! ## Renormalize against the loop of the specification -/

theorem renormalizeSpecLoop_done (fuel : Nat) (d : Decoder) (h : d.a &&& 0x8000 ≠ 0) :
    renormalizeSpecLoop fuel d = (.ok (), d) := by
  cases fuel <;> simp [renormalizeSpecLoop, h]

theorem renormalizeLoop_eq_spec : ∀ (fuel : Nat) (d : Decoder), d.a &&& 0x8000 = 0 →
    renormalizeLoop fuel d = renormalizeSpecLoop fuel d
  | 0, d, h => by simp [renormalizeLoop, renormalizeSpecLoop, h]
  | fuel + 1, d, h => by
    simp only [renormalizeLoop, renormalizeSpecLoop, h, ne_eq, not_true_eq_false, if_false]
    generalize (if d.ct = 0 then d.readByte else (Except.ok (), d)) = rb
    obtain ⟨res, d2⟩ := rb
    cases res with
    | error e => rfl
    | ok u =>
      simp only
      split
      · rename_i hne
        exact (renormalizeSpecLoop_done fuel _ hne).symm
      · rename_i hz
        exact renormalizeLoop_eq_spec fuel _ (by simpa using hz)

theorem renormalize_eq_spec (fuel : Nat) (d : Decoder) (h : d.a &&& 0x8000 = 0) :
    d.renormalize fuel = renormalizeSpec fuel d := by
  unfold Decoder.renormalize renormalizeSpec
  rw [renormalizeLoop_eq_spec fuel d h]
  generalize renormalizeSpecLoop fuel d = rb
  obtain ⟨res, d2⟩ := rb
  cases res with
  | error e => rfl
  | ok u => simp only [and_mask32]

theorem renormalizeLoop_iters : ∀ (fuel : Nat) (d d1 : Decoder), 0 < d.a → d.a < 0x8000 →
    renormalizeLoop fuel d = (.ok (), d1) →
    ∃ k, 1 ≤ k ∧ k ≤ fuel ∧ d1.a = d.a * 2 ^ k
  | 0, d, d1, _, _, h => by simp [renormalizeLoop] at h
  | fuel + 1, d, d1, h0, h1, h => by
    simp only [renormalizeLoop] at h
    have hA : (if d.ct = 0 then d.readByte else (Except.ok (), d)).2.a = d.a := by
      split
      · exact readByte_a d
      · rfl
    generalize (if d.ct = 0 then d.readByte else (Except.ok (), d)) = rb at h hA
    obtain ⟨res, d2⟩ := rb
    simp only at hA
    cases res with
    | error e => simp at h
    | ok u =>
      simp only [Nat.shiftLeft_eq, pow_one] at h
      have hbit := and_0x8000 (d2.a * 2 % 2 ^ 32)
      split at h
      · injection h with _ h
        subst h
        refine ⟨1, le_refl 1, by omega, ?_⟩
        simp only
        omega
      · rename_i hne
        have hz : (d2.a * 2 % 2 ^ 32) &&& 0x8000 = 0 := by simpa using hne
        obtain ⟨k, hk1, hk2, hk3⟩ := renormalizeLoop_iters fuel _ d1
          (by simp only; omega) (by simp only; omega) h
        refine ⟨k + 1, by omega, by omega, ?_⟩
        rw [hk3]
        simp only
        rw [Nat.mod_eq_of_lt (by omega), hA, pow_succ]
        ring

theorem reachable_range (d : Decoder) (h : Reachable d) : 0x8000 ≤ d.a ∧ d.a ≤ 0xFFFF := by
  induction h with
  | init r d hnew => rw [New_a r d hnew]; decide
  | step fuel d stats bit d1 stats1 _ hstep ih =>
    exact DecodeBit_range fuel d d1 stats stats1 bit ih.1 ih.2 hstep

/-- The state given by `renormalizeEntry` is the one `DecodeBit` hands to `renormalize`: its
`a` is the estimate of a row of `qe` (LPS path) or the reduced `a` with bit 15 clear (MPS
path), and the decoder left by `DecodeBit` is the one left by `renormalize`, counted. -/
theorem renormalizeEntry_spec (fuel : Nat) (d e : Decoder) (stats : DecoderStats)
    (he : d.renormalizeEntry stats = some e) :
    (∃ row ∈ qe, e.a = row.1 ∨
      (e.a = (d.a + 2 ^ 32 - row.1) % 2 ^ 32 ∧ e.a &&& 0x8000 = 0)) ∧
    (d.DecodeBit fuel stats).2.1 =
      { (e.renormalize fuel).2 with prvCtr := (e.renormalize fuel).2.prvCtr + 1 } := by
  unfold Decoder.renormalizeEntry at he
  unfold Decoder.DecodeBit
  split at he
  · simp at he
  · rename_i icx hcx
    split at he
    · simp at he
    · rename_i row hrow
      have hmem : row ∈ qe := List.getElem?_mem hrow
      simp only at he ⊢
      split at he
      · rename_i hc
        rw [if_pos hc]
        split at he
        · simp at he
        · rename_i bit d2 s2 hl
          injection he with he
          subst he
          refine ⟨⟨row, hmem, Or.inl (lpsExchange_a _ _ _ _ _ _ _ hl)⟩, ?_⟩
          generalize d2.renormalize fuel = rr
          obtain ⟨res, d3⟩ := rr
          cases res <;> rfl
      · rename_i hc
        rw [if_neg hc]
        split at he
        · rename_i ha
          rw [if_pos ha]
          split at he
          · simp at he
          · rename_i x hl
            injection he with he
            subst he
            obtain ⟨bit, s2⟩ := x
            rw [hl]
            simp only
            refine ⟨⟨row, hmem, Or.inr ⟨rfl, ha⟩⟩, ?_⟩
            generalize Decoder.renormalize fuel _ = rr
            obtain ⟨res, d3⟩ := rr
            cases res <;> rfl
        · simp at he

/-! ## Calls made of `DecodeBit` calls and updates of `previous` -/

theorem keeps_ret {α : Type} (P : Decoder → Prop) (fuel : Nat) (v : α) :
    Keeps P fuel (fun d s => (Except.ok v, d, s)) :=
  fun _ _ h => h

theorem keeps_andThen {α β : Type} {P : Decoder → Prop} {fuel : Nat}
    {F : Decoder → DecoderStats → Except Err α × Decoder × DecoderStats}
    {G : α → Decoder → DecoderStats → Except Err β × Decoder × DecoderStats}
    (hF : Keeps P fuel F) (hG : ∀ a, Keeps P fuel (G a)) : Keeps P fuel (andThen F G) := by
  intro d s h
  have h1 := hF d s h
  unfold andThen
  generalize F d s = rd at h1
  obtain ⟨od, d1, s1⟩ := rd
  cases od with
  | error err => exact h1
  | ok a => exact hG a d1 s1 h1

theorem keeps_ite {α : Type} {P : Decoder → Prop} {fuel : Nat} (c : Prop) [Decidable c]
    {F G : Decoder → DecoderStats → Except Err α × Decoder × DecoderStats}
    (hF : Keeps P fuel F) (hG : Keeps P fuel G) :
    Keeps P fuel (fun d s => if c then F d s else G d s) := by
  intro d s h
  by_cases hc : c
  · simpa [hc] using hF d s h
  · simpa [hc] using hG d s h

theorem keeps_congr {α : Type} {P : Decoder → Prop} {fuel : Nat}
    {F G : Decoder → DecoderStats → Except Err α × Decoder × DecoderStats}
    (h : ∀ d s, F d s = G d s) (hG : Keeps P fuel G) : Keeps P fuel F := by
  intro d s hd
  rw [h d s]
  exact hG d s hd

theorem keeps_setOne {α : Type} {P : Decoder → Prop} {fuel : Nat}
    (hprev : ∀ (d : Decoder) (p : Nat), P d → P { d with previous := p })
    {F : Decoder → DecoderStats → Except Err α × Decoder × DecoderStats}
    (hF : Keeps P fuel F) : Keeps P fuel (fun d s => F { d with previous := 1 } s) :=
  fun d s h => hF _ s (hprev d 1 h)

theorem keeps_DecodeBit_previous {P : Decoder → Prop} {fuel : Nat}
    (hbit : ∀ (d : Decoder) (stats : DecoderStats) (bit : Nat) (d1 : Decoder)
      (s1 : DecoderStats), P d → d.DecodeBit fuel stats = (.ok bit, d1, s1) → P d1) :
    Keeps P fuel (fun d s => d.DecodeBit fuel (s.SetIndex (toInt64 d.previous))) := by
  intro d s h
  show CallOutcome P fuel (d.DecodeBit fuel (s.SetIndex (toInt64 d.previous)))
  generalize hres : d.DecodeBit fuel (s.SetIndex (toInt64 d.previous)) = res
  obtain ⟨o, d1, s1⟩ := res
  cases o with
  | error err => exact ⟨d, _, h, hres⟩
  | ok bit => exact hbit d _ bit d1 s1 h hres

theorem keeps_decodeIntBit {P : Decoder → Prop} {fuel : Nat}
    (hbit : ∀ (d : Decoder) (stats : DecoderStats) (bit : Nat) (d1 : Decoder)
      (s1 : DecoderStats), P d → d.DecodeBit fuel stats = (.ok bit, d1, s1) → P d1)
    (hprev : ∀ (d : Decoder) (p : Nat), P d → P { d with previous := p }) :
    Keeps P fuel (fun d s => d.decodeIntBit fuel s) :=
  keeps_congr
    (fun d s => by
      clear hbit hprev
      simp only [Decoder.decodeIntBit, andThen]
      split <;> simp_all)
    (keeps_andThen (keeps_DecodeBit_previous hbit)
      (G := fun bit d1 s1 =>
        if toInt64 d1.previous < 256 then
          (.ok bit,
            { d1 with previous := (((d1.previous <<< 1) % 2 ^ 64) ||| bit) &&& 0x1ff }, s1)
        else
          (.ok bit,
            { d1 with previous :=
                (((((d1.previous <<< 1) % 2 ^ 64) ||| bit) &&& 511) ||| 256) &&& 0x1ff }, s1))
      (by
        intro bit d s h
        simp only
        split
        · exact hprev d _ h
        · exact hprev d _ h))

theorem keeps_decodeIntRange {P : Decoder → Prop} {fuel : Nat}
    (hbit : ∀ (d : Decoder) (stats : DecoderStats) (bit : Nat) (d1 : Decoder)
      (s1 : DecoderStats), P d → d.DecodeBit fuel stats = (.ok bit, d1, s1) → P d1)
    (hprev : ∀ (d : Decoder) (p : Nat), P d → P { d with previous := p }) :
    Keeps P fuel (fun d s => d.decodeIntRange fuel s) :=
  have hb := keeps_decodeIntBit hbit hprev
  keeps_congr
    (fun d s => by
      clear hb hbit hprev
      simp only [Decoder.decodeIntRange, andThen]
      repeat' split
      all_goals simp_all)
    (keeps_andThen hb (fun b1 => keeps_ite (b1 = 1)
      (keeps_andThen hb (fun b2 => keeps_ite (b2 = 1)
        (keeps_andThen hb (fun b3 => keeps_ite (b3 = 1)
          (keeps_andThen hb (fun b4 => keeps_ite (b4 = 1)
            (keeps_andThen hb (fun b5 => keeps_ite (b5 = 1)
              (keeps_ret P fuel (32, 4436)) (keeps_ret P fuel (12, 340))))
            (keeps_ret P fuel (8, 84))))
          (keeps_ret P fuel (6, 20))))
        (keeps_ret P fuel (4, 4))))
      (keeps_ret P fuel (2, 0))))

theorem keeps_decodeIntValue {P : Decoder → Prop} {fuel : Nat}
    (hbit : ∀ (d : Decoder) (stats : DecoderStats) (bit : Nat) (d1 : Decoder)
      (s1 : DecoderStats), P d → d.DecodeBit fuel stats = (.ok bit, d1, s1) → P d1)
    (hprev : ∀ (d : Decoder) (p : Nat), P d → P { d with previous := p }) :
    ∀ (n v : Nat), Keeps P fuel (fun d s => Decoder.decodeIntValue fuel n v d s)
  | 0, v => keeps_ret P fuel v
  | n + 1, v =>
    keeps_congr
      (fun d s => by
        clear hbit hprev
        simp only [Decoder.decodeIntValue, andThen]
        split <;> simp_all)
      (keeps_andThen (keeps_decodeIntBit hbit hprev)
        (fun bit => keeps_decodeIntValue hbit hprev n ((v <<< 1) ||| bit)))

/-- `DecodeInt` is made of `DecodeBit` calls and updates of `previous`: it keeps every
property of decoders that successful `DecodeBit` calls and such updates keep. -/
theorem keeps_DecodeInt {P : Decoder → Prop} {fuel : Nat}
    (hbit : ∀ (d : Decoder) (stats : DecoderStats) (bit : Nat) (d1 : Decoder)
      (s1 : DecoderStats), P d → d.DecodeBit fuel stats = (.ok bit, d1, s1) → P d1)
    (hprev : ∀ (d : Decoder) (p : Nat), P d → P { d with previous := p })
    (stats : Option DecoderStats) (d : Decoder) (h : P d) :
    CallOutcome P fuel (d.DecodeInt fuel stats) := by
  have key : Keeps P fuel (fun d s => d.DecodeInt fuel (some s)) :=
    keeps_congr
      (fun d s => by
        clear hbit hprev h
        simp only [Decoder.DecodeInt, andThen, statsOrNew]
        generalize Decoder.decodeIntBit fuel _ s = r1
        obtain ⟨o1, d1, s1⟩ := r1
        cases o1 with
        | error err => rfl
        | ok sgn =>
          simp only
          generalize d1.decodeIntRange fuel s1 = r2
          obtain ⟨o2, d2, s2⟩ := r2
          cases o2 with
          | error err => rfl
          | ok pr =>
            obtain ⟨n, off⟩ := pr
            simp only
            generalize Decoder.decodeIntValue fuel n 0 d2 s2 = r3
            obtain ⟨o3, d3, s3⟩ := r3
            cases o3 with
            | error err => rfl
            | ok v => rfl)
      (keeps_andThen (keeps_setOne hprev (keeps_decodeIntBit hbit hprev))
        (fun sgn => keeps_andThen (keeps_decodeIntRange hbit hprev)
          (fun pr => keeps_andThen (keeps_decodeIntValue hbit hprev pr.1 0)
            (fun v => keeps_ite (sgn = 0) (keeps_ret P fuel ((v + pr.2 : Nat) : Int))
              (keeps_ite (sgn = 1 ∧ v + pr.2 > 0)
                (keeps_ret P fuel (-((v + pr.2 : Nat) : Int)))
                (keeps_ret P fuel MaxInt64))))))
  have heq : d.DecodeInt fuel stats = d.DecodeInt fuel (some (statsOrNew stats)) := by
    simp only [Decoder.DecodeInt, statsOrNew]
  rw [heq]
  exact key d (statsOrNew stats) h

theorem keeps_iaidLoop {P : Decoder → Prop} {fuel : Nat}
    (hbit : ∀ (d : Decoder) (stats : DecoderStats) (bit : Nat) (d1 : Decoder)
      (s1 : DecoderStats), P d → d.DecodeBit fuel stats = (.ok bit, d1, s1) → P d1)
    (hprev : ∀ (d : Decoder) (p : Nat), P d → P { d with previous := p }) :
    ∀ (n : Nat), Keeps P fuel (fun d s => Decoder.iaidLoop fuel n d s)
  | 0 => keeps_ret P fuel ()
  | n + 1 =>
    keeps_congr
      (fun d s => by
        clear hbit hprev
        simp only [Decoder.iaidLoop, andThen]
        split <;> simp_all)
      (keeps_andThen (keeps_DecodeBit_previous hbit)
        (G := fun bit d1 s1 =>
          Decoder.iaidLoop fuel n
            { d1 with previous := ((d1.previous <<< 1) % 2 ^ 64) ||| bit } s1)
        (by
          intro bit d s h
          exact keeps_iaidLoop hbit hprev n _ s (hprev d _ h)))

/-- `DecodeIAID` is made of `DecodeBit` calls and updates of `previous`: it keeps every
property of decoders that successful `DecodeBit` calls and such updates keep. -/
theorem keeps_DecodeIAID {P : Decoder → Prop} {fuel : Nat}
    (hbit : ∀ (d : Decoder) (stats : DecoderStats) (bit : Nat) (d1 : Decoder)
      (s1 : DecoderStats), P d → d.DecodeBit fuel stats = (.ok bit, d1, s1) → P d1)
    (hprev : ∀ (d : Decoder) (p : Nat), P d → P { d with previous := p })
    (codeLen : Nat) (stats : DecoderStats) (d : Decoder) (h : P d) :
    CallOutcome P fuel (d.DecodeIAID fuel codeLen stats) := by
  have key : Keeps P fuel (fun d s => d.DecodeIAID fuel codeLen s) :=
    keeps_congr
      (fun d s => by
        clear hbit hprev h
        simp only [Decoder.DecodeIAID, andThen]
        split <;> simp_all)
      (keeps_andThen (keeps_setOne hprev (keeps_iaidLoop hbit hprev codeLen))
        (G := fun (_ : Unit) d1 s1 =>
          (.ok (toInt64 ((d1.previous + 2 ^ 64 - (1 <<< codeLen) % 2 ^ 64) % 2 ^ 64)), d1, s1))
        (by
          intro u d s h
          exact h))
  exact key d stats h

/-! ## Renormalize in a session -/

/-- In a session the interval register is in `[0x8000, 0xFFFF]`. -/
theorem session_range (d : Decoder) (h : Session d) : 0x8000 ≤ d.a ∧ d.a ≤ 0xFFFF := by
  have hbit : ∀ (fuel : Nat) (d : Decoder) (stats : DecoderStats) (bit : Nat) (d1 : Decoder)
      (s1 : DecoderStats), (0x8000 ≤ d.a ∧ d.a ≤ 0xFFFF) →
      d.DecodeBit fuel stats = (.ok bit, d1, s1) → (0x8000 ≤ d1.a ∧ d1.a ≤ 0xFFFF) :=
    fun fuel d stats bit d1 s1 hd hs => DecodeBit_range fuel d d1 stats s1 bit hd.1 hd.2 hs
  have hprev : ∀ (d : Decoder) (p : Nat), (0x8000 ≤ d.a ∧ d.a ≤ 0xFFFF) →
      (0x8000 ≤ ({ d with previous := p } : Decoder).a ∧
        ({ d with previous := p } : Decoder).a ≤ 0xFFFF) := fun _ _ hd => hd
  induction h with
  | init r d hnew => rw [New_a r d hnew]; decide
  | bit fuel d stats bit d1 stats1 _ hstep ih => exact hbit fuel d stats bit d1 stats1 ih hstep
  | int fuel d stats v d1 stats1 _ hstep ih =>
    have := keeps_DecodeInt (P := fun d => 0x8000 ≤ d.a ∧ d.a ≤ 0xFFFF) (hbit fuel) hprev
      stats d ih
    rw [hstep] at this
    exact this
  | iaid fuel d codeLen stats v d1 stats1 _ hstep ih =>
    have := keeps_DecodeIAID (P := fun d => 0x8000 ≤ d.a ∧ d.a ≤ 0xFFFF) (hbit fuel) hprev
      codeLen stats d ih
    rw [hstep] at this
    exact this
  | previous d p _ ih => exact ih

/-- C19. In every state of a session started by `New` (successful calls of `DecodeBit`,
`DecodeInt` and `DecodeIAID`, the states between their `DecodeBit` calls included), the
state `e` with which `DecodeBit` enters `renormalize` has `0 < a < 0x8000`. Hence the loop of the code, which shifts before it
tests, computes what the loop of the specification (test first) computes, for every fuel;
a successful run is made of `k` iterations with `1 <= k <= 15` (`a` is doubled `k` times
and bit 15 is then set), after which `c` is reduced modulo `2^32`; and 15 units of fuel are
always enough. -/
theorem renormalize_refines (fuel : Nat) (d e : Decoder) (stats : DecoderStats)
    (h : Session d) (he : d.renormalizeEntry stats = some e) :
    0 < e.a ∧ e.a < 0x8000 ∧
    (d.DecodeBit fuel stats).2.1 =
      { (e.renormalize fuel).2 with prvCtr := (e.renormalize fuel).2.prvCtr + 1 } ∧
    e.renormalize fuel = renormalizeSpec fuel e ∧
    (∀ e1, e.renormalize fuel = (.ok (), e1) →
      ∃ k, 1 ≤ k ∧ k ≤ 15 ∧ k ≤ fuel ∧ e1.a = e.a * 2 ^ k ∧ e1.c < 2 ^ 32) ∧
    (15 ≤ fuel → (e.renormalize fuel).1 ≠ .error .outOfFuel) := by
  obtain ⟨hlo, hhi⟩ := session_range d h
  obtain ⟨⟨row, hmem, hea⟩, hdec⟩ := renormalizeEntry_spec fuel d e stats he
  obtain ⟨hq0, hq1, -⟩ := qe_rows row hmem
  have hbit := and_0x8000 e.a
  have hpos : 0 < e.a ∧ e.a < 0x8000 := by
    rcases hea with h1 | ⟨h1, h2⟩
    · omega
    · omega
  have hz : e.a &&& 0x8000 = 0 := by
    rw [hbit]
    have : e.a / 0x8000 = 0 := Nat.div_eq_of_lt hpos.2
    simp [this]
  refine ⟨hpos.1, hpos.2, hdec, renormalize_eq_spec fuel e hz, ?_, ?_⟩
  · intro e1 hren
    have hr := renormalize_range fuel e e1 hpos.1 hpos.2 hren
    unfold Decoder.renormalize at hren
    split at hren
    · simp at hren
    · rename_i u d2 heq
      injection hren with _ hren
      subst hren
      have hu : renormalizeLoop fuel e = (Except.ok (), d2) := by rw [heq]
      obtain ⟨k, hk1, hk2, hk3⟩ := renormalizeLoop_iters fuel e d2 hpos.1 hpos.2 hu
      simp only at hr
      refine ⟨k, hk1, ?_, hk2, hk3, ?_⟩
      · by_contra hk
        have hp : 2 ^ 16 ≤ 2 ^ k := Nat.pow_le_pow_right (by norm_num) (by omega)
        have : e.a * 2 ^ 16 ≤ e.a * 2 ^ k := Nat.mul_le_mul_left _ hp
        omega
      · simp only [and_mask32]
        exact Nat.mod_lt _ (by norm_num)
  · intro hf
    have hp : 2 ^ 15 ≤ 2 ^ fuel := Nat.pow_le_pow_right (by norm_num) hf
    have h2 : 0x8000 ≤ e.a * 2 ^ fuel := by nlinarith [hpos.1]
    have := renormalizeLoop_fuel fuel e hpos.1 hpos.2 h2
    unfold Decoder.renormalize
    generalize renormalizeLoop fuel e = rb at this
    obtain ⟨res, d2⟩ := rb
    cases res with
    | error x => exact this
    | ok u => simp

/-- Witness of C19: the decoder made by `New` on `98 03 A5 5A` after one `DecodeInt` (which
returns 0 and leaves `previous = 16`); the next `DecodeBit` on a fresh table takes the LPS
path and enters `renormalize` with `a = 0x5601`. -/
theorem renormalize_refines_witness :
    0 < (0x5601 : Nat) ∧ (0x5601 : Nat) < 0x8000 ∧
    (({ mkDecoder [0x98, 0x03, 0xA5, 0x5A] 3 0xAC02 0xC0F2800 5 with
          b := 0xA5, previous := 16, prvCtr := 5 } : Decoder).DecodeBit 15 (NewStats 1 0)).2.1 =
      { (({ mkDecoder [0x98, 0x03, 0xA5, 0x5A] 3 0x5601 0xC0F2800 5 with
            b := 0xA5, previous := 16, prvCtr := 5 } : Decoder).renormalize 15).2 with
        prvCtr := (({ mkDecoder [0x98, 0x03, 0xA5, 0x5A] 3 0x5601 0xC0F2800 5 with
            b := 0xA5, previous := 16, prvCtr := 5 } : Decoder).renormalize 15).2.prvCtr + 1 } ∧
    ({ mkDecoder [0x98, 0x03, 0xA5, 0x5A] 3 0x5601 0xC0F2800 5 with
        b := 0xA5, previous := 16, prvCtr := 5 } : Decoder).renormalize 15 =
      renormalizeSpec 15
        { mkDecoder [0x98, 0x03, 0xA5, 0x5A] 3 0x5601 0xC0F2800 5 with
          b := 0xA5, previous := 16, prvCtr := 5 } ∧
    (∀ e1, ({ mkDecoder [0x98, 0x03, 0xA5, 0x5A] 3 0x5601 0xC0F2800 5 with
        b := 0xA5, previous := 16, prvCtr := 5 } : Decoder).renormalize 15 = (.ok (), e1) →
      ∃ k, 1 ≤ k ∧ k ≤ 15 ∧ k ≤ 15 ∧ e1.a = 0x5601 * 2 ^ k ∧ e1.c < 2 ^ 32) ∧
    (15 ≤ 15 → (({ mkDecoder [0x98, 0x03, 0xA5, 0x5A] 3 0x5601 0xC0F2800 5 with
        b := 0xA5, previous := 16, prvCtr := 5 } : Decoder).renormalize 15).1 ≠
      .error .outOfFuel) :=
  renormalize_refines 15
    { mkDecoder [0x98, 0x03, 0xA5, 0x5A] 3 0xAC02 0xC0F2800 5 with
      b := 0xA5, previous := 16, prvCtr := 5 }
    { mkDecoder [0x98, 0x03, 0xA5, 0x5A] 3 0x5601 0xC0F2800 5 with
      b := 0xA5, previous := 16, prvCtr := 5 } (NewStats 1 0)
    (Session.int 2 { sampleDecoderA with b := 3, prvCtr := 1 } (some (NewStats 16 0)) 0 _ _
      (Session.init ⟨[0x98, 0x03, 0xA5, 0x5A], 0⟩ _ rfl) rfl) rfl

/-! ## The end-of-data marker -/

/-- Byte-in in closed form, from the offset `o` of the first byte it reads: with both bytes
present it succeeds, and the reader is left at `o` on a marker and at `o + 2` otherwise. -/
theorem readByte_at (d : Decoder) (o : Nat) (B B1 : Fin 256)
    (h0 : 0 ≤ d.streamPosition) (ho : d.byteInOffset = o)
    (hB : d.r.data[o]? = some B) (hB1 : d.r.data[o + 1]? = some B1) :
    d.readByte = (.ok (),
      { d with
        r := { d.r with pos := if B.val = 0xFF ∧ 0x8F < B1.val then o else o + 2 },
        b := if B.val = 0xFF then B.val else B1.val,
        c := (d.c + (if B.val = 0xFF then (if 0x8F < B1.val then 0xFF00 else B1.val <<< 9)
                     else B1.val <<< 8)) % 2 ^ 40,
        ct := if B.val = 0xFF ∧ B1.val ≤ 0x8F then 7 else 8 }) := by
  unfold Decoder.byteInOffset Reader.StreamPosition at ho
  by_cases hp : (d.r.pos : Int) > d.streamPosition
  · rw [if_pos hp] at ho
    have hp1 : 1 ≤ d.r.pos := by omega
    have e1 : d.r.pos = o + 1 := by omega
    rw [readByte_eq d B B1 h0 hp (by rw [← ho] at hB; exact hB)
      (by rw [e1]; exact hB1)]
    have e2 : d.r.pos - 1 = o := by omega
    have e3 : d.r.pos + 1 = o + 2 := by omega
    rw [e2, e3]
  · rw [if_neg hp] at ho
    subst ho
    have e3 : ((((d.r.pos + 1 + 1 : Nat) : Int)) + -2).toNat = d.r.pos := by omega
    have m40 : ∀ x : Nat, (x % 2 ^ 64) &&& 0xFFFFFFFFFF = x % 2 ^ 40 := fun x => by
      rw [and_mask40]; exact Nat.mod_mod_of_dvd x (by norm_num)
    simp only [Decoder.readByte, Reader.StreamPosition, Reader.Seek, Reader.ReadByte]
    rw [if_neg hp]
    simp only [hB, hB1, m40]
    by_cases hff : B.val = 0xFF
    · by_cases hb1 : 0x8F < B1.val
      · simp only [hff, if_true, hb1, gt_iff_lt, true_and]
        rw [if_neg (by omega)]
        simp only [e3]
        rw [if_neg (by omega)]
      · simp only [hff, if_true, hb1, gt_iff_lt, if_false, true_and, false_and]
        rw [if_pos (by omega)]
    · simp only [hff, if_false, false_and]

/-- Byte-in with no byte at the offset `o`: it fails and leaves the reader at `o`. -/
theorem readByte_eof0 (d : Decoder) (o : Nat)
    (h0 : 0 ≤ d.streamPosition) (ho : d.byteInOffset = o) (hB : d.r.data[o]? = none) :
    d.readByte = (.error .eof, { d with r := { d.r with pos := o } }) := by
  unfold Decoder.byteInOffset Reader.StreamPosition at ho
  by_cases hp : (d.r.pos : Int) > d.streamPosition
  · rw [if_pos hp] at ho
    have e1 : ((d.r.pos : Int) + -1).toNat = o := by omega
    simp only [Decoder.readByte, Reader.StreamPosition, Reader.Seek, Reader.ReadByte]
    rw [if_pos hp, if_neg (by omega)]
    simp only [e1, hB]
  · rw [if_neg hp] at ho
    subst ho
    simp only [Decoder.readByte, Reader.StreamPosition, Reader.Seek, Reader.ReadByte]
    rw [if_neg hp]
    simp only [hB]

/-- Byte-in with one byte only from the offset `o`: it fails and leaves the reader at
`o + 1`. -/
theorem readByte_eof1 (d : Decoder) (o : Nat) (B : Fin 256)
    (h0 : 0 ≤ d.streamPosition) (ho : d.byteInOffset = o)
    (hB : d.r.data[o]? = some B) (hB1 : d.r.data[o + 1]? = none) :
    d.readByte = (.error .eof, { d with r := { d.r with pos := o + 1 }, b := B.val }) := by
  unfold Decoder.byteInOffset Reader.StreamPosition at ho
  by_cases hp : (d.r.pos : Int) > d.streamPosition
  · rw [if_pos hp] at ho
    have e1 : ((d.r.pos : Int) + -1).toNat = o := by omega
    simp only [Decoder.readByte, Reader.StreamPosition, Reader.Seek, Reader.ReadByte]
    rw [if_pos hp, if_neg (by omega)]
    simp only [e1, hB, hB1]
    by_cases hff : B.val = 0xFF <;> simp [hff]
  · rw [if_neg hp] at ho
    subst ho
    simp only [Decoder.readByte, Reader.StreamPosition, Reader.Seek, Reader.ReadByte]
    rw [if_neg hp]
    simp only [hB, hB1]
    by_cases hff : B.val = 0xFF <;> simp [hff]

theorem lookup_some (data : List (Fin 256)) (i : Nat) (h : i < data.length) :
    ∃ B, data[i]? = some B := ⟨data[i], List.getElem?_eq_getElem h⟩

theorem lookup_lt (data : List (Fin 256)) (i : Nat) (B : Fin 256) (h : data[i]? = some B) :
    i < data.length := by
  by_contra hc
  rw [List.getElem?_eq_none (by omega)] at h
  exact absurd h (by simp)

/-- Byte-in never changes the initial position nor the buffer. -/
theorem readByte_frame (d : Decoder) (h0 : 0 ≤ d.streamPosition) :
    d.readByte.2.streamPosition = d.streamPosition ∧ d.readByte.2.r.data = d.r.data := by
  cases hB : d.r.data[d.byteInOffset]? with
  | none => rw [readByte_eof0 d _ h0 rfl hB]; exact ⟨rfl, rfl⟩
  | some B =>
    cases hB1 : d.r.data[d.byteInOffset + 1]? with
    | none => rw [readByte_eof1 d _ B h0 rfl hB hB1]; exact ⟨rfl, rfl⟩
    | some B1 => rw [readByte_at d _ B B1 h0 rfl hB hB1]; exact ⟨rfl, rfl⟩

/-- The reader invariant of a run is kept by byte-in, whether it succeeds or not. -/
theorem ReaderInv_readByte (d : Decoder) (h : ReaderInv d.r d.streamPosition) :
    ReaderInv d.readByte.2.r d.readByte.2.streamPosition := by
  obtain ⟨s, hsp, hlen, hcase⟩ := h
  have h0 : 0 ≤ d.streamPosition := by omega
  have hoff : d.byteInOffset = if s < d.r.pos then d.r.pos - 1 else d.r.pos := by
    unfold Decoder.byteInOffset Reader.StreamPosition
    by_cases hp : s < d.r.pos
    · rw [if_pos (by omega), if_pos hp]
    · rw [if_neg (by omega), if_neg hp]
  rcases hcase with hI | ⟨hS, hm⟩ | ⟨hN, hnm⟩ | ⟨hM, hm, hnf⟩
  · -- entry of the byte-in of init
    have ho : d.byteInOffset = s := by rw [hoff, if_pos (by omega)]; omega
    obtain ⟨B, hB⟩ := lookup_some d.r.data s (by omega)
    cases hB1 : d.r.data[s + 1]? with
    | none =>
      rw [readByte_eof1 d s B h0 ho hB hB1]
      exact ⟨s, hsp, by simp only; omega, Or.inl rfl⟩
    | some B1 =>
      have hl1 := lookup_lt _ _ _ hB1
      rw [readByte_at d s B B1 h0 ho hB hB1]
      by_cases hmk : B.val = 0xFF ∧ 0x8F < B1.val
      · refine ⟨s, hsp, ?_, Or.inr (Or.inl ⟨?_, ?_⟩)⟩
        · simp only [if_pos hmk]; omega
        · simp only [if_pos hmk]
        · exact ⟨B, B1, hB, hB1, hmk.1, hmk.2⟩
      · refine ⟨s, hsp, ?_, Or.inr (Or.inr (Or.inl ⟨?_, ?_⟩))⟩
        · simp only [if_neg hmk]; omega
        · simp only [if_neg hmk]; omega
        · simp only [if_neg hmk]
          rintro ⟨C, C1, hC, hC1, hc, hc1⟩
          have e : s + 2 - 2 = s := by omega
          rw [e] at hC hC1
          rw [hB] at hC; rw [hB1] at hC1
          injection hC with hC; injection hC1 with hC1
          subst hC; subst hC1
          exact hmk ⟨hc, hc1⟩
  · -- on the marker at the initial position
    have ho : d.byteInOffset = s := by rw [hoff, if_neg (by omega)]; exact hS
    obtain ⟨B, B1, hB, hB1, hb, hb1⟩ := hm
    rw [readByte_at d s B B1 h0 ho hB hB1]
    refine ⟨s, hsp, ?_, Or.inr (Or.inl ⟨?_, ?_⟩)⟩
    · simp only [if_pos (And.intro hb hb1)]; omega
    · simp only [if_pos (And.intro hb hb1)]
    · exact ⟨B, B1, hB, hB1, hb, hb1⟩
  · -- past the initial position, no marker two bytes back
    have ho : d.byteInOffset = d.r.pos - 1 := by rw [hoff, if_pos (by omega)]
    obtain ⟨B, hB⟩ := lookup_some d.r.data (d.r.pos - 1) (by omega)
    have e1 : d.r.pos - 1 + 1 = d.r.pos := by omega
    cases hB1 : d.r.data[d.r.pos - 1 + 1]? with
    | none =>
      rw [readByte_eof1 d _ B h0 ho hB hB1]
      refine ⟨s, hsp, ?_, Or.inr (Or.inr (Or.inl ⟨?_, ?_⟩))⟩
      · simp only [e1]; exact hlen
      · simp only [e1]; exact hN
      · simp only [e1]; exact hnm
    | some B1 =>
      have hl1 := lookup_lt _ _ _ hB1
      rw [readByte_at d _ B B1 h0 ho hB hB1]
      by_cases hmk : B.val = 0xFF ∧ 0x8F < B1.val
      · refine ⟨s, hsp, ?_, Or.inr (Or.inr (Or.inr ⟨?_, ?_, ?_⟩))⟩
        · simp only [if_pos hmk]; omega
        · simp only [if_pos hmk]; omega
        · simp only [if_pos hmk]
          exact ⟨B, B1, hB, hB1, hmk.1, hmk.2⟩
        · simp only [if_pos hmk]
          intro C hC hc
          apply hnm
          have e2 : d.r.pos - 2 = d.r.pos - 1 - 1 := by omega
          have e3 : d.r.pos - 1 - 1 + 1 = d.r.pos - 1 := by omega
          refine ⟨C, B, ?_, ?_, hc, ?_⟩
          · rw [e2]; exact hC
          · rw [e2, e3]; exact hB
          · omega
      · refine ⟨s, hsp, ?_, Or.inr (Or.inr (Or.inl ⟨?_, ?_⟩))⟩
        · simp only [if_neg hmk]; omega
        · simp only [if_neg hmk]; omega
        · simp only [if_neg hmk]
          rintro ⟨C, C1, hC, hC1, hc, hc1⟩
          have e : d.r.pos - 1 + 2 - 2 = d.r.pos - 1 := by omega
          rw [e] at hC hC1
          rw [hB] at hC; rw [hB1] at hC1
          injection hC with hC; injection hC1 with hC1
          subst hC; subst hC1
          exact hmk ⟨hc, hc1⟩
  · -- on a marker past the initial position
    have ho : d.byteInOffset = d.r.pos - 1 := by rw [hoff, if_pos (by omega)]
    obtain ⟨C, C1, hC, hC1, hc, hc1⟩ := hm
    obtain ⟨B, hB⟩ := lookup_some d.r.data (d.r.pos - 1) (by omega)
    have e1 : d.r.pos - 1 + 1 = d.r.pos := by omega
    have hl1 := lookup_lt _ _ _ hC1
    have hnb : ¬ (B.val = 0xFF ∧ 0x8F < C.val) := fun hh => hnf B hB hh.1
    rw [readByte_at d _ B C h0 ho hB (by rw [e1]; exact hC)]
    refine ⟨s, hsp, ?_, Or.inr (Or.inr (Or.inl ⟨?_, ?_⟩))⟩
    · simp only [if_neg hnb]; omega
    · simp only [if_neg hnb]; omega
    · simp only [if_neg hnb]
      rintro ⟨D, D1, hD, hD1, hd, hd1⟩
      have e : d.r.pos - 1 + 2 - 2 = d.r.pos - 1 := by omega
      rw [e] at hD
      exact hnf D hD hd

/-- A byte-in of a run that finds the marker at `q` leaves the reader on the marker, in
the absorbed state. -/
theorem found_absorbed (d : Decoder) (q : Nat) (h : ReaderInv d.r d.streamPosition)
    (hq : d.byteInOffset = q) (hm : MarkerAt d.r.data q) :
    Absorbed q d.readByte.2.r d.readByte.2.streamPosition := by
  obtain ⟨s, hsp, hlen, hcase⟩ := h
  have h0 : 0 ≤ d.streamPosition := by omega
  have hoff : d.byteInOffset = if s < d.r.pos then d.r.pos - 1 else d.r.pos := by
    unfold Decoder.byteInOffset Reader.StreamPosition
    by_cases hp : s < d.r.pos
    · rw [if_pos (by omega), if_pos hp]
    · rw [if_neg (by omega), if_neg hp]
  obtain ⟨B, B1, hB, hB1, hb, hb1⟩ := hm
  rw [readByte_at d q B B1 h0 hq hB hB1]
  simp only [if_pos (And.intro hb hb1)]
  refine ⟨s, hsp, ⟨B, B1, hB, hB1, hb, hb1⟩, ?_⟩
  rcases hcase with hI | ⟨hS, _⟩ | ⟨hN, hnm⟩ | ⟨hM, _, hnf⟩
  · left
    rw [hoff, if_pos (by omega)] at hq
    exact ⟨rfl, by omega⟩
  · left
    rw [hoff, if_neg (by omega)] at hq
    exact ⟨rfl, by omega⟩
  · right
    rw [hoff, if_pos (by omega)] at hq
    refine ⟨by omega, ?_, Or.inl rfl⟩
    intro C hC hc
    apply hnm
    have e2 : d.r.pos - 2 = q - 1 := by omega
    have e3 : q - 1 + 1 = q := by omega
    refine ⟨C, B, ?_, ?_, hc, ?_⟩
    · rw [e2]; exact hC
    · rw [e2, e3]; exact hB
    · omega
  · exfalso
    rw [hoff, if_pos (by omega)] at hq
    rw [← hq] at hB
    exact hnf B hB hb

/-- From the absorbed state every byte-in succeeds, adds `0xFF00` to `c` (within the 40 bits
kept), sets `ct` to 8, reads at `q - 1` or `q`, and leaves the reader at `q` or `q + 1`,
absorbed again. -/
theorem absorbed_readByte (d : Decoder) (q : Nat) (h : Absorbed q d.r d.streamPosition) :
    d.readByte = (.ok (), d.readByte.2) ∧ d.readByte.2.c = (d.c + 0xFF00) % 2 ^ 40 ∧
    d.readByte.2.ct = 8 ∧ (d.readByte.2.r.pos = q ∨ d.readByte.2.r.pos = q + 1) ∧
    (d.byteInOffset = q ∨ d.byteInOffset + 1 = q) ∧
    Absorbed q d.readByte.2.r d.readByte.2.streamPosition := by
  obtain ⟨s, hsp, hm, hcase⟩ := h
  have h0 : 0 ≤ d.streamPosition := by omega
  have hoff : d.byteInOffset = if s < d.r.pos then d.r.pos - 1 else d.r.pos := by
    unfold Decoder.byteInOffset Reader.StreamPosition
    by_cases hp : s < d.r.pos
    · rw [if_pos (by omega), if_pos hp]
    · rw [if_neg (by omega), if_neg hp]
  obtain ⟨B, B1, hB, hB1, hb, hb1⟩ := hm
  have hmk : MarkerAt d.r.data q := ⟨B, B1, hB, hB1, hb, hb1⟩
  have hn7 : ¬ (B.val = 0xFF ∧ B1.val ≤ 0x8F) := by omega
  rcases hcase with ⟨hp, hqs⟩ | ⟨hsq, hnf, hp | hp⟩
  · have ho : d.byteInOffset = q := by rw [hoff, if_neg (by omega)]; exact hp
    rw [readByte_at d q B B1 h0 ho hB hB1]
    refine ⟨rfl, ?_, ?_, Or.inl ?_, Or.inl ho, s, hsp, hmk, Or.inl ⟨?_, hqs⟩⟩
    · simp only [if_pos hb, if_pos hb1]
    · simp only [if_neg hn7]
    · simp only [if_pos (And.intro hb hb1)]
    · simp only [if_pos (And.intro hb hb1)]
  · have ho : d.byteInOffset = q - 1 := by rw [hoff, if_pos (by omega), hp]
    obtain ⟨A, hA⟩ := lookup_some d.r.data (q - 1) (by have := lookup_lt _ _ _ hB; omega)
    have ha : A.val ≠ 0xFF := hnf A hA
    have e1 : q - 1 + 1 = q := by omega
    have e2 : q - 1 + 2 = q + 1 := by omega
    rw [readByte_at d (q - 1) A B h0 ho hA (by rw [e1]; exact hB)]
    have hn1 : ¬ (A.val = 0xFF ∧ 0x8F < B.val) := fun hh => ha hh.1
    have hn2 : ¬ (A.val = 0xFF ∧ B.val ≤ 0x8F) := fun hh => ha hh.1
    refine ⟨rfl, ?_, ?_, Or.inr ?_, Or.inr (by omega), s, hsp, hmk,
      Or.inr ⟨hsq, hnf, Or.inr ?_⟩⟩
    · simp only [if_neg ha, hb]
      rfl
    · simp only [if_neg hn2]
    · simp only [if_neg hn1, e2]
    · simp only [if_neg hn1, e2]
  · have ho : d.byteInOffset = q := by rw [hoff, if_pos (by omega), hp]; omega
    rw [readByte_at d q B B1 h0 ho hB hB1]
    refine ⟨rfl, ?_, ?_, Or.inl ?_, Or.inl ho, s, hsp, hmk, Or.inr ⟨hsq, hnf, Or.inl ?_⟩⟩
    · simp only [if_pos hb, if_pos hb1]
    · simp only [if_neg hn7]
    · simp only [if_pos (And.intro hb hb1)]
    · simp only [if_pos (And.intro hb hb1)]

theorem trail_append : ∀ (l l1 : List Decoder) (r : Reader) (sp : Int) (r1 : Reader)
    (sp1 : Int) (r2 : Reader) (sp2 : Int),
    Trail r sp l r1 sp1 → Trail r1 sp1 l1 r2 sp2 → Trail r sp (l ++ l1) r2 sp2
  | [], l1, r, sp, r1, sp1, r2, sp2, h, h1 => by
    obtain ⟨ha, hb⟩ := h
    subst ha; subst hb
    exact h1
  | e :: l, l1, r, sp, r1, sp1, r2, sp2, h, h1 => by
    obtain ⟨ha, hb, hc⟩ := h
    exact ⟨ha, hb, trail_append l l1 _ _ _ _ _ _ hc h1⟩

theorem trail_split : ∀ (pre post : List Decoder) (e : Decoder) (r : Reader) (sp : Int)
    (r1 : Reader) (sp1 : Int), Trail r sp (pre ++ e :: post) r1 sp1 →
    Trail r sp pre e.r e.streamPosition ∧
    Trail e.readByte.2.r e.readByte.2.streamPosition post r1 sp1
  | [], post, e, r, sp, r1, sp1, h => by
    obtain ⟨ha, hb, hc⟩ := h
    exact ⟨⟨ha, hb⟩, hc⟩
  | x :: pre, post, e, r, sp, r1, sp1, h => by
    obtain ⟨ha, hb, hc⟩ := h
    obtain ⟨h1, h2⟩ := trail_split pre post e _ _ _ _ hc
    exact ⟨⟨ha, hb, h1⟩, h2⟩

/-- The reader invariant holds along a trail that starts with it. -/
theorem trail_inv : ∀ (l : List Decoder) (r : Reader) (sp : Int) (r1 : Reader) (sp1 : Int),
    Trail r sp l r1 sp1 → ReaderInv r sp → ReaderInv r1 sp1
  | [], r, sp, r1, sp1, h, hi => by
    obtain ⟨ha, hb⟩ := h
    subst ha; subst hb
    exact hi
  | e :: l, r, sp, r1, sp1, h, hi => by
    obtain ⟨ha, hb, hc⟩ := h
    subst ha; subst hb
    exact trail_inv l _ _ _ _ hc (ReaderInv_readByte e hi)

/-- The absorbed state holds along a trail that starts with it. -/
theorem trail_absorbed (q : Nat) : ∀ (l : List Decoder) (r : Reader) (sp : Int) (r1 : Reader)
    (sp1 : Int), Trail r sp l r1 sp1 → Absorbed q r sp →
    (∀ e ∈ l, Absorbed q e.r e.streamPosition) ∧ Absorbed q r1 sp1
  | [], r, sp, r1, sp1, h, hi => by
    obtain ⟨ha, hb⟩ := h
    subst ha; subst hb
    exact ⟨by simp, hi⟩
  | e :: l, r, sp, r1, sp1, h, hi => by
    obtain ⟨ha, hb, hc⟩ := h
    subst ha; subst hb
    obtain ⟨h1, h2⟩ := trail_absorbed q l _ _ _ _ hc (absorbed_readByte e q hi).2.2.2.2.2
    refine ⟨?_, h2⟩
    intro x hx
    rcases List.mem_cons.1 hx with hx | hx
    · subst hx; exact hi
    · exact h1 x hx

/-- The byte-in calls of the loop of `renormalize` form a trail from the reader at entry to
the reader at exit. -/
theorem renormalizeLoop_trail : ∀ (fuel : Nat) (d : Decoder),
    Trail d.r d.streamPosition (renormalizeByteIns fuel d)
      (renormalizeLoop fuel d).2.r (renormalizeLoop fuel d).2.streamPosition
  | 0, d => ⟨rfl, rfl⟩
  | fuel + 1, d => by
    simp only [renormalizeLoop, renormalizeByteIns]
    by_cases hct : d.ct = 0
    · simp only [if_pos hct]
      generalize hrb : d.readByte = rb
      obtain ⟨res, d0⟩ := rb
      have h2 : d.readByte.2 = d0 := by rw [hrb]
      cases res with
      | error x =>
        simp only [List.singleton_append]
        exact ⟨rfl, rfl, by rw [h2]; exact ⟨rfl, rfl⟩⟩
      | ok u =>
        simp only [List.singleton_append]
        refine ⟨rfl, rfl, ?_⟩
        rw [h2]
        split
        · exact ⟨rfl, rfl⟩
        · exact renormalizeLoop_trail fuel
            { d0 with a := (d0.a <<< 1) % 2 ^ 32, c := (d0.c <<< 1) % 2 ^ 64, ct := d0.ct - 1 }
    · simp only [if_neg hct, List.nil_append]
      split
      · exact ⟨rfl, rfl⟩
      · exact renormalizeLoop_trail fuel
          { d with a := (d.a <<< 1) % 2 ^ 32, c := (d.c <<< 1) % 2 ^ 64, ct := d.ct - 1 }

theorem renormalize_trail (fuel : Nat) (d : Decoder) :
    Trail d.r d.streamPosition (renormalizeByteIns fuel d)
      (d.renormalize fuel).2.r (d.renormalize fuel).2.streamPosition := by
  have h := renormalizeLoop_trail fuel d
  unfold Decoder.renormalize
  generalize renormalizeLoop fuel d = rb at h
  obtain ⟨res, d0⟩ := rb
  cases res with
  | error x => exact h
  | ok u => exact h

theorem lpsExchange_state (d d1 : Decoder) (stats stats1 : DecoderStats) (k q bit : Nat)
    (h : d.lpsExchange stats k q = some (bit, d1, stats1)) : d1 = { d with a := q } := by
  unfold Decoder.lpsExchange at h
  repeat' split at h
  all_goals first
    | (injection h with h; injection h with _ h; injection h with h _; subst h; rfl)
    | simp at h

/-- The state with which `DecodeBit` enters `renormalize` has the reader of the call; on the
LPS path `c` is below the estimate shifted by 16, on the MPS path `c` has not grown. -/
theorem renormalizeEntry_frame (d e : Decoder) (stats : DecoderStats)
    (he : d.renormalizeEntry stats = some e) :
    e.r = d.r ∧ e.streamPosition = d.streamPosition ∧
    ∃ row ∈ qe, (e.a = row.1 ∧ e.c = d.c ∧ d.c >>> 16 < row.1) ∨
      (e.a = (d.a + 2 ^ 32 - row.1) % 2 ^ 32 ∧ e.a &&& 0x8000 = 0 ∧ e.c ≤ d.c) := by
  unfold Decoder.renormalizeEntry at he
  split at he
  · simp at he
  · rename_i icx hcx
    split at he
    · simp at he
    · rename_i row hrow
      have hmem : row ∈ qe := List.getElem?_mem hrow
      simp only at he
      split at he
      · rename_i hc
        split at he
        · simp at he
        · rename_i bit d2 s2 hl
          injection he with he
          subst he
          have hs := lpsExchange_state _ _ _ _ _ _ _ hl
          subst hs
          exact ⟨rfl, rfl, row, hmem, Or.inl ⟨rfl, rfl, hc⟩⟩
      · split at he
        · rename_i ha
          split at he
          · simp at he
          · injection he with he
            subst he
            exact ⟨rfl, rfl, row, hmem, Or.inr ⟨rfl, ha, Nat.sub_le _ _⟩⟩
        · simp at he

/-- When `DecodeBit` does not renormalize it leaves the reader as it is. -/
theorem renormalizeEntry_none (fuel : Nat) (d : Decoder) (stats : DecoderStats)
    (he : d.renormalizeEntry stats = none) :
    (d.DecodeBit fuel stats).2.1.r = d.r ∧
    (d.DecodeBit fuel stats).2.1.streamPosition = d.streamPosition := by
  unfold Decoder.renormalizeEntry at he
  unfold Decoder.DecodeBit
  split at he
  · exact ⟨rfl, rfl⟩
  · split at he
    · exact ⟨rfl, rfl⟩
    · simp only at he ⊢
      split at he
      · rename_i hc
        rw [if_pos hc]
        split at he
        · exact ⟨rfl, rfl⟩
        · simp at he
      · rename_i hc
        rw [if_neg hc]
        split at he
        · rename_i ha
          rw [if_pos ha]
          split at he
          · rename_i hl
            rw [hl]
            exact ⟨rfl, rfl⟩
          · simp at he
        · rename_i ha
          rw [if_neg ha]
          split <;> exact ⟨rfl, rfl⟩

/-- The byte-in calls of one `DecodeBit` form a trail from the reader before the call to the
reader after it, whatever the outcome of the call. -/
theorem DecodeBit_trail (fuel : Nat) (d : Decoder) (stats : DecoderStats) :
    Trail d.r d.streamPosition (d.byteIns fuel stats)
      (d.DecodeBit fuel stats).2.1.r (d.DecodeBit fuel stats).2.1.streamPosition := by
  unfold Decoder.byteIns
  cases he : d.renormalizeEntry stats with
  | none =>
    obtain ⟨h1, h2⟩ := renormalizeEntry_none fuel d stats he
    exact ⟨h1, h2⟩
  | some e =>
    obtain ⟨h1, h2, -⟩ := renormalizeEntry_frame d e stats he
    have h3 := (renormalizeEntry_spec fuel d e stats he).2
    have h4 := renormalize_trail fuel e
    rw [h3]
    rw [h1, h2] at h4
    exact h4

/-- A successful `New` has read two bytes. -/
theorem New_ok_bytes (r : Reader) (d : Decoder) (h : New r = .ok d) :
    ∃ b0 b1 : Fin 256, r.data[r.pos]? = some b0 ∧ r.data[r.pos + 1]? = some b1 := by
  by_cases hlen : r.data.length < r.pos + 2
  · rw [New_short r hlen] at h
    cases h
  · obtain ⟨b0, h0⟩ := lookup_some r.data r.pos (by omega)
    obtain ⟨b1, h1⟩ := lookup_some r.data (r.pos + 1) (by omega)
    exact ⟨b0, b1, h0, h1⟩

theorem New_c (r : Reader) (d : Decoder) (h : New r = .ok d) : d.c < 2 ^ 32 := by
  obtain ⟨b0, b1, h0, h1⟩ := New_ok_bytes r d h
  have hb0 := b0.isLt
  have hb1 := b1.isLt
  rw [New_eq r b0 b1 h0 h1] at h
  injection h with h
  subst h
  simp only [Nat.shiftLeft_eq]
  split <;> try split
  all_goals omega

/-- The byte-in of `init` starts with the reader invariant, and `New` returns the reader it
leaves. -/
theorem New_trail (r : Reader) (e d : Decoder) (he : initByteIn r = some e)
    (h : New r = .ok d) :
    ReaderInv e.r e.streamPosition ∧ d.r = e.readByte.2.r ∧
    d.streamPosition = e.readByte.2.streamPosition := by
  obtain ⟨b0, b1, h0, h1⟩ := New_ok_bytes r d h
  have hl1 := lookup_lt _ _ _ h1
  rw [New_eq r b0 b1 h0 h1] at h
  injection h with h
  subst h
  simp only [initByteIn, Reader.ReadByte, h0] at he
  injection he with he
  have hr : e.r = { r with pos := r.pos + 1 } := by rw [← he]
  have hs : e.streamPosition = (r.pos : Int) := by rw [← he]; rfl
  have ho : e.byteInOffset = r.pos := by
    unfold Decoder.byteInOffset Reader.StreamPosition
    rw [hr, hs]
    simp
  refine ⟨⟨r.pos, hs, by rw [hr]; simp only; omega, Or.inl (by rw [hr])⟩, ?_⟩
  rw [readByte_at e r.pos b0 b1 (by rw [hs]; omega) ho (by rw [hr]; exact h0)
    (by rw [hr]; exact h1)]
  simp only [hr, hs, and_self]

theorem renormalize_c_lt (fuel : Nat) (d d1 : Decoder) (u : Unit)
    (h : d.renormalize fuel = (.ok u, d1)) : d1.c < 2 ^ 32 := by
  unfold Decoder.renormalize at h
  split at h
  · simp at h
  · injection h with _ h
    subst h
    simp only [and_mask32]
    exact Nat.mod_lt _ (by norm_num)

/-- A successful `DecodeBit` keeps `c` below `2^32`. -/
theorem DecodeBit_c_lt (fuel : Nat) (d d1 : Decoder) (stats stats1 : DecoderStats) (bit : Nat)
    (hc : d.c < 2 ^ 32) (h : d.DecodeBit fuel stats = (.ok bit, d1, stats1)) :
    d1.c < 2 ^ 32 := by
  unfold Decoder.DecodeBit at h
  split at h
  · simp at h
  · split at h
    · simp at h
    · simp only at h
      split at h
      · split at h
        · simp at h
        · split at h
          · simp at h
          · rename_i u d3 hr
            injection h with _ h
            injection h with h _
            subst h
            exact renormalize_c_lt fuel _ d3 u hr
      · split at h
        · split at h
          · simp at h
          · split at h
            · simp at h
            · rename_i u d3 hr
              injection h with _ h
              injection h with h _
              subst h
              exact renormalize_c_lt fuel _ d3 u hr
        · split at h
          · simp at h
          · injection h with _ h
            injection h with h _
            subst h
            simp only
            omega

theorem session_c (d : Decoder) (h : Session d) : d.c < 2 ^ 32 := by
  have hbit : ∀ (fuel : Nat) (d : Decoder) (stats : DecoderStats) (bit : Nat) (d1 : Decoder)
      (s1 : DecoderStats), d.c < 2 ^ 32 → d.DecodeBit fuel stats = (.ok bit, d1, s1) →
      d1.c < 2 ^ 32 :=
    fun fuel d stats bit d1 s1 hd hs => DecodeBit_c_lt fuel d d1 stats s1 bit hd hs
  have hprev : ∀ (d : Decoder) (p : Nat), d.c < 2 ^ 32 →
      ({ d with previous := p } : Decoder).c < 2 ^ 32 := fun _ _ hd => hd
  induction h with
  | init r d hnew => exact New_c r d hnew
  | bit fuel d stats bit d1 stats1 _ hstep ih => exact hbit fuel d stats bit d1 stats1 ih hstep
  | int fuel d stats v d1 stats1 _ hstep ih =>
    have := keeps_DecodeInt (P := fun d => d.c < 2 ^ 32) (hbit fuel) hprev stats d ih
    rw [hstep] at this
    exact this
  | iaid fuel d codeLen stats v d1 stats1 _ hstep ih =>
    have := keeps_DecodeIAID (P := fun d => d.c < 2 ^ 32) (hbit fuel) hprev codeLen stats d ih
    rw [hstep] at this
    exact this
  | previous d p _ ih => exact ih

/-- The decoder of a run is in a session. -/
theorem run_session (log : List Decoder) (d : Decoder) (h : Run log d) : Session d := by
  induction h with
  | init r e d _ hnew => exact Session.init r d hnew
  | step fuel log d stats bit d1 stats1 _ hstep ih =>
    exact Session.bit fuel d stats bit d1 stats1 ih hstep
  | previous log d p _ ih => exact Session.previous d p ih

/-- A run followed by `DecodeInt` (of any outcome): after a success the decoder is that of a
run whose log extends the log of the run; after a failure, the failure is that of a
`DecodeBit` call made from such a run. -/
theorem run_DecodeInt (log : List Decoder) (d : Decoder) (fuel : Nat)
    (stats : Option DecoderStats) (h : Run log d) :
    CallOutcome (fun d1 => ∃ log1, Run (log ++ log1) d1) fuel (d.DecodeInt fuel stats) :=
  keeps_DecodeInt (P := fun d1 => ∃ log1, Run (log ++ log1) d1)
    (fun d0 st bit d1 s1 hd hs => by
      obtain ⟨log1, hr⟩ := hd
      refine ⟨log1 ++ d0.byteIns fuel st, ?_⟩
      rw [← List.append_assoc]
      exact Run.step fuel _ d0 st bit d1 s1 hr hs)
    (fun d0 p hd => by
      obtain ⟨log1, hr⟩ := hd
      exact ⟨log1, Run.previous _ d0 p hr⟩)
    stats d ⟨[], by rw [List.append_nil]; exact h⟩

/-- A run followed by `DecodeIAID` (of any outcome): as for `DecodeInt`. -/
theorem run_DecodeIAID (log : List Decoder) (d : Decoder) (fuel codeLen : Nat)
    (stats : DecoderStats) (h : Run log d) :
    CallOutcome (fun d1 => ∃ log1, Run (log ++ log1) d1) fuel
      (d.DecodeIAID fuel codeLen stats) :=
  keeps_DecodeIAID (P := fun d1 => ∃ log1, Run (log ++ log1) d1)
    (fun d0 st bit d1 s1 hd hs => by
      obtain ⟨log1, hr⟩ := hd
      refine ⟨log1 ++ d0.byteIns fuel st, ?_⟩
      rw [← List.append_assoc]
      exact Run.step fuel _ d0 st bit d1 s1 hr hs)
    (fun d0 p hd => by
      obtain ⟨log1, hr⟩ := hd
      exact ⟨log1, Run.previous _ d0 p hr⟩)
    codeLen stats d ⟨[], by rw [List.append_nil]; exact h⟩

/-- The log of a run is a trail that starts with the reader invariant and ends with the
reader of the current state. -/
theorem run_trail (log : List Decoder) (d : Decoder) (h : Run log d) :
    ∃ (r0 : Reader) (sp0 : Int), ReaderInv r0 sp0 ∧ Trail r0 sp0 log d.r d.streamPosition := by
  induction h with
  | init r e d he hnew =>
    obtain ⟨h1, h2, h3⟩ := New_trail r e d he hnew
    exact ⟨e.r, e.streamPosition, h1, rfl, rfl, h2, h3⟩
  | step fuel log d stats bit d1 stats1 _ hstep ih =>
    obtain ⟨r0, sp0, hi, ht⟩ := ih
    refine ⟨r0, sp0, hi, ?_⟩
    have h := DecodeBit_trail fuel d stats
    rw [hstep] at h
    exact trail_append _ _ _ _ _ _ _ _ ht h
  | previous log d p _ ih => exact ih

theorem ReadByte_lt (r r1 : Reader) (b : Nat) (h : r.ReadByte = (.ok b, r1)) : b < 256 := by
  unfold Reader.ReadByte at h
  split at h
  · rename_i x _
    injection h with h _
    injection h with h
    subst h
    exact x.isLt
  · simp at h

/-- A successful byte-in adds less than `2^17` to `c`. -/
theorem readByte_c_le (d d0 : Decoder) (u : Unit) (h : d.readByte = (.ok u, d0)) :
    d0.c ≤ d.c + 0x20000 := by
  have m40 : ∀ x : Nat, (x % 2 ^ 64) &&& 0xFFFFFFFFFF = x % 2 ^ 40 := fun x => by
    rw [and_mask40]; exact Nat.mod_mod_of_dvd x (by norm_num)
  unfold Decoder.readByte at h
  split at h
  · simp at h
  · split at h
    · simp at h
    · split at h
      · split at h
        · simp at h
        · rename_i b1 r3 hb1
          have hlt := ReadByte_lt _ _ _ hb1
          split at h
          · split at h
            · simp at h
            · injection h with _ h
              subst h
              simp only [m40]
              exact le_trans (Nat.mod_le _ _) (by omega)
          · rename_i hle
            injection h with _ h
            subst h
            simp only [m40, Nat.shiftLeft_eq]
            exact le_trans (Nat.mod_le _ _) (by omega)
      · split at h
        · simp at h
        · rename_i b2 r3 hb2
          have hlt := ReadByte_lt _ _ _ hb2
          injection h with _ h
          subst h
          simp only [m40, Nat.shiftLeft_eq]
          exact le_trans (Nat.mod_le _ _) (by omega)

/-- In the loop of `renormalize`, entered with `0 < a < 0x8000` and `c + 2^18 <= a * 2^20`,
every byte-in is called with `c` below `2^35`. -/
theorem renormalizeByteIns_c : ∀ (fuel : Nat) (d : Decoder), 0 < d.a → d.a < 0x8000 →
    d.c + 2 ^ 18 ≤ d.a * 2 ^ 20 → ∀ e ∈ renormalizeByteIns fuel d, e.c < 2 ^ 35
  | 0, d, _, _, _ => by simp [renormalizeByteIns]
  | fuel + 1, d, h0, h1, h2 => by
    have hd : d.c < 2 ^ 35 := by omega
    have hstep : ∀ d0 : Decoder, d0.a = d.a → d0.c ≤ d.c + 0x20000 →
        ∀ e ∈ (if ((d0.a <<< 1) % 2 ^ 32) &&& 0x8000 ≠ 0 then []
          else renormalizeByteIns fuel
            { d0 with a := (d0.a <<< 1) % 2 ^ 32, c := (d0.c <<< 1) % 2 ^ 64,
                      ct := d0.ct - 1 }), e.c < 2 ^ 35 := by
      intro d0 ha hc e he
      split at he
      · simp at he
      · rename_i hne
        have hbit := and_0x8000 (d0.a <<< 1 % 2 ^ 32)
        simp only [Nat.shiftLeft_eq, pow_one] at hbit hne
        have hz : (d0.a * 2 % 2 ^ 32) &&& 0x8000 = 0 := by simpa using hne
        refine renormalizeByteIns_c fuel _ ?_ ?_ ?_ e he
        · simp only [Nat.shiftLeft_eq, pow_one]; omega
        · simp only [Nat.shiftLeft_eq, pow_one]; omega
        · simp only [Nat.shiftLeft_eq, pow_one]; omega
    intro e he
    simp only [renormalizeByteIns] at he
    by_cases hct : d.ct = 0
    · simp only [if_pos hct] at he
      generalize hrb : d.readByte = rb at he
      obtain ⟨res, d0⟩ := rb
      cases res with
      | error x =>
        simp only [List.singleton_append, List.mem_singleton] at he
        subst he
        exact hd
      | ok u =>
        simp only [List.singleton_append, List.mem_cons] at he
        rcases he with he | he
        · subst he
          exact hd
        · have ha : d0.a = d.a := by
            have := readByte_a d
            rw [hrb] at this
            exact this
          exact hstep d0 ha (readByte_c_le d d0 u hrb) e he
    · simp only [if_neg hct, List.nil_append] at he
      exact hstep d rfl (by omega) e he

/-- In a session, every byte-in of a `DecodeBit` call is entered with `c` below `2^35`. -/
theorem byteIns_c (fuel : Nat) (d : Decoder) (stats : DecoderStats) (h : Session d) :
    ∀ e ∈ d.byteIns fuel stats, e.c < 2 ^ 35 := by
  obtain ⟨hlo, hhi⟩ := session_range d h
  have hc := session_c d h
  unfold Decoder.byteIns
  cases he : d.renormalizeEntry stats with
  | none => simp
  | some e =>
    obtain ⟨-, -, row, hmem, hcase⟩ := renormalizeEntry_frame d e stats he
    obtain ⟨hq0, hq1, -⟩ := qe_rows row hmem
    have hbit := and_0x8000 e.a
    simp only
    rcases hcase with ⟨ha, hec, hlt⟩ | ⟨ha, hz, hec⟩
    · have hsh : d.c / 2 ^ 16 < row.1 := by rwa [Nat.shiftRight_eq_div_pow] at hlt
      have : d.c < row.1 * 2 ^ 16 := by
        have := Nat.lt_of_div_lt_div (show d.c / 2 ^ 16 < (row.1 * 2 ^ 16) / 2 ^ 16 by
          rw [Nat.mul_div_cancel _ (by norm_num)]; exact hsh)
        exact this
      exact renormalizeByteIns_c fuel e (by omega) (by omega) (by omega)
    · exact renormalizeByteIns_c fuel e (by omega) (by omega) (by omega)

theorem initByteIn_c (r : Reader) (e : Decoder) (h : initByteIn r = some e) : e.c < 2 ^ 35 := by
  unfold initByteIn at h
  split at h
  · simp at h
  · rename_i b r1 hb
    have hlt := ReadByte_lt _ _ _ hb
    injection h with h
    subst h
    simp only [Nat.shiftLeft_eq]
    omega

theorem run_c (log : List Decoder) (d : Decoder) (h : Run log d) : ∀ e ∈ log, e.c < 2 ^ 35 := by
  induction h with
  | init r e d he _ =>
    intro x hx
    rw [List.mem_singleton] at hx
    subst hx
    exact initByteIn_c r x he
  | step fuel log d stats bit d1 stats1 hrun _ ih =>
    intro x hx
    rcases List.mem_append.1 hx with hx | hx
    · exact ih x hx
    · exact byteIns_c fuel d stats (run_session log d hrun) x hx
  | previous log d p _ ih => exact ih

/-- C17. The end-of-data marker is absorbing. In a run started by `New` (`Run log d`: `New`,
then successful `DecodeBit` calls and updates of `previous`, `log` listing the byte-in calls
in order) followed by one more `DecodeBit` call of any outcome, let `e` be a byte-in call
that finds the marker at offset `q` (the first byte it reads is at `q`, it is `0xFF` and the
next byte is above `0x8F`), and let `post` be the byte-in calls made after it. Every call
`e1` of `post` succeeds, leaves `c = c + 0xFF00` exactly and `ct = 8`, leaves the reader at
`q` or `q + 1`, and reads its first byte at `q` or `q - 1`: the byte it feeds to `c` is the
constant of the marker or the byte at `q`, never a byte at or beyond `q + 1`. The marker is
still in the buffer at `q`, and the reader left to the caller is at `q` or `q + 1`.
Runs cover the sessions that use `DecodeInt` and `DecodeIAID`: from the decoder of a run, a
successful `DecodeInt` or `DecodeIAID` leaves the decoder of a run whose log extends `log`,
and a failed one fails in a `DecodeBit` call made from the decoder of such a run. -/
theorem marker_absorbing (log : List Decoder) (d : Decoder) (fuel : Nat) (stats : DecoderStats)
    (pre post : List Decoder) (e : Decoder) (q : Nat)
    (hrun : Run log d) (hsplit : log ++ d.byteIns fuel stats = pre ++ e :: post)
    (hq : e.byteInOffset = q) (hm : MarkerAt e.r.data q) :
    (∀ e1 ∈ post, e1.readByte = (.ok (), e1.readByte.2) ∧
      e1.readByte.2.c = e1.c + 0xFF00 ∧ e1.readByte.2.ct = 8 ∧
      (e1.readByte.2.r.pos = q ∨ e1.readByte.2.r.pos = q + 1) ∧
      (e1.byteInOffset = q ∨ e1.byteInOffset + 1 = q) ∧
      MarkerAt e1.readByte.2.r.data q) ∧
    ((d.DecodeBit fuel stats).2.1.r.pos = q ∨ (d.DecodeBit fuel stats).2.1.r.pos = q + 1) ∧
    MarkerAt (d.DecodeBit fuel stats).2.1.r.data q ∧
    (∀ (f : Nat) (st : Option DecoderStats),
      CallOutcome (fun d1 => ∃ log1, Run (log ++ log1) d1) f (d.DecodeInt f st)) ∧
    (∀ (f codeLen : Nat) (st : DecoderStats),
      CallOutcome (fun d1 => ∃ log1, Run (log ++ log1) d1) f (d.DecodeIAID f codeLen st)) := by
  obtain ⟨r0, sp0, hi, ht⟩ := run_trail log d hrun
  have hfull := trail_append _ _ _ _ _ _ _ _ ht (DecodeBit_trail fuel d stats)
  rw [hsplit] at hfull
  obtain ⟨h1, h2⟩ := trail_split pre post e _ _ _ _ hfull
  have hie : ReaderInv e.r e.streamPosition := trail_inv pre _ _ _ _ h1 hi
  have hab := found_absorbed e q hie hq hm
  obtain ⟨hall, hend⟩ := trail_absorbed q post _ _ _ _ h2 hab
  have hcs : ∀ x ∈ log ++ d.byteIns fuel stats, x.c < 2 ^ 35 := by
    intro x hx
    rcases List.mem_append.1 hx with hx | hx
    · exact run_c log d hrun x hx
    · exact byteIns_c fuel d stats (run_session log d hrun) x hx
  refine ⟨?_, ?_, ?_, fun f st => run_DecodeInt log d f st hrun,
    fun f codeLen st => run_DecodeIAID log d f codeLen st hrun⟩
  · intro e1 he1
    obtain ⟨k1, k2, k3, k4, k5, k6⟩ := absorbed_readByte e1 q (hall e1 he1)
    have hc1 : e1.c < 2 ^ 35 := by
      apply hcs
      rw [hsplit]
      exact List.mem_append_right _ (List.mem_cons_of_mem _ he1)
    refine ⟨k1, ?_, k3, k4, k5, ?_⟩
    · rw [k2]
      exact Nat.mod_eq_of_lt (by omega)
    · obtain ⟨s, _, hmk, _⟩ := k6
      exact hmk
  · obtain ⟨s, _, _, hp⟩ := hend
    rcases hp with ⟨hp, _⟩ | ⟨_, _, hp | hp⟩
    · exact Or.inl hp
    · exact Or.inl hp
    · exact Or.inr hp
  · obtain ⟨s, _, hmk, _⟩ := hend
    exact hmk

/-- Witness of C17: the buffer `FF AC` and the first bit decoding of a `DecodeInt` after
`New`. The byte-in of `init` finds the marker at offset 0; `DecodeInt` sets `previous` to 1
and calls `DecodeBit` on the slot 1 of its table, which renormalizes by two shifts and
calls byte-in once, with `a = 0x53FE`, `c = 0x53FD0000`. -/
theorem marker_absorbing_witness :
    (∀ e1 ∈ [({ mkDecoder [0xFF, 0xAC] 0 0x53FE 0x53FD0000 0 with
        b := 0xFF, previous := 1, prvCtr := 1 } : Decoder)],
      e1.readByte = (.ok (), e1.readByte.2) ∧
      e1.readByte.2.c = e1.c + 0xFF00 ∧ e1.readByte.2.ct = 8 ∧
      (e1.readByte.2.r.pos = 0 ∨ e1.readByte.2.r.pos = 0 + 1) ∧
      (e1.byteInOffset = 0 ∨ e1.byteInOffset + 1 = 0) ∧
      MarkerAt e1.readByte.2.r.data 0) ∧
    ((({ mkDecoder [0xFF, 0xAC] 0 0x8000 0x7FFF8000 1 with
        b := 0xFF, previous := 1, prvCtr := 1 } : Decoder).DecodeBit 15
          ((NewStats 16 0).SetIndex 1)).2.1.r.pos = 0 ∨
     (({ mkDecoder [0xFF, 0xAC] 0 0x8000 0x7FFF8000 1 with
        b := 0xFF, previous := 1, prvCtr := 1 } : Decoder).DecodeBit 15
          ((NewStats 16 0).SetIndex 1)).2.1.r.pos = 0 + 1) ∧
    MarkerAt (({ mkDecoder [0xFF, 0xAC] 0 0x8000 0x7FFF8000 1 with
        b := 0xFF, previous := 1, prvCtr := 1 } : Decoder).DecodeBit 15
          ((NewStats 16 0).SetIndex 1)).2.1.r.data 0 ∧
    (∀ (f : Nat) (st : Option DecoderStats),
      CallOutcome
        (fun d1 => ∃ log1,
          Run ([({ mkDecoder [0xFF, 0xAC] 1 0 0xFF0000 0 with b := 0xFF } : Decoder)] ++ log1)
            d1) f
        (({ mkDecoder [0xFF, 0xAC] 0 0x8000 0x7FFF8000 1 with
          b := 0xFF, previous := 1, prvCtr := 1 } : Decoder).DecodeInt f st)) ∧
    (∀ (f codeLen : Nat) (st : DecoderStats),
      CallOutcome
        (fun d1 => ∃ log1,
          Run ([({ mkDecoder [0xFF, 0xAC] 1 0 0xFF0000 0 with b := 0xFF } : Decoder)] ++ log1)
            d1) f
        (({ mkDecoder [0xFF, 0xAC] 0 0x8000 0x7FFF8000 1 with
          b := 0xFF, previous := 1, prvCtr := 1 } : Decoder).DecodeIAID f codeLen st)) :=
  marker_absorbing [{ mkDecoder [0xFF, 0xAC] 1 0 0xFF0000 0 with b := 0xFF }]
    { mkDecoder [0xFF, 0xAC] 0 0x8000 0x7FFF8000 1 with b := 0xFF, previous := 1, prvCtr := 1 }
    15 ((NewStats 16 0).SetIndex 1) []
    [{ mkDecoder [0xFF, 0xAC] 0 0x53FE 0x53FD0000 0 with
       b := 0xFF, previous := 1, prvCtr := 1 }]
    { mkDecoder [0xFF, 0xAC] 1 0 0xFF0000 0 with b := 0xFF } 0
    (Run.previous _ { mkDecoder [0xFF, 0xAC] 0 0x8000 0x7FFF8000 1 with b := 0xFF, prvCtr := 1 } 1
      (Run.init ⟨[0xFF, 0xAC], 0⟩ _ _ rfl rfl))
    rfl rfl ⟨0xFF, 0xAC, rfl, rfl, rfl, by decide⟩

end Arithmetic

/-! ## Standard Huffman tables: the range of table numbers -/

namespace Huffman

/-- C15. For every integer `n`, `GetStandardTable(n)` fails (with InvalidTableIndex) when
`n <= 0` or `n` exceeds the number of defined standard tables, and for every `n` from 1 to
that number it succeeds and the table it returns has a root node. -/
theorem GetStandardTable_range (tables : List (List (Line × Nat))) (n : Int) :
    ((n ≤ 0 ∨ n > (tables.length : Int)) ↔
      GetStandardTable tables n = .error .invalidTableIndex) ∧
    ((1 ≤ n ∧ n ≤ (tables.length : Int)) ↔
      ∃ t, GetStandardTable tables n = .ok t ∧ t.rootNode ≠ none) := by
  by_cases h : n ≤ 0 ∨ n > (tables.length : Int)
  · have hg : GetStandardTable tables n = .error .invalidTableIndex := by
      unfold GetStandardTable
      rw [if_pos h]
    refine ⟨⟨fun _ => hg, fun _ => h⟩, ⟨fun h1 => ?_, fun h1 => ?_⟩⟩
    · omega
    · obtain ⟨t, ht, _⟩ := h1
      rw [hg] at ht
      cases ht
  · have hlt : (n - 1).toNat < tables.length := by omega
    have hg : GetStandardTable tables n = .ok (newStandardTable tables[(n - 1).toNat]) := by
      unfold GetStandardTable
      rw [if_neg h, List.getElem?_eq_getElem hlt]
    refine ⟨⟨fun h1 => absurd h1 h, fun h1 => ?_⟩, ⟨fun _ => ?_, fun _ => by omega⟩⟩
    · rw [hg] at h1
      cases h1
    · exact ⟨_, hg, by simp [newStandardTable]⟩

end Huffman

/-! ## The PostScript function parser: signs in numbers -/

namespace PS

/-- C20 (the code at the failing input). On the input `1-2`, whatever the digits are besides
`1` and `2`, `parseNumber` reads all three bytes: the sign after the digit is taken into
`numStr`, because `allowSigns` is still set when a digit has been read, and nothing is left
unread. -/
theorem parseNumber_sign_after_digit {α : Type} (IsDecimalDigit : Fin 256 → Bool)
    (convert : List (Fin 256) → Bool → α)
    (h1 : IsDecimalDigit 0x31 = true) (h2 : IsDecimalDigit 0x32 = true) :
    parseNumber IsDecimalDigit convert [0x31, 0x2D, 0x32] =
      (convert [0x31, 0x2D, 0x32] false, []) := by
  have hloop : parseNumberLoop IsDecimalDigit [0x31, 0x2D, 0x32] false true [] =
      ([0x31, 0x2D, 0x32], false, []) := by
    simp [parseNumberLoop, h1, h2]
  unfold parseNumber
  rw [hloop]

/-- Witness of C20: the digits `0` to `9`, and the conversion that returns the text read. -/
theorem parseNumber_sign_after_digit_witness :
    parseNumber (fun b => decide (0x30 ≤ b.val ∧ b.val ≤ 0x39)) (fun s f => (s, f))
      [0x31, 0x2D, 0x32] = (([0x31, 0x2D, 0x32], false), []) :=
  parseNumber_sign_after_digit _ _ (by decide) (by decide)

/-! ## The PostScript function parser: termination -/

theorem skipSpaces_suffix (W : Fin 256 → Bool) : ∀ (input : List (Fin 256)) (cnt : Nat),
    (skipSpaces W input cnt).2 <:+ input
  | [], _ => by simp [skipSpaces]
  | b :: rest, cnt => by
    simp only [skipSpaces]
    split
    · exact (skipSpaces_suffix W rest (cnt + 1)).trans (List.suffix_cons b rest)
    · exact List.suffix_refl _

theorem parseNumberLoop_suffix (D : Fin 256 → Bool) : ∀ (input : List (Fin 256))
    (isFloat allowSigns : Bool) (numStr : List (Fin 256)),
    (parseNumberLoop D input isFloat allowSigns numStr).2.2 <:+ input
  | [], _, _, _ => by simp [parseNumberLoop]
  | b :: rest, isFloat, allowSigns, numStr => by
    simp only [parseNumberLoop]
    split
    · exact (parseNumberLoop_suffix D rest _ _ _).trans (List.suffix_cons b rest)
    · split
      · exact (parseNumberLoop_suffix D rest _ _ _).trans (List.suffix_cons b rest)
      · split
        · exact (parseNumberLoop_suffix D rest _ _ _).trans (List.suffix_cons b rest)
        · split
          · exact (parseNumberLoop_suffix D rest _ _ _).trans (List.suffix_cons b rest)
          · exact List.suffix_refl _

/-- What `parseNumber` leaves unread is the end of its input, and it is shorter than the
input when the input starts with a digit or with `-`. -/
theorem parseNumber_rest {α : Type} (D : Fin 256 → Bool) (convert : List (Fin 256) → Bool → α)
    (input : List (Fin 256)) :
    (parseNumber D convert input).2 <:+ input ∧
    (∀ b rest, input = b :: rest → (D b = true ∨ b = 0x2D) →
      (parseNumber D convert input).2.length < input.length) := by
  have hrest : (parseNumber D convert input).2 = (parseNumberLoop D input false true []).2.2 := by
    unfold parseNumber
    rfl
  rw [hrest]
  refine ⟨parseNumberLoop_suffix D input _ _ _, ?_⟩
  intro b rest hin hb
  subst hin
  simp only [parseNumberLoop]
  have hlen : ∀ f a s, (parseNumberLoop D rest f a s).2.2.length < (b :: rest).length :=
    fun f a s => Nat.lt_succ_of_le (parseNumberLoop_suffix D rest f a s).length_le
  split
  · exact hlen _ _ _
  · rename_i hs
    split
    · exact hlen _ _ _
    · rename_i hd
      rcases hb with hb | hb
      · exact absurd hb hd
      · exfalso
        apply hs
        simp [hb]

theorem parseBool_rest (input : List (Fin 256)) :
    (parseBool input).2 <:+ input ∧
    (∀ v, (parseBool input).1 = .ok v → (parseBool input).2.length < input.length) := by
  unfold parseBool
  split
  · exact ⟨List.suffix_refl _, fun v hv => by cases hv⟩
  · rename_i h4
    split
    · refine ⟨List.drop_suffix 4 input, fun _ _ => ?_⟩
      simp only [List.length_drop]
      omega
    · split
      · exact ⟨List.suffix_refl _, fun v hv => by cases hv⟩
      · split
        · refine ⟨List.drop_suffix 5 input, fun _ _ => ?_⟩
          simp only [List.length_drop]
          omega
        · exact ⟨List.suffix_refl _, fun v hv => by cases hv⟩

theorem parseOperandLoop_rest (L W : Fin 256 → Bool) : ∀ (input bytes : List (Fin 256)),
    (parseOperandLoop L W input bytes).2 <:+ input ∧
    (parseOperandLoop L W input bytes).1.length + (parseOperandLoop L W input bytes).2.length =
      bytes.length + input.length
  | [], bytes => by simp [parseOperandLoop]
  | b :: rest, bytes => by
    simp only [parseOperandLoop]
    split
    · exact ⟨List.suffix_refl _, rfl⟩
    · split
      · exact ⟨List.suffix_refl _, rfl⟩
      · obtain ⟨h1, h2⟩ := parseOperandLoop_rest L W rest (bytes ++ [b])
        refine ⟨h1.trans (List.suffix_cons b rest), ?_⟩
        rw [h2]
        simp only [List.length_append, List.length_cons, List.length_nil]
        omega

theorem parseOperand_rest {ν : Type} (h : Helpers ν) (input : List (Fin 256)) :
    (parseOperand h input).2 <:+ input ∧
    (∀ v, (parseOperand h input).1 = .ok v → (parseOperand h input).2.length < input.length) := by
  obtain ⟨h1, h2⟩ := parseOperandLoop_rest h.IsDelimiter h.IsWhiteSpace input []
  unfold parseOperand
  generalize parseOperandLoop h.IsDelimiter h.IsWhiteSpace input [] = res at h1 h2
  obtain ⟨bytes, rest⟩ := res
  simp only at h1 h2 ⊢
  split
  · exact ⟨h1, fun v hv => by cases hv⟩
  · rename_i hb
    refine ⟨h1, fun _ _ => ?_⟩
    show rest.length < input.length
    simp only [List.length_nil] at h2
    omega

/-- One iteration of the loop of `parseFunction`, the nested call leaving the end of its
input and a shorter one when it succeeds. What is left unread is the end of the input; an
iteration after which the loop goes on has read at least one byte; and a cut-off returned
by the iteration is the cut-off of a nested call made on an input that starts with `{`. -/
theorem loopBody_spec {ν : Type} (h : Helpers ν)
    (nested : List (Fin 256) → Except Err (List (PSObject ν)) × List (Fin 256))
    (input : List (Fin 256)) (objs : List (PSObject ν))
    (hn : ∀ i, (nested i).2 <:+ i ∧ ∀ f, (nested i).1 = .ok f → (nested i).2.length < i.length) :
    (∀ res rest, loopBody h nested input objs = .done res rest → rest <:+ input ∧
      ∀ e, res = .error e → e = .outOfFuel ∨ e = .depthExceeded →
        ∃ i, i <:+ input ∧ i.head? = some 0x7B ∧ (nested i).1 = .error e) ∧
    (∀ objs1 rest, loopBody h nested input objs = .next objs1 rest →
      rest <:+ input ∧ rest.length < input.length) := by
  have hs := skipSpaces_suffix h.IsWhiteSpace input 0
  unfold loopBody
  generalize (skipSpaces h.IsWhiteSpace input 0).2 = input1 at hs ⊢
  have hl := hs.length_le
  rcases input1 with _ | ⟨b0, _ | ⟨b1, rest⟩⟩
  · refine ⟨fun res rest heq => ?_, fun _ _ heq => by cases heq⟩
    injection heq with h1 h2
    subst h1; subst h2
    exact ⟨hs, fun e he => by cases he⟩
  · refine ⟨fun res rest heq => ?_, fun _ _ heq => by cases heq⟩
    injection heq with h1 h2
    subst h1; subst h2
    exact ⟨hs, fun e he => by cases he⟩
  · simp only
    have hbool : ∀ (mk : Bool → List (PSObject ν)),
        (∀ res rest0, (match parseBool (b0 :: b1 :: rest) with
            | (.error e, r) => Step.done (.error e) r
            | (.ok b, r) => Step.next (mk b) r) = .done res rest0 → rest0 <:+ input ∧
          ∀ e, res = .error e → e = .outOfFuel ∨ e = .depthExceeded →
            ∃ i, i <:+ input ∧ i.head? = some 0x7B ∧ (nested i).1 = .error e) ∧
        (∀ objs1 rest0, (match parseBool (b0 :: b1 :: rest) with
            | (.error e, r) => Step.done (.error e) r
            | (.ok b, r) => Step.next (mk b) r) = .next objs1 rest0 →
          rest0 <:+ input ∧ rest0.length < input.length) := by
      intro mk
      obtain ⟨k1, k2⟩ := parseBool_rest (b0 :: b1 :: rest)
      have kerr : ∀ e, (parseBool (b0 :: b1 :: rest)).1 = .error e →
          e ≠ .outOfFuel ∧ e ≠ .depthExceeded := by
        intro e he
        unfold parseBool at he
        repeat' split at he
        all_goals first
          | (injection he with he; subst he; exact ⟨by decide, by decide⟩)
          | cases he
      generalize parseBool (b0 :: b1 :: rest) = pb at k1 k2 kerr
      obtain ⟨r1, r2⟩ := pb
      cases r1 with
      | error e =>
        refine ⟨fun res rest0 heq => ?_, fun _ _ heq => by cases heq⟩
        injection heq with h1 h2
        subst h1; subst h2
        refine ⟨k1.trans hs, fun e1 he1 hc => ?_⟩
        injection he1 with he1
        subst he1
        obtain ⟨n1, n2⟩ := kerr e rfl
        rcases hc with hc | hc
        · exact absurd hc n1
        · exact absurd hc n2
      | ok v =>
        refine ⟨fun _ _ heq => (by cases heq), fun objs1 rest0 heq => ?_⟩
        injection heq with h1 h2
        subst h1; subst h2
        have := k2 v rfl
        exact ⟨k1.trans hs, by simp only at this; omega⟩
    split
    · -- closing brace
      refine ⟨fun res rest0 heq => ?_, fun _ _ heq => by cases heq⟩
      injection heq with h1 h2
      subst h1; subst h2
      exact ⟨((List.suffix_cons b0 (b1 :: rest)).trans hs), fun e he => by cases he⟩
    · split
      · -- nested function
        rename_i hb0
        obtain ⟨k1, k2⟩ := hn (b0 :: b1 :: rest)
        generalize hres : nested (b0 :: b1 :: rest) = res0 at k1 k2
        obtain ⟨r1, r2⟩ := res0
        cases r1 with
        | error e =>
          refine ⟨fun res rest0 heq => ?_, fun _ _ heq => by cases heq⟩
          injection heq with h1 h2
          subst h1; subst h2
          refine ⟨k1.trans hs, fun e1 he1 _ => ?_⟩
          injection he1 with he1
          subst he1
          exact ⟨b0 :: b1 :: rest, hs, by simp [hb0], by rw [hres]⟩
        | ok v =>
          refine ⟨fun _ _ heq => (by cases heq), fun objs1 rest0 heq => ?_⟩
          injection heq with h1 h2
          subst h1; subst h2
          have := k2 v rfl
          exact ⟨k1.trans hs, by simp only at this; omega⟩
      · split
        · -- number
          rename_i hnum
          obtain ⟨k1, k2⟩ := parseNumber_rest h.IsDecimalDigit h.convert (b0 :: b1 :: rest)
          have k3 := k2 b0 (b1 :: rest) rfl (by
            rcases hnum with hd | ⟨hm, _⟩
            · exact Or.inl hd
            · exact Or.inr hm)
          generalize parseNumber h.IsDecimalDigit h.convert (b0 :: b1 :: rest) = pn at k1 k3
          obtain ⟨r1, r2⟩ := pn
          cases r1 with
          | none =>
            refine ⟨fun res rest0 heq => ?_, fun _ _ heq => by cases heq⟩
            injection heq with h1 h2
            subst h1; subst h2
            refine ⟨k1.trans hs, fun e1 he1 hc => ?_⟩
            injection he1 with he1
            subst he1
            rcases hc with hc | hc <;> cases hc
          | some v =>
            refine ⟨fun _ _ heq => (by cases heq), fun objs1 rest0 heq => ?_⟩
            injection heq with h1 h2
            subst h1; subst h2
            exact ⟨k1.trans hs, by simp only at k3; omega⟩
        · split
          · exact hbool _
          · split
            · exact hbool _
            · -- operand
              obtain ⟨k1, k2⟩ := parseOperand_rest h (b0 :: b1 :: rest)
              have kerr : ∀ e, (parseOperand h (b0 :: b1 :: rest)).1 = .error e →
                  e = .emptyOperand := by
                intro e he
                unfold parseOperand at he
                split at he
                split at he
                · injection he with he
                  exact he.symm
                · cases he
              generalize parseOperand h (b0 :: b1 :: rest) = po at k1 k2 kerr
              obtain ⟨r1, r2⟩ := po
              cases r1 with
              | error e =>
                refine ⟨fun res rest0 heq => ?_, fun _ _ heq => by cases heq⟩
                injection heq with h1 h2
                subst h1; subst h2
                refine ⟨k1.trans hs, fun e1 he1 hc => ?_⟩
                injection he1 with he1
                subst he1
                have := kerr e rfl
                subst this
                rcases hc with hc | hc <;> cases hc
              | ok v =>
                refine ⟨fun _ _ heq => (by cases heq), fun objs1 rest0 heq => ?_⟩
                injection heq with h1 h2
                subst h1; subst h2
                have := k2 v rfl
                exact ⟨k1.trans hs, by simp only at this; omega⟩

/-- The loop of `parseFunction` leaves the end of its input unread; when it is cut off, either
its own fuel did not exceed the length of the input, or the cut-off is that of a nested
call on an end of the input that starts with `{`. -/
theorem parseFunctionLoop_spec {ν : Type} (h : Helpers ν)
    (nested : List (Fin 256) → Except Err (List (PSObject ν)) × List (Fin 256))
    (hn : ∀ i, (nested i).2 <:+ i ∧ ∀ f, (nested i).1 = .ok f → (nested i).2.length < i.length) :
    ∀ (fuel : Nat) (input : List (Fin 256)) (objs : List (PSObject ν)),
    (parseFunctionLoop h nested fuel input objs).2 <:+ input ∧
    ∀ e, (parseFunctionLoop h nested fuel input objs).1 = .error e →
      e = .outOfFuel ∨ e = .depthExceeded →
      (e = .outOfFuel ∧ fuel ≤ input.length) ∨
      ∃ i, i <:+ input ∧ i.head? = some 0x7B ∧ (nested i).1 = .error e
  | 0, input, objs => by
    simp only [parseFunctionLoop]
    refine ⟨List.suffix_refl _, fun e he _ => Or.inl ⟨?_, Nat.zero_le _⟩⟩
    injection he with he
    exact he.symm
  | fuel + 1, input, objs => by
    obtain ⟨hdone, hnext⟩ := loopBody_spec h nested input objs hn
    simp only [parseFunctionLoop]
    cases hb : loopBody h nested input objs with
    | done res rest =>
      obtain ⟨k1, k2⟩ := hdone res rest hb
      exact ⟨k1, fun e he hc => Or.inr (k2 e he hc)⟩
    | next objs1 rest =>
      obtain ⟨k1, k2⟩ := hnext objs1 rest hb
      obtain ⟨j1, j2⟩ := parseFunctionLoop_spec h nested hn fuel rest objs1
      refine ⟨j1.trans k1, fun e he hc => ?_⟩
      rcases j2 e he hc with ⟨q1, q2⟩ | ⟨i, q1, q2, q3⟩
      · exact Or.inl ⟨q1, by omega⟩
      · exact Or.inr ⟨i, q1.trans k1, q2, q3⟩

/-- What `parseFunction` leaves unread is the end of its input, and it is shorter than the
input when the function succeeds. -/
theorem parseFunction_rest {ν : Type} (h : Helpers ν) (fuel : Nat) :
    ∀ (depth : Nat) (input : List (Fin 256)),
    (parseFunction h depth fuel input).2 <:+ input ∧
    ∀ f, (parseFunction h depth fuel input).1 = .ok f →
      (parseFunction h depth fuel input).2.length < input.length
  | 0, input => by
    simp only [parseFunction]
    exact ⟨List.suffix_refl _, fun f hf => by cases hf⟩
  | depth + 1, [] => by
    simp only [parseFunction]
    exact ⟨List.suffix_refl _, fun f hf => by cases hf⟩
  | depth + 1, c :: rest => by
    simp only [parseFunction]
    split
    · exact ⟨List.suffix_cons c rest, fun f hf => by cases hf⟩
    · obtain ⟨k1, -⟩ := parseFunctionLoop_spec h (fun i => parseFunction h depth fuel i)
        (fun i => parseFunction_rest h fuel depth i) fuel rest []
      refine ⟨k1.trans (List.suffix_cons c rest), fun _ _ => ?_⟩
      have := k1.length_le
      simp only [List.length_cons]
      omega

/-- The two cut-offs of `parseFunction`: it runs out of fuel only when the fuel is below the
length of its input, and, called on an input that starts with `{`, it exceeds the depth only
when the depth is below the number of `{` bytes of the input. -/
theorem parseFunction_cutoff {ν : Type} (h : Helpers ν) (fuel : Nat) :
    ∀ (depth : Nat) (input : List (Fin 256)) (e : Err),
    (parseFunction h depth fuel input).1 = .error e →
    (e = .outOfFuel → fuel < input.length) ∧
    (e = .depthExceeded → input.head? = some 0x7B → depth < input.count 0x7B)
  | 0, input, e, he => by
    simp only [parseFunction] at he
    injection he with he
    subst he
    refine ⟨fun hc => (by cases hc), fun _ hh => ?_⟩
    cases input with
    | nil => simp at hh
    | cons c rest =>
      simp only [List.head?_cons, Option.some.injEq] at hh
      subst hh
      simp
  | depth + 1, [], e, he => by
    simp only [parseFunction] at he
    injection he with he
    subst he
    exact ⟨fun hc => (by cases hc), fun hc => (by cases hc)⟩
  | depth + 1, c :: rest, e, he => by
    simp only [parseFunction] at he
    split at he
    · injection he with he
      subst he
      exact ⟨fun hc => (by cases hc), fun hc => (by cases hc)⟩
    · rename_i hc
      have hc1 : c = 0x7B := by simpa using hc
      subst hc1
      obtain ⟨k1, k2⟩ := parseFunctionLoop_spec h (fun i => parseFunction h depth fuel i)
        (fun i => parseFunction_rest h fuel depth i) fuel rest []
      refine ⟨fun hf => ?_, fun hd _ => ?_⟩
      · rcases k2 e he (Or.inl hf) with ⟨_, q⟩ | ⟨i, q1, _, q3⟩
        · simp only [List.length_cons]
          omega
        · have := (parseFunction_cutoff h fuel depth i e q3).1 hf
          have := q1.length_le
          simp only [List.length_cons]
          omega
      · rcases k2 e he (Or.inr hd) with ⟨q, _⟩ | ⟨i, q1, q2, q3⟩
        · rw [hd] at q
          cases q
        · have j1 := (parseFunction_cutoff h fuel depth i e q3).2 hd q2
          have j2 := q1.sublist.count_le (0x7B : Fin 256)
          simp only [List.count_cons_self]
          omega

/-- C21. `Parse` terminates on every input: with at least as much fuel as the content has
bytes, no loop of `parseFunction` is cut off, and with a depth of at least the number of `{`
bytes of the content the recursion of `parseFunction` is never cut off, so the result is
the program or an error of the parser. And every iteration of the loop of `parseFunction`
(at any depth and fuel) after which the loop goes on leaves an end of its input that is
shorter by at least one byte; the other iterations return. -/
theorem Parse_terminates {ν : Type} (h : Helpers ν) (depth fuel : Nat)
    (content : List (Fin 256))
    (hf : content.length ≤ fuel) (hd : content.count 0x7B ≤ depth) :
    (Parse h depth fuel content).1 ≠ .error .outOfFuel ∧
    (Parse h depth fuel content).1 ≠ .error .depthExceeded ∧
    ∀ (d f : Nat) (input : List (Fin 256)) (objs objs1 : List (PSObject ν))
      (rest : List (Fin 256)),
      loopBody h (fun i => parseFunction h d f i) input objs = .next objs1 rest →
      rest <:+ input ∧ rest.length < input.length := by
  have hs := skipSpaces_suffix h.IsWhiteSpace content 0
  have hmain : ∀ e, (Parse h depth fuel content).1 = .error e →
      e ≠ .outOfFuel ∧ e ≠ .depthExceeded := by
    intro e he
    unfold Parse at he
    generalize (skipSpaces h.IsWhiteSpace content 0).2 = input1 at hs he
    have hl := hs.length_le
    have hc := hs.sublist.count_le (0x7B : Fin 256)
    rcases input1 with _ | ⟨b0, _ | ⟨b1, rest⟩⟩
    · injection he with he
      subst he
      exact ⟨by decide, by decide⟩
    · injection he with he
      subst he
      exact ⟨by decide, by decide⟩
    · simp only at he
      split at he
      · injection he with he
        subst he
        exact ⟨by decide, by decide⟩
      · rename_i hb
        have hb0 : b0 = 0x7B := by simpa using hb
        obtain ⟨k1, k2⟩ := parseFunction_cutoff h fuel depth (b0 :: b1 :: rest) e he
        refine ⟨fun hc1 => ?_, fun hc1 => ?_⟩
        · have := k1 hc1
          omega
        · have := k2 hc1 (by simp [hb0])
          omega
  refine ⟨fun hc => (hmain _ hc).1 rfl, fun hc => (hmain _ hc).2 rfl, ?_⟩
  intro d f input objs objs1 rest heq
  exact (loopBody_spec h (fun i => parseFunction h d f i) input objs
    (fun i => parseFunction_rest h f d i)).2 objs1 rest heq

/-- Witness of C21: the program `{1 {2 add} true}`, 16 bytes of which two are `{`, with the
fuel 16 and the depth 2. -/
theorem Parse_terminates_witness :
    (Parse sampleHelpers 2 16
      [0x7B, 0x31, 0x20, 0x7B, 0x32, 0x20, 0x61, 0x64, 0x64, 0x7D, 0x20, 0x74, 0x72, 0x75,
       0x65, 0x7D]).1 ≠ .error .outOfFuel ∧
    (Parse sampleHelpers 2 16
      [0x7B, 0x31, 0x20, 0x7B, 0x32, 0x20, 0x61, 0x64, 0x64, 0x7D, 0x20, 0x74, 0x72, 0x75,
       0x65, 0x7D]).1 ≠ .error .depthExceeded ∧
    ∀ (d f : Nat) (input : List (Fin 256)) (objs objs1 : List (PSObject (List (Fin 256) × Bool)))
      (rest : List (Fin 256)),
      loopBody sampleHelpers (fun i => parseFunction sampleHelpers d f i) input objs =
        .next objs1 rest →
      rest <:+ input ∧ rest.length < input.length :=
  Parse_terminates sampleHelpers 2 16
    [0x7B, 0x31, 0x20, 0x7B, 0x32, 0x20, 0x61, 0x64, 0x64, 0x7D, 0x20, 0x74, 0x72, 0x75,
     0x65, 0x7D] (by decide) (by decide)

end PS
